import Mathlib

/-!
The staging-and-archival pipeline of `index.js`.

A shallow embedding of `index.js` over a model of the file system, and the
properties of its functions `getContents`, `copyDirectory`, `removeDirectory`,
`zipDirectory` and `main`.

The file system is the list of the existing paths with what they hold; a file
has contents and a mode.  The calls of `node:fs` and `node:path` are modelled
after their documentation and implementation; the archive library is modelled
as writing one entry per file and per directory below the archived directory.
The environment of a run is fixed in `Faults`: the faults that the modes do not
explain, and the limits on the length of a path.  The recursive functions take
fuel, and the theorems show that they return once the fuel is large enough.
-/

namespace ArchiveUtility


/-! ## Names and paths
A file system path is the list of its components below the root.  A component
is a string that a directory listing can return: non-empty, not `.` or `..`,
and free of the separator. -/

/-- The strings that can name a directory entry. -/
def validName (s : String) : Prop :=
  s ≠ "" ∧ s ≠ "." ∧ s ≠ ".." ∧ '/' ∉ s.data

/-- Validity of a name is decidable. -/
instance instDecidableValidName (s : String) : Decidable (validName s) := by
  unfold validName; infer_instance

/-- A directory-entry name. -/
abbrev Name := {s : String // validName s}

/-- An absolute, normalised path: the components below the root. -/
abbrev Path := List Name

/-- Splits a character list at every `/`. -/
def splitSlash : List Char → List (List Char)
  | [] => [[]]
  | c :: cs =>
    if c = '/' then [] :: splitSlash cs
    else
      match splitSlash cs with
      | [] => [[c]]
      | s :: ss => (c :: s) :: ss

/-- One step of path normalisation: `..` pops a component, an empty segment or
`.` is dropped, any other segment is appended. -/
def joinStep (acc : Path) (seg : String) : Path :=
  if seg = ".." then acc.dropLast
  else if h : validName seg then acc ++ [⟨seg, h⟩]
  else acc

/-- The call `path.join(base, s)` for an absolute normalised `base`: the segments of `s`
are applied to `base` from left to right. -/
def join (base : Path) (s : String) : Path :=
  (splitSlash s.data).foldl (fun acc seg => joinStep acc (String.mk seg)) base

/-- Whether `q` is `p` or lies below `p`. -/
def under : Path → Path → Bool
  | [], _ => true
  | _ :: _, [] => false
  | a :: p, b :: q => decide (a = b) && under p q

/-- The path of `q` relative to `p`, when `q` is `p` or lies below `p`. -/
def strip : Path → Path → Option Path
  | [], q => some q
  | _ :: _, [] => none
  | a :: p, b :: q => if a = b then strip p q else none

/-! ## File contents and the file system -/

/-- File contents: plain bytes; an archive, written as the chain of its entries
closed by `zipEnd`, where `zipEntry` is the entry of a file (relative path and
contents) and `zipDir` the entry of a directory (relative path); or what an
archive run that failed leaves behind, `incomplete`: some bytes, no usable
archive. -/
inductive Content where
  | raw (bytes : String)
  | zipEnd
  | zipEntry (path : Path) (data : Content) (rest : Content)
  | zipDir (path : Path) (rest : Content)
  | incomplete
  deriving DecidableEq, Repr

/-- The archive holding the given entries: a path with the contents of the file,
or with `none` for a directory. -/
def Content.pack : List (Path × Option Content) → Content
  | [] => .zipEnd
  | (p, some c) :: es => .zipEntry p c (Content.pack es)
  | (p, none) :: es => .zipDir p (Content.pack es)

/-- The entries of an archive; `none` for contents that are not a well-formed
archive. -/
def Content.entries : Content → Option (List (Path × Option Content))
  | .raw _ => none
  | .incomplete => none
  | .zipEnd => some []
  | .zipEntry p c rest => (Content.entries rest).map (fun es => (p, some c) :: es)
  | .zipDir p rest => (Content.entries rest).map (fun es => (p, none) :: es)

/-- A file: its contents and the part of its mode that matters to the user
running the program, who is taken to own the files: whether the file can be
opened for reading and for writing. -/
structure File where
  content : Content
  readable : Bool
  writable : Bool
  deriving DecidableEq, Repr

/-- A file with the default mode of a new file: readable and writable. -/
def File.plain (c : Content) : File := ⟨c, true, true⟩

/-- A file of plain bytes with the default mode. -/
def File.raw (bytes : String) : File := File.plain (.raw bytes)

/-- What a path holds. -/
inductive Entry where
  | file (f : File)
  | dir
  deriving DecidableEq, Repr

/-- What an archive stores for the entry: the contents of a file, nothing for a
directory. -/
def Entry.data : Entry → Option Content
  | .file f => some f.content
  | .dir => none

/-- Whether the entry is a directory. -/
def Entry.isDir : Entry → Bool
  | .dir => true
  | .file _ => false

/-- The file system: the existing paths with what they hold, in creation order.
Directory listings follow this order. -/
abbrev FS := List (Path × Entry)

/-- Error codes of the file system interface. -/
inductive Code where
  | ENOENT | ENOTDIR | EISDIR | EEXIST | EACCES | ENOTEMPTY | ENAMETOOLONG
  deriving DecidableEq, Repr

/-- An error: its code and the path it names. -/
structure Err where
  code : Code
  path : Path
  deriving DecidableEq, Repr

/-- The environment of one run.  The faults: the paths whose contents cannot be
read (`read`), that cannot be created or written (`write`), and that cannot be
removed (`remove`); these stand for failures of the system that the modes of the
files do not explain.  The limits: the longest path (`pathMax`) and the longest
name (`nameMax`) the system accepts, in bytes. -/
structure Faults where
  read : Path → Bool
  write : Path → Bool
  remove : Path → Bool
  pathMax : Nat
  nameMax : Nat

/-- The environment without faults, with the limits of Linux. -/
def Faults.none : Faults := ⟨fun _ => false, fun _ => false, fun _ => false, 4095, 255⟩

/-- The number of bytes of a character in UTF-8. -/
def utf8Len (c : Char) : Nat :=
  if c.toNat < 0x80 then 1 else if c.toNat < 0x800 then 2 else if c.toNat < 0x10000 then 3 else 4

/-- The number of bytes of a name. -/
def nameBytes (s : String) : Nat := (s.data.map utf8Len).sum

/-- The number of bytes of a path: every component with its separator. -/
def pathBytes (p : Path) : Nat := (p.map (fun n => nameBytes n.val + 1)).sum

/-- Whether the system refuses the path with `ENAMETOOLONG`. -/
def tooLong (fl : Faults) (p : Path) : Bool :=
  decide (fl.pathMax < pathBytes p) || p.any (fun n => decide (fl.nameMax < nameBytes n.val))

/-- What the path holds, `none` when it does not exist. -/
def stat : FS → Path → Option Entry
  | [], _ => none
  | (q, e) :: t, p => if q = p then some e else stat t p

/-- Writes `e` at `p`: in place when `p` exists, as the newest path otherwise. -/
def FS.set : FS → Path → Entry → FS
  | [], p, e => [(p, e)]
  | (q, x) :: t, p, e => if q = p then (q, e) :: t else (q, x) :: FS.set t p e

/-- Removes the path `p` itself. -/
def FS.erase (fs : FS) (p : Path) : FS :=
  fs.filter (fun x => decide (x.1 ≠ p))

/-- A directory entry as `readdir` with `withFileTypes` returns it. -/
structure Dirent where
  name : Name
  isDirectory : Bool
  deriving DecidableEq, Repr

/-- The directory entry for `x` in a listing of `p`, when `x` is an immediate
child of `p`. -/
def childOf (p : Path) (x : Path × Entry) : Option Dirent :=
  match strip p x.1 with
  | some [n] => some ⟨n, x.2.isDir⟩
  | _ => none

/-- The immediate children of `p`, in listing order. -/
def children (fs : FS) (p : Path) : List Dirent :=
  fs.filterMap (childOf p)

/-- The call `fs.readdir(p, { withFileTypes: true })`: the listing of a readable
directory. -/
def readdir (fl : Faults) (fs : FS) (p : Path) : Except Err (List Dirent) :=
  match stat fs p with
  | none => .error ⟨.ENOENT, p⟩
  | some (.file _) => .error ⟨.ENOTDIR, p⟩
  | some .dir => if fl.read p then .error ⟨.EACCES, p⟩ else .ok (children fs p)

/-- Makes `p` a directory if it is absent; fails with `code` when a file is in
the way. -/
def ensureDir (fl : Faults) (fs : FS) (p : Path) (code : Code) : FS × Option Err :=
  match stat fs p with
  | some .dir => (fs, none)
  | some (.file _) => (fs, some ⟨code, p⟩)
  | none => if fl.write p then (fs, some ⟨.EACCES, p⟩) else (fs ++ [(p, .dir)], none)

/-- Creates the directories `pre`, `pre/n₁`, … down to the target, top first. -/
def mkdirFrom (fl : Faults) : FS → Path → List Name → FS × Option Err
  | fs, pre, [] => ensureDir fl fs pre .EEXIST
  | fs, pre, n :: rest =>
    match ensureDir fl fs pre .ENOTDIR with
    | (fs1, none) => mkdirFrom fl fs1 (pre ++ [n]) rest
    | r => r

/-- The call `fs.promises.mkdir(p, { recursive: true })`: missing directories above
`p` are created, and an existing directory `p` is accepted; a path beyond the
limits of the system is refused. -/
def mkdirRecursive (fl : Faults) (fs : FS) (p : Path) : FS × Option Err :=
  if tooLong fl p then (fs, some ⟨.ENAMETOOLONG, p⟩) else mkdirFrom fl fs [] p

/-- The call `fs.promises.copyFile(src, dest)`: `src` is opened for reading and
`dest` for writing, an existing `dest` is overwritten, and `dest` gets the
contents and the mode of `src`.  An error names `src`. -/
def copyFile (fl : Faults) (fs : FS) (src dest : Path) : FS × Option Err :=
  match stat fs src with
  | none => (fs, some ⟨.ENOENT, src⟩)
  | some .dir => (fs, some ⟨.EISDIR, src⟩)
  | some (.file f) =>
    if fl.read src || !f.readable then (fs, some ⟨.EACCES, src⟩)
    else if tooLong fl dest then (fs, some ⟨.ENAMETOOLONG, src⟩)
    else
      match stat fs dest with
      | some .dir => (fs, some ⟨.EISDIR, src⟩)
      | some (.file d) =>
        if fl.write dest || !d.writable then (fs, some ⟨.EACCES, src⟩)
        else (fs.set dest (.file f), none)
      | none =>
        match stat fs dest.dropLast with
        | some .dir =>
          if fl.write dest then (fs, some ⟨.EACCES, src⟩) else (fs.set dest (.file f), none)
        | some (.file _) => (fs, some ⟨.ENOTDIR, src⟩)
        | none => (fs, some ⟨.ENOENT, src⟩)

/-- The call `fs.promises.unlink(p)`: removes a file. -/
def unlink (fl : Faults) (fs : FS) (p : Path) : FS × Option Err :=
  match stat fs p with
  | none => (fs, some ⟨.ENOENT, p⟩)
  | some .dir => (fs, some ⟨.EISDIR, p⟩)
  | some (.file _) => if fl.remove p then (fs, some ⟨.EACCES, p⟩) else (fs.erase p, none)

/-- The call `fs.promises.rmdir(p)`: only an empty directory is removed. -/
def rmdir (fl : Faults) (fs : FS) (p : Path) : FS × Option Err :=
  match stat fs p with
  | none => (fs, some ⟨.ENOENT, p⟩)
  | some (.file _) => (fs, some ⟨.ENOTDIR, p⟩)
  | some .dir =>
    if (children fs p).isEmpty then
      if fl.remove p then (fs, some ⟨.EACCES, p⟩) else (fs.erase p, none)
    else (fs, some ⟨.ENOTEMPTY, p⟩)

/-- A `for … of` loop over directory entries whose body awaits a fallible step:
the first error ends the loop.  `none` means the step ran out of fuel. -/
def forEntries (step : FS → Dirent → Option (FS × Option Err)) :
    FS → List Dirent → Option (FS × Option Err)
  | fs, [] => some (fs, none)
  | fs, d :: ds =>
    match step fs d with
    | none => none
    | some (fs1, some e) => some (fs1, some e)
    | some (fs1, none) => forEntries step fs1 ds

/-- The function `copyDirectory` of `index.js`.  The fuel bounds the recursion
depth; `none` means it was exhausted. -/
def copyDirectory (fl : Faults) : Nat → FS → Path → Path → Option (FS × Option Err)
  | 0, _, _, _ => none
  | fuel + 1, fs, src, dest =>
    match mkdirRecursive fl fs dest with
    | (fs1, some e) => some (fs1, some e)
    | (fs1, none) =>
      match readdir fl fs1 src with
      | .error e => some (fs1, some e)
      | .ok entries =>
        forEntries (fun s entry =>
          let srcPath := join src entry.name.val
          let destPath := join dest entry.name.val
          if entry.isDirectory then copyDirectory fl fuel s srcPath destPath
          else some (copyFile fl s srcPath destPath)) fs1 entries

/-- The function `removeDirectory` of `index.js`.  The fuel bounds the recursion
depth; `none` means it was exhausted. -/
def removeDirectory (fl : Faults) : Nat → FS → Path → Option (FS × Option Err)
  | 0, _, _ => none
  | fuel + 1, fs, dir =>
    match readdir fl fs dir with
    | .error e => some (fs, some e)
    | .ok entries =>
      match forEntries (fun s entry =>
          let fullPath := join dir entry.name.val
          if entry.isDirectory then removeDirectory fl fuel s fullPath
          else some (unlink fl s fullPath)) fs entries with
      | none => none
      | some (fs1, some e) => some (fs1, some e)
      | some (fs1, none) => some (rmdir fl fs1 dir)

/-! ## The archiver -/

/-- How the promise of `zipDirectory` ends: resolved on the `close` of the output
stream, rejected on an `error` of the archive, or neither: an `error` of the
output stream has no listener, so it ends the process. -/
inductive ZipResult where
  | resolved
  | rejected (e : Err)
  | crashed (e : Err)
  deriving DecidableEq, Repr

/-- Replaces the contents of the file at `p`; its mode stays. -/
def writeContent (fs : FS) (p : Path) (c : Content) : FS :=
  match stat fs p with
  | some (.file f) => fs.set p (.file ⟨c, f.readable, f.writable⟩)
  | _ => fs

/-- The call `fs.createWriteStream(out)`: the file is created with the default
mode, or truncated when it exists and can be written. -/
def createWriteStream (fl : Faults) (fs : FS) (out : Path) : FS × Option Err :=
  if tooLong fl out then (fs, some ⟨.ENAMETOOLONG, out⟩)
  else
    match stat fs out with
    | some .dir => (fs, some ⟨.EISDIR, out⟩)
    | some (.file f) =>
      if fl.write out || !f.writable then (fs, some ⟨.EACCES, out⟩)
      else (writeContent fs out (.raw ""), none)
    | none =>
      match stat fs out.dropLast with
      | some .dir =>
        if fl.write out then (fs, some ⟨.EACCES, out⟩)
        else (fs.set out (.file (File.plain (.raw ""))), none)
      | some (.file _) => (fs, some ⟨.ENOTDIR, out⟩)
      | none => (fs, some ⟨.ENOENT, out⟩)

/-- The archive entry for `x`, when `x` lies below `source`: the path relative
to `source`, with the contents of a file and with nothing for a directory. -/
def entryAt (source : Path) (x : Path × Entry) : Option (Path × Option Content) :=
  match strip source x.1 with
  | some (n :: r) => some (n :: r, x.2.data)
  | _ => none

/-- What `archive.directory(source, false)` puts into the archive: one entry for
every file and every directory below `source`, `source` itself left out. -/
def walkEntries (fs : FS) (source : Path) : List (Path × Option Content) :=
  fs.filterMap (entryAt source)

/-- Whether the archiver fails to read `x`: a fault of the environment, or a
file whose mode forbids reading. -/
def unreadable (fl : Faults) (x : Path × Entry) : Bool :=
  fl.read x.1 ||
    match x.2 with
    | .file f => !f.readable
    | .dir => false

/-- The first unreadable path at or below `source`, if any. -/
def firstUnreadable (fl : Faults) (fs : FS) (source : Path) : Option Path :=
  (fs.find? (fun x => under source x.1 && unreadable fl x)).map (fun x => x.1)

/-- The function `zipDirectory` of `index.js`.  The archive of a `source` that is
not a directory has no entries.  A path that cannot be read makes the archive
emit `error`, which rejects the promise and leaves the output file incomplete. -/
def zipDirectory (fl : Faults) (fs : FS) (source out : Path) : FS × ZipResult :=
  match createWriteStream fl fs out with
  | (fs1, some e) => (fs1, .crashed e)
  | (fs1, none) =>
    match stat fs1 source with
    | some .dir =>
      match firstUnreadable fl fs1 source with
      | some q => (writeContent fs1 out .incomplete, .rejected ⟨.EACCES, q⟩)
      | none => (writeContent fs1 out (Content.pack (walkEntries fs1 source)), .resolved)
    | _ => (writeContent fs1 out (Content.pack []), .resolved)

/-! ## Listing and filtering -/

/-- The suffix that starts at the last `.` of the characters, if there is one. -/
def lastDotSuffix : List Char → Option (List Char)
  | [] => none
  | c :: cs =>
    match lastDotSuffix cs with
    | some e => some e
    | none => if c = '.' then some (c :: cs) else none

/-- The function `path.extname` on a name without separator: the suffix from the last `.`,
empty when there is no `.`, when the only `.` is the first character, or when
the name is `..`. -/
def extname (s : String) : String :=
  match s.data with
  | [] => ""
  | _ :: cs =>
    if s = ".." then ""
    else
      match lastDotSuffix cs with
      | some e => String.mk e
      | none => ""

/-- An element of the array `getContents` returns. -/
structure Item where
  name : Name
  isDirectory : Bool
  type : String
  extension : Option String
  deriving DecidableEq, Repr

/-- The function `getContents` of `index.js`; `lower` is `String.prototype.toLowerCase`. -/
def getContents (lower : String → String) (fl : Faults) (fs : FS) (srcPath : Path) :
    Except Err (List Item) :=
  match readdir fl fs srcPath with
  | .error e => .error e
  | .ok dirents =>
    .ok (dirents.map (fun dirent =>
      { name := dirent.name
        isDirectory := dirent.isDirectory
        type := if dirent.isDirectory then "directory" else "file"
        extension := if dirent.isDirectory then none else some (lower (extname dirent.name.val)) }))

/-- The UTF-16 code units of a character. -/
def utf16 (c : Char) : List Nat :=
  if c.toNat < 0x10000 then [c.toNat]
  else [0xD800 + (c.toNat - 0x10000) / 0x400, 0xDC00 + (c.toNat - 0x10000) % 0x400]

/-- The UTF-16 code units of a list of characters. -/
def codeUnits : List Char → List Nat
  | [] => []
  | c :: cs => utf16 c ++ codeUnits cs

/-- Strict lexicographic order on code-unit sequences: how JavaScript compares
strings. -/
def unitsLt : List Nat → List Nat → Bool
  | _, [] => false
  | [], _ :: _ => true
  | a :: as, b :: bs => decide (a < b) || (decide (a = b) && unitsLt as bs)

/-- The conversion `String(x)` for a value that is a string or `null`. -/
def jsToString : Option String → String
  | some s => s
  | none => "null"

/-- The order of the default comparator of `Array.prototype.sort`: `x` does not
come after `y`. -/
def sortLe (x y : Option String) : Prop :=
  unitsLt (codeUnits (jsToString y).data) (codeUnits (jsToString x).data) = false

/-- The sort order is decidable. -/
instance instDecidableSortLe : DecidableRel sortLe := fun x y => by
  unfold sortLe; infer_instance

/-- The array `[...new Set(xs)]`: the first occurrence of every value, in order. -/
def uniq {α : Type} [DecidableEq α] : List α → List α
  | [] => []
  | x :: xs => x :: (uniq xs).filter (fun y => decide (y ≠ x))

/-- Truthiness of a value that is a string or `null`. -/
def truthy : Option String → Bool
  | some s => decide (s ≠ "")
  | none => false

/-- The array `extensions` of `main`. -/
def extensions (contents : List Item) : List (Option String) :=
  List.insertionSort sortLe
    (uniq ((contents.filter (fun item => truthy item.extension)).map (fun item => item.extension)))

/-- The values of the filter prompt. -/
inductive FilterOption where
  | all | directories | extension
  deriving DecidableEq, Repr

/-- What the operator answers to the prompts of one run. -/
structure Answers where
  customFolderName : String
  filterOption : FilterOption
  selectedExtension : Option String
  selected : List String

/-- The array `filteredContents` of `main`. -/
def filterContents (contents : List Item) (ans : Answers) : List Item :=
  match ans.filterOption with
  | .directories => contents.filter (fun item => item.isDirectory)
  | .extension =>
    if (extensions contents).length > 0 then
      contents.filter (fun item => decide (item.extension = ans.selectedExtension))
    else contents
  | .all => contents

/-! ## The pipeline -/

/-- The lines `main` writes to the console. -/
inductive Log where
  | dirMissing | nothingFound | noMatch | noSelection
  | moving | copied (item : String) | failedCopy (item : String) (e : Err)
  | zipping | zippedBytes | zipped | failedZip (e : Err)
  | cleaning | cleaned | failedClean (e : Err)
  | deleting | deleted (item : String) | failedDelete (item : String) (e : Err)
  | done | error (e : Err)
  deriving DecidableEq, Repr

/-- How a run ends: the early exits, the normal end, a rejection of `main`
that its `catch` reports, or an uncaught stream error. -/
inductive Outcome where
  | noSource | emptyListing | emptyFilter | emptySelection | done
  | aborted (e : Err) | crashed (e : Err)
  deriving DecidableEq, Repr

/-- One round of the staging loop of `main`. -/
def stageItem (fl : Faults) (fuel : Nat) (fs : FS) (sourceDir sharedFolder : Path)
    (item : String) : Option (FS × Log) :=
  let sourcePath := join sourceDir item
  let destPath := join sharedFolder item
  match stat fs sourcePath with
  | none => some (fs, .failedCopy item ⟨.ENOENT, sourcePath⟩)
  | some .dir =>
    match copyDirectory fl fuel fs sourcePath destPath with
    | none => none
    | some (fs1, none) => some (fs1, .copied item)
    | some (fs1, some e) => some (fs1, .failedCopy item e)
  | some (.file _) =>
    match copyFile fl fs sourcePath destPath with
    | (fs1, none) => some (fs1, .copied item)
    | (fs1, some e) => some (fs1, .failedCopy item e)

/-- The staging loop of `main`. -/
def stageLoop (fl : Faults) (fuel : Nat) (sourceDir sharedFolder : Path) :
    FS → List String → Option (FS × List Log)
  | fs, [] => some (fs, [])
  | fs, item :: rest =>
    match stageItem fl fuel fs sourceDir sharedFolder item with
    | none => none
    | some (fs1, l) =>
      match stageLoop fl fuel sourceDir sharedFolder fs1 rest with
      | none => none
      | some (fs2, ls) => some (fs2, l :: ls)

/-- One round of the loop of `main` that deletes the originals. -/
def deleteItem (fl : Faults) (fuel : Nat) (fs : FS) (sourceDir : Path)
    (item : String) : Option (FS × Log) :=
  let sourcePath := join sourceDir item
  match stat fs sourcePath with
  | none => some (fs, .failedDelete item ⟨.ENOENT, sourcePath⟩)
  | some .dir =>
    match removeDirectory fl fuel fs sourcePath with
    | none => none
    | some (fs1, none) => some (fs1, .deleted item)
    | some (fs1, some e) => some (fs1, .failedDelete item e)
  | some (.file _) =>
    match unlink fl fs sourcePath with
    | (fs1, none) => some (fs1, .deleted item)
    | (fs1, some e) => some (fs1, .failedDelete item e)

/-- The loop of `main` that deletes the originals. -/
def deleteLoop (fl : Faults) (fuel : Nat) (sourceDir : Path) :
    FS → List String → Option (FS × List Log)
  | fs, [] => some (fs, [])
  | fs, item :: rest =>
    match deleteItem fl fuel fs sourceDir item with
    | none => none
    | some (fs1, l) =>
      match deleteLoop fl fuel sourceDir fs1 rest with
      | none => none
      | some (fs2, ls) => some (fs2, l :: ls)

/-- The part of `main` after the archive step: staging cleanup, deletion of the
originals, `Done!`. -/
def cleanAndDelete (fl : Faults) (fuel : Nat) (fs : FS) (sourceDir sharedFolder : Path)
    (selected : List String) : Option (FS × List Log × Outcome) :=
  match removeDirectory fl fuel fs sharedFolder with
  | none => none
  | some (fs1, r) =>
    let cleanLog : Log :=
      match r with
      | none => .cleaned
      | some e => .failedClean e
    match deleteLoop fl fuel sourceDir fs1 selected with
    | none => none
    | some (fs2, ls) =>
      some (fs2, [.cleaning, cleanLog, .deleting] ++ ls ++ [.done], .done)

/-- The part of `main` from the creation of the staging folder on. -/
def runPipeline (fl : Faults) (fuel : Nat) (fs : FS) (sourceDir sharedFolder zipFile : Path)
    (selected : List String) : Option (FS × List Log × Outcome) :=
  match mkdirRecursive fl fs sharedFolder with
  | (fs1, some e) => some (fs1, [.error e], .aborted e)
  | (fs1, none) =>
    match stageLoop fl fuel sourceDir sharedFolder fs1 selected with
    | none => none
    | some (fs2, copyLog) =>
      match zipDirectory fl fs2 sharedFolder zipFile with
      | (fs3, .crashed e) => some (fs3, [.moving] ++ copyLog ++ [.zipping], .crashed e)
      | (fs3, r) =>
        let zipLog : List Log :=
          match r with
          | .resolved => [.zippedBytes, .zipped]
          | .rejected e => [.failedZip e]
          | .crashed e => [.failedZip e]
        match cleanAndDelete fl fuel fs3 sourceDir sharedFolder selected with
        | none => none
        | some (fs4, ls, out) => some (fs4, [.moving] ++ copyLog ++ [.zipping] ++ zipLog ++ ls, out)

/-- The function `main` of `index.js`, for a resolved source directory and the
operator's answers.  The result is the final file system, the console lines and
how the run ended; `none` means a recursive copy or removal ran out of fuel. -/
def main (lower : String → String) (fl : Faults) (fuel : Nat) (fs : FS) (sourceDir : Path)
    (ans : Answers) : Option (FS × List Log × Outcome) :=
  let sharedFolder := join sourceDir ans.customFolderName
  let zipFile := join sourceDir (ans.customFolderName ++ ".zip")
  if (stat fs sourceDir).isNone then some (fs, [.dirMissing], .noSource)
  else
    match getContents lower fl fs sourceDir with
    | .error e => some (fs, [.error e], .aborted e)
    | .ok contents =>
      if contents.length = 0 then some (fs, [.nothingFound], .emptyListing)
      else
        let filteredContents := filterContents contents ans
        if filteredContents.length = 0 then some (fs, [.noMatch], .emptyFilter)
        else
          let selected := ans.selected
          if selected.length = 0 then some (fs, [.noSelection], .emptySelection)
          else runPipeline fl fuel fs sourceDir sharedFolder zipFile selected

/-! ## Relations between file system states -/

/-- Neither path is at or below the other. -/
def Incomp (a b : Path) : Prop := under a b = false ∧ under b a = false

/-- The part of the file system on the paths that satisfy `P`. -/
def keep (P : Path → Bool) (fs : FS) : FS := fs.filter (fun x => P x.1)

/-- The complement of a set of paths. -/
def notIn (T : Path → Bool) (q : Path) : Bool := !T q

/-- The step from `fs` to `fs'` touches only paths in `T`: everything else is
the same, in the same order. -/
def Frame (T : Path → Bool) (fs fs' : FS) : Prop :=
  keep (notIn T) fs' = keep (notIn T) fs

/-- The step from `fs` to `fs'` creates nothing and changes no contents. -/
def Shrinks (fs fs' : FS) : Prop :=
  ∀ q, stat fs' q = none ∨ stat fs' q = stat fs q

/-- Well-formed file systems: every path is listed once, and whatever exists
lies in a directory. -/
structure WF (fs : FS) : Prop where
  nodup : (fs.map Prod.fst).Nodup
  parent : ∀ p n, (stat fs (p ++ [n])).isSome = true → stat fs p = some .dir

/-- The step from `fs` to `fs'` keeps every existing path as it is. -/
def Extends (fs fs' : FS) : Prop :=
  ∀ q e, stat fs q = some e → stat fs' q = some e

/-- The paths at, below or above `p`. -/
def comparable (p q : Path) : Bool := under p q || under q p

/-- The first of two optional entries that is present. -/
def overlay (a b : Option Entry) : Option Entry :=
  match a with
  | some e => some e
  | none => b

/-- The paths at or below `dest/d` for one of the listed entries `d`. -/
def underAny (dest : Path) (ds : List Dirent) (q : Path) : Bool :=
  ds.any (fun d => under (dest ++ [d.name]) q)

/-- The strict order of the default comparator of `Array.prototype.sort`. -/
def sortLt (x y : Option String) : Prop :=
  unitsLt (codeUnits (jsToString x).data) (codeUnits (jsToString y).data) = true

/-- The paths at or below `p/n` for one of the names `n`. -/
def underNames (p : Path) (names : List Name) (q : Path) : Bool :=
  names.any (fun n => under (p ++ [n]) q)

/-- What the staging loop logs for the item `n`. -/
def CopyLogOf (n : Name) (l : Log) : Prop :=
  l = .copied n.val ∨ ∃ e, l = .failedCopy n.val e

/-- What the deletion loop logs for the item `n`. -/
def DeleteLogOf (n : Name) (l : Log) : Prop :=
  l = .deleted n.val ∨ ∃ e, l = .failedDelete n.val e

/-- The paths the steps before the deletion of the originals can touch. -/
def stagingArea (shared zipFile : Path) (q : Path) : Bool :=
  comparable shared q || decide (q = zipFile)

/-- The regular runs of `main`: a well-formed file system, a folder name that is
a valid entry name and names neither an entry of the source directory nor, with
`.zip` appended, one; and a non-empty selection of distinct names from the
entries offered. -/
structure Regular (lower : String → String) (fl : Faults) (fs : FS) (src : Path)
    (ans : Answers) : Prop where
  wf : WF fs
  folder : validName ans.customFolderName
  fresh : stat fs (join src ans.customFolderName) = none
  freshZip : stat fs (join src (ans.customFolderName ++ ".zip")) = none
  listing : ∃ contents, getContents lower fl fs src = .ok contents ∧
    ∀ s ∈ ans.selected, ∃ item ∈ filterContents contents ans, item.name.val = s
  distinct : ans.selected.Nodup
  nonempty : ans.selected ≠ []

/-- The console lines that report a failure. -/
def Log.isFailure : Log → Bool
  | .failedCopy _ _ => true
  | .failedZip _ => true
  | .failedClean _ => true
  | .failedDelete _ _ => true
  | .error _ => true
  | _ => false

/-- A decidable test for well-formedness. -/
def wfCheck (fs : FS) : Bool :=
  decide (fs.map Prod.fst).Nodup &&
    fs.all (fun x => decide (x.1 = []) || decide (stat fs x.1.dropLast = some .dir))

/-- The length of the longest path. -/
def depth : FS → Nat
  | [] => 0
  | x :: t => max x.1.length (depth t)

/-- Lower-casing of the ASCII letters, the part of `toLowerCase` used in the
examples. -/
def lowerAscii (s : String) : String := String.mk (s.data.map Char.toLower)

/-! ## Example data -/

def nHome : Name := ⟨"home", by decide⟩
def nA : Name := ⟨"a.txt", by decide⟩
def nB : Name := ⟨"b.txt", by decide⟩
def nSub : Name := ⟨"sub", by decide⟩
def nC : Name := ⟨"c.txt", by decide⟩
def nOut : Name := ⟨"out", by decide⟩
def nOutZip : Name := ⟨"out.zip", by decide⟩
def nReadme : Name := ⟨"README", by decide⟩
def nBad : Name := ⟨"bad", by decide⟩
def nKeep : Name := ⟨"keep", by decide⟩
def nDst : Name := ⟨"dst", by decide⟩

/-- The source directory `/home` of the end-to-end scenario: `a.txt`, `b.txt`
and `sub/c.txt`. -/
def exFS : FS :=
  [([], .dir), ([nHome], .dir), ([nHome, nA], .file (.raw "A")), ([nHome, nB], .file (.raw "B")),
   ([nHome, nSub], .dir), ([nHome, nSub, nC], .file (.raw "C"))]

/-- The answers of the end-to-end scenario. -/
def exAns : Answers := ⟨"out", .all, none, ["a.txt", "sub"]⟩

/-- A source directory `/home` whose only entry is the file `README`. -/
def exReadme : FS := [([], .dir), ([nHome], .dir), ([nHome, nReadme], .file (.raw "R"))]

/-- A directory `/home/sub` that holds a directory of its own name. -/
def exNested : FS :=
  [([], .dir), ([nHome], .dir), ([nHome, nSub], .dir), ([nHome, nSub, nSub], .dir),
   ([nHome, nSub, nSub, nC], .file (.raw "C"))]

/-- A source `/home/sub` with a directory `out`, and a destination `/home/dst`
where `out` is a file. -/
def exClash : FS :=
  [([], .dir), ([nHome], .dir), ([nHome, nSub], .dir), ([nHome, nSub, nOut], .dir),
   ([nHome, nDst], .dir), ([nHome, nDst, nOut], .file (.raw "X"))]

/-- A source `/home/sub` with the file `c.txt`, and a destination `/home/dst`
that holds the file `b.txt`. -/
def exExtra : FS :=
  [([], .dir), ([nHome], .dir), ([nHome, nSub], .dir), ([nHome, nSub, nC], .file (.raw "C")),
   ([nHome, nDst], .dir), ([nHome, nDst, nB], .file (.raw "B"))]

/-- A source `/home/sub` whose file `c.txt` is read-only, and no destination. -/
def exReadOnly : FS :=
  [([], .dir), ([nHome], .dir), ([nHome, nSub], .dir),
   ([nHome, nSub, nC], .file ⟨.raw "C", true, false⟩)]

/-- A run in which `/home/a.txt` cannot be read. -/
def flUnreadable : Faults :=
  ⟨fun p => decide (p = [nHome, nA]), fun _ => false, fun _ => false, 4095, 255⟩

/-- A run in which `/home/a.txt` and the staged copy of `sub/c.txt` cannot be
read. -/
def flStaged : Faults :=
  ⟨fun p => decide (p = [nHome, nA]) || decide (p = [nHome, nOut, nSub, nC]),
    fun _ => false, fun _ => false, 4095, 255⟩

/-- A run in which `/home/a.txt` cannot be read and `/home/out.zip` cannot be
created. -/
def flNoArchive : Faults :=
  ⟨fun p => decide (p = [nHome, nA]), fun p => decide (p = [nHome, nOutZip]), fun _ => false,
    4095, 255⟩

/-- A run without faults on a system whose longest path has 24 bytes. -/
def flShort : Faults := ⟨fun _ => false, fun _ => false, fun _ => false, 24, 255⟩

/-- A source directory `/home` with `a.txt` and the directory `keep`, which holds
`b.txt`. -/
def exKeep : FS :=
  [([], .dir), ([nHome], .dir), ([nHome, nA], .file (.raw "A")), ([nHome, nKeep], .dir),
   ([nHome, nKeep, nB], .file (.raw "B"))]

/-- A source directory `/home` with `a.txt` and a file `out.zip`. -/
def exWithZip : FS :=
  [([], .dir), ([nHome], .dir), ([nHome, nA], .file (.raw "A")),
   ([nHome, nOutZip], .file (.raw "Z"))]

/-- A source directory `/home` with `a.txt` and a directory `out.zip`. -/
def exZipDir : FS :=
  [([], .dir), ([nHome], .dir), ([nHome, nA], .file (.raw "A")), ([nHome, nOutZip], .dir)]

/-- The archive of the end-to-end scenario: the entries of `a.txt`, of the
directory `sub` and of `sub/c.txt`. -/
def exArchive : Content :=
  Content.pack [([nA], some (.raw "A")), ([nSub], none), ([nSub, nC], some (.raw "C"))]

/-! # Properties -/

/-! ## Paths -/

theorem under_iff {p q : Path} : under p q = true ↔ ∃ r, q = p ++ r := by
  induction p generalizing q with
  | nil => simp [under]
  | cons a p ih =>
    cases q with
    | nil => simp [under]
    | cons b q =>
      simp only [under, Bool.and_eq_true, decide_eq_true_eq, ih, List.cons_append, List.cons.injEq]
      constructor
      · rintro ⟨rfl, r, rfl⟩; exact ⟨r, rfl, rfl⟩
      · rintro ⟨r, rfl, rfl⟩; exact ⟨rfl, r, rfl⟩

theorem under_append (p r : Path) : under p (p ++ r) = true := under_iff.2 ⟨r, rfl⟩

theorem under_refl (p : Path) : under p p = true := under_iff.2 ⟨[], by simp⟩

theorem under_trans {a b c : Path} (h1 : under a b = true) (h2 : under b c = true) :
    under a c = true := by
  obtain ⟨r, rfl⟩ := under_iff.1 h1
  obtain ⟨s, rfl⟩ := under_iff.1 h2
  exact under_iff.2 ⟨r ++ s, by simp⟩

theorem under_iff_pre {p q : Path} : under p q = true ↔ p <+: q := by
  rw [under_iff]; constructor
  · rintro ⟨r, rfl⟩; exact List.prefix_append _ _
  · rintro ⟨r, rfl⟩; exact ⟨r, rfl⟩

/-- Two paths with a common descendant are comparable. -/
theorem under_comparable {a b q : Path} (ha : under a q = true) (hb : under b q = true) :
    under a b = true ∨ under b a = true := by
  simp only [under_iff_pre] at *
  exact List.prefix_or_prefix_of_prefix ha hb

theorem under_antisymm {a b : Path} (h1 : under a b = true) (h2 : under b a = true) : a = b := by
  obtain ⟨r, rfl⟩ := under_iff.1 h1
  obtain ⟨s, hs⟩ := under_iff.1 h2
  have : r = [] := by
    have := congrArg List.length hs
    simp only [List.length_append] at this
    exact List.length_eq_zero.1 (by omega)
  simp [this]

theorem under_length {a b : Path} (h : under a b = true) : a.length ≤ b.length := by
  obtain ⟨r, rfl⟩ := under_iff.1 h
  simp

theorem strip_eq_some {p q r : Path} : strip p q = some r ↔ q = p ++ r := by
  induction p generalizing q with
  | nil => simp [strip, eq_comm]
  | cons a p ih =>
    cases q with
    | nil => simp [strip]
    | cons b q =>
      simp only [strip, List.cons_append, List.cons.injEq]
      by_cases hab : a = b
      · subst hab; simp [ih]
      · simp [hab]; intro h; exact absurd h.symm hab

theorem strip_append (p r : Path) : strip p (p ++ r) = some r := strip_eq_some.2 rfl

theorem strip_self (p : Path) : strip p p = some [] := strip_eq_some.2 (by simp)

theorem strip_eq_none {p q : Path} : strip p q = none ↔ under p q = false := by
  constructor
  · intro h
    by_contra hu
    simp only [Bool.not_eq_false] at hu
    obtain ⟨r, rfl⟩ := under_iff.1 hu
    simp [strip_append] at h
  · intro h
    cases hs : strip p q with
    | none => rfl
    | some r =>
      have := strip_eq_some.1 hs
      rw [this, under_append] at h
      exact absurd h (by simp)

theorem Incomp.symm {a b : Path} (h : Incomp a b) : Incomp b a := ⟨h.2, h.1⟩

theorem under_snoc_cases {q p : Path} {n : Name} (h : under q (p ++ [n]) = true) :
    q = p ++ [n] ∨ under q p = true := by
  simp only [under_iff_pre] at *
  rcases List.prefix_concat_iff.1 h with h | h
  · exact Or.inl h
  · exact Or.inr h

theorem Incomp.append {a b : Path} (h : Incomp a b) (r s : Path) : Incomp (a ++ r) (b ++ s) := by
  constructor
  · by_contra hc
    simp only [Bool.not_eq_false] at hc
    have h1 : under a (b ++ s) = true := under_trans (under_append a r) hc
    rcases under_comparable h1 (under_append b s) with h2 | h2
    · rw [h.1] at h2; exact absurd h2 (by simp)
    · rw [h.2] at h2; exact absurd h2 (by simp)
  · by_contra hc
    simp only [Bool.not_eq_false] at hc
    have h1 : under b (a ++ r) = true := under_trans (under_append b s) hc
    rcases under_comparable h1 (under_append a r) with h2 | h2
    · rw [h.2] at h2; exact absurd h2 (by simp)
    · rw [h.1] at h2; exact absurd h2 (by simp)

/-- No path lies at or below both of two incomparable paths. -/
theorem Incomp.not_both {a b q : Path} (h : Incomp a b) (ha : under a q = true) :
    under b q = false := by
  by_contra hc
  simp only [Bool.not_eq_false] at hc
  rcases under_comparable ha hc with h2 | h2
  · rw [h.1] at h2; exact absurd h2 (by simp)
  · rw [h.2] at h2; exact absurd h2 (by simp)

theorem Incomp.not_above {a b q : Path} (h : Incomp a b) (ha : under a q = true) :
    under q b = false := by
  by_contra hc
  simp only [Bool.not_eq_false] at hc
  have := under_trans ha hc
  rw [h.1] at this; exact absurd this (by simp)

theorem incomp_siblings (p : Path) {a b : Name} (h : a ≠ b) : Incomp (p ++ [a]) (p ++ [b]) := by
  constructor
  · by_contra hc
    simp only [Bool.not_eq_false] at hc
    obtain ⟨r, hr⟩ := under_iff.1 hc
    simp at hr
    exact h hr.1.symm
  · by_contra hc
    simp only [Bool.not_eq_false] at hc
    obtain ⟨r, hr⟩ := under_iff.1 hc
    simp at hr
    exact h hr.1

/-! ## `path.join` -/

theorem splitSlash_ne_nil (cs : List Char) : splitSlash cs ≠ [] := by
  induction cs with
  | nil => simp [splitSlash]
  | cons c cs ih =>
    simp only [splitSlash]
    split
    · simp
    · split <;> simp

theorem splitSlash_noSlash {cs : List Char} (h : '/' ∉ cs) : splitSlash cs = [cs] := by
  induction cs with
  | nil => simp [splitSlash]
  | cons c cs ih =>
    simp only [List.mem_cons, not_or] at h
    have hc : c ≠ '/' := fun e => h.1 e.symm
    simp [splitSlash, hc, ih h.2]

theorem join_valid (base : Path) {s : String} (h : validName s) :
    join base s = base ++ [⟨s, h⟩] := by
  unfold join
  rw [splitSlash_noSlash h.2.2.2]
  simp only [List.foldl_cons, List.foldl_nil, joinStep]
  have e : String.mk s.data = s := rfl
  rw [e]
  simp [h.2.2.1, h]

theorem join_name (base : Path) (n : Name) : join base n.val = base ++ [n] := by
  rw [join_valid base n.property]

theorem validName_zip {s : String} (h : validName s) : validName (s ++ ".zip") := by
  obtain ⟨h1, _, _, h4⟩ := h
  have hd : (s ++ ".zip").data = s.data ++ ['.', 'z', 'i', 'p'] := by
    simp [String.data_append]
  have hlen : 4 ≤ (s ++ ".zip").data.length := by rw [hd]; simp
  refine ⟨?_, ?_, ?_, ?_⟩
  · intro e; rw [e] at hlen; simp at hlen
  · intro e; rw [e] at hlen; simp at hlen
  · intro e; rw [e] at hlen; simp at hlen
  · rw [hd]; simp [h4]

theorem zip_ne_self (s : String) : s ++ ".zip" ≠ s := by
  intro e
  have := congrArg (fun t => t.data.length) e
  simp [String.data_append] at this

/-! ## Lookup, update, removal -/

theorem stat_set (fs : FS) (p : Path) (e : Entry) (q : Path) :
    stat (fs.set p e) q = if p = q then some e else stat fs q := by
  induction fs with
  | nil => simp [FS.set, stat]
  | cons x t ih =>
    obtain ⟨k, v⟩ := x
    by_cases hk : k = p
    · subst hk; simp only [FS.set, if_true, stat]; split <;> rfl
    · simp only [FS.set, hk, if_false, stat, ih]
      by_cases hq : k = q
      · subst hq; simp [Ne.symm hk]
      · simp [hq]

theorem stat_erase (fs : FS) (p q : Path) :
    stat (fs.erase p) q = if p = q then none else stat fs q := by
  induction fs with
  | nil => simp [FS.erase, stat]
  | cons x t ih =>
    obtain ⟨k, v⟩ := x
    unfold FS.erase at ih ⊢
    by_cases hk : k = p
    · subst hk
      simp only [List.filter, ne_eq, not_true_eq_false, decide_False, ih, stat]
      split <;> simp_all
    · simp only [List.filter, ne_eq, hk, not_false_eq_true, decide_True, stat, ih]
      by_cases hq : k = q
      · subst hq; simp [Ne.symm hk]
      · simp [hq]

theorem stat_append (fs gs : FS) (q : Path) :
    stat (fs ++ gs) q = match stat fs q with
      | some e => some e
      | none => stat gs q := by
  induction fs with
  | nil => simp [stat]
  | cons x t ih =>
    obtain ⟨k, v⟩ := x
    simp only [List.cons_append, stat]
    split
    · rfl
    · exact ih

theorem stat_snoc (fs : FS) (p : Path) (e : Entry) (q : Path) :
    stat (fs ++ [(p, e)]) q = match stat fs q with
      | some x => some x
      | none => if p = q then some e else none := by
  rw [stat_append]; simp [stat]

theorem set_of_stat_none {fs : FS} {p : Path} (e : Entry) (h : stat fs p = none) :
    fs.set p e = fs ++ [(p, e)] := by
  induction fs with
  | nil => simp [FS.set]
  | cons x t ih =>
    obtain ⟨k, v⟩ := x
    simp only [stat] at h
    split at h
    · simp at h
    · rename_i hk
      simp [FS.set, hk, ih h]

theorem set_of_stat_some {fs : FS} {p : Path} {e : Entry} (h : stat fs p = some e) :
    fs.set p e = fs := by
  induction fs with
  | nil => simp [stat] at h
  | cons x t ih =>
    obtain ⟨k, v⟩ := x
    simp only [stat] at h
    split at h
    · rename_i hk
      simp only [Option.some.injEq] at h
      subst h; simp [FS.set, hk]
    · rename_i hk
      simp [FS.set, hk, ih h]

theorem stat_isSome_of_mem {fs : FS} {q : Path} {e : Entry} (h : (q, e) ∈ fs) :
    (stat fs q).isSome = true := by
  induction fs with
  | nil => simp at h
  | cons x t ih =>
    obtain ⟨k, v⟩ := x
    simp only [stat]
    split
    · rfl
    · rename_i hk
      simp only [List.mem_cons, Prod.mk.injEq] at h
      rcases h with h | h
      · exact absurd h.1.symm hk
      · exact ih h

theorem mem_of_stat {fs : FS} {q : Path} {e : Entry} (h : stat fs q = some e) : (q, e) ∈ fs := by
  induction fs with
  | nil => simp [stat] at h
  | cons x t ih =>
    obtain ⟨k, v⟩ := x
    simp only [stat] at h
    split at h
    · rename_i hk
      simp only [Option.some.injEq] at h
      subst hk; subst h; simp
    · exact List.mem_cons_of_mem _ (ih h)

theorem stat_of_mem_nodup {fs : FS} (hn : (fs.map Prod.fst).Nodup) {q : Path} {e : Entry}
    (h : (q, e) ∈ fs) : stat fs q = some e := by
  induction fs with
  | nil => simp at h
  | cons x t ih =>
    obtain ⟨k, v⟩ := x
    simp only [List.map_cons, List.nodup_cons, List.mem_map, Prod.exists, exists_and_right,
      exists_eq_right, not_exists] at hn
    simp only [List.mem_cons, Prod.mk.injEq] at h
    simp only [stat]
    rcases h with h | h
    · simp [h.1, h.2]
    · have hk : k ≠ q := by
        rintro rfl
        exact hn.1 e h
      simp [hk, ih hn.2 h]

theorem stat_none_iff {fs : FS} {q : Path} : stat fs q = none ↔ ∀ e, (q, e) ∉ fs := by
  constructor
  · intro h e he
    have := stat_isSome_of_mem he
    rw [h] at this; simp at this
  · intro h
    cases hs : stat fs q with
    | none => rfl
    | some e => exact absurd (mem_of_stat hs) (h e)

/-! ## Restriction to a set of paths -/

theorem stat_keep {P : Path → Bool} {q : Path} (fs : FS) (h : P q = true) :
    stat (keep P fs) q = stat fs q := by
  induction fs with
  | nil => simp [keep]
  | cons x t ih =>
    obtain ⟨k, v⟩ := x
    unfold keep at ih ⊢
    by_cases hk : k = q
    · subst hk; simp [List.filter, h, stat]
    · cases hP : P k
      · simp [List.filter, hP, stat, hk, ih]
      · simp [List.filter, hP, stat, hk, ih]

theorem stat_keep_false {P : Path → Bool} {q : Path} (fs : FS) (h : P q = false) :
    stat (keep P fs) q = none := by
  rw [stat_none_iff]
  intro e he
  simp [keep, List.mem_filter] at he
  rw [h] at he; simp at he

theorem keep_keep {P Q : Path → Bool} (fs : FS) (h : ∀ q, P q = true → Q q = true) :
    keep P (keep Q fs) = keep P fs := by
  unfold keep
  rw [List.filter_filter]
  congr 1
  funext x
  cases hP : P x.1
  · simp
  · simp [h _ hP]

theorem keep_append (P : Path → Bool) (fs gs : FS) : keep P (fs ++ gs) = keep P fs ++ keep P gs := by
  simp [keep]

theorem keep_set {P : Path → Bool} (fs : FS) {p : Path} (e : Entry) (h : P p = false) :
    keep P (fs.set p e) = keep P fs := by
  induction fs with
  | nil => simp [FS.set, keep, h]
  | cons x t ih =>
    obtain ⟨k, v⟩ := x
    unfold keep at ih ⊢
    by_cases hk : k = p
    · subst hk; simp [FS.set, List.filter, h]
    · simp only [FS.set, hk, if_false, List.filter, ih]

theorem keep_erase {P : Path → Bool} (fs : FS) {p : Path} (h : P p = false) :
    keep P (fs.erase p) = keep P fs := by
  unfold keep FS.erase
  rw [List.filter_filter]
  congr 1
  funext x
  by_cases hx : x.1 = p
  · simp [hx, h]
  · simp [hx]

theorem keep_snoc {P : Path → Bool} (fs : FS) {p : Path} (e : Entry) (h : P p = false) :
    keep P (fs ++ [(p, e)]) = keep P fs := by
  simp [keep, h]

theorem childOf_eq_some {p : Path} {x : Path × Entry} {d : Dirent} :
    childOf p x = some d ↔ x.1 = p ++ [d.name] ∧ d.isDirectory = x.2.isDir := by
  unfold childOf
  split
  · rename_i n hn
    rw [strip_eq_some] at hn
    constructor
    · intro h
      simp only [Option.some.injEq] at h
      subst h
      exact ⟨hn, rfl⟩
    · rintro ⟨h1, h2⟩
      rw [hn] at h1
      have : n = d.name := by simpa using h1
      cases d
      simp_all
  · rename_i hne
    constructor
    · intro h; simp at h
    · rintro ⟨h1, _⟩
      exact absurd (strip_eq_some.2 h1) (hne d.name)

theorem childOf_eq_none {p : Path} {x : Path × Entry} (h : ∀ n, x.1 ≠ p ++ [n]) :
    childOf p x = none := by
  cases hc : childOf p x with
  | none => rfl
  | some d => exact absurd (childOf_eq_some.1 hc).1 (h d.name)

theorem children_keep {P : Path → Bool} (fs : FS) {p : Path} (h : ∀ n, P (p ++ [n]) = true) :
    children (keep P fs) p = children fs p := by
  induction fs with
  | nil => simp [keep, children]
  | cons x t ih =>
    obtain ⟨k, v⟩ := x
    unfold keep children at ih ⊢
    cases hP : P k
    · have hnone : childOf p (k, v) = none := by
        apply childOf_eq_none
        intro n hn
        have hn' : k = p ++ [n] := hn
        rw [hn', h] at hP; simp at hP
      simp only [List.filter, hP, List.filterMap_cons, ih, hnone]
    · simp only [List.filter, hP, List.filterMap_cons, ih]

theorem mem_children {fs : FS} {p : Path} {d : Dirent} :
    d ∈ children fs p ↔ ∃ e, (p ++ [d.name], e) ∈ fs ∧ d.isDirectory = e.isDir := by
  unfold children
  simp only [List.mem_filterMap, Prod.exists, childOf_eq_some]
  constructor
  · rintro ⟨k, v, hmem, h1, h2⟩
    subst h1
    exact ⟨v, hmem, h2⟩
  · rintro ⟨e, hmem, hd⟩
    exact ⟨p ++ [d.name], e, hmem, rfl, hd⟩

/-! ## Frames -/

theorem Frame.frame_refl (T : Path → Bool) (fs : FS) : Frame T fs fs := rfl

theorem Frame.frame_trans {T : Path → Bool} {a b c : FS} (h1 : Frame T a b) (h2 : Frame T b c) :
    Frame T a c := by
  unfold Frame at *; rw [h2, h1]

theorem Frame.keep {T P : Path → Bool} {fs fs' : FS} (h : Frame T fs fs')
    (hP : ∀ q, T q = true → P q = false) : keep P fs' = keep P fs := by
  have hq : ∀ q, P q = true → notIn T q = true := by
    intro q hq
    cases hT : T q
    · simp [notIn, hT]
    · rw [hP q hT] at hq; simp at hq
  rw [← keep_keep fs' hq, ← keep_keep fs hq]
  unfold Frame at h
  rw [h]

theorem Frame.mono {T T' : Path → Bool} {fs fs' : FS} (h : Frame T fs fs')
    (hT : ∀ q, T q = true → T' q = true) : Frame T' fs fs' := by
  apply h.keep
  intro q hq
  simp [notIn, hT q hq]

theorem Frame.stat {T : Path → Bool} {fs fs' : FS} (h : Frame T fs fs') {q : Path}
    (hq : T q = false) : stat fs' q = stat fs q := by
  have hk : notIn T q = true := by simp [notIn, hq]
  rw [← stat_keep fs' hk, ← stat_keep fs hk]
  unfold Frame at h
  rw [h]

theorem Frame.children {T : Path → Bool} {fs fs' : FS} (h : Frame T fs fs') {p : Path}
    (hp : ∀ n, T (p ++ [n]) = false) : children fs' p = children fs p := by
  have hk : ∀ n, notIn T (p ++ [n]) = true := by intro n; simp [notIn, hp n]
  rw [← children_keep fs' hk, ← children_keep fs hk]
  unfold Frame at h
  rw [h]

theorem frame_set {T : Path → Bool} (fs : FS) {p : Path} (e : Entry) (h : T p = true) :
    Frame T fs (fs.set p e) := by
  unfold Frame; exact keep_set fs e (by simp [notIn, h])

theorem frame_erase {T : Path → Bool} (fs : FS) {p : Path} (h : T p = true) :
    Frame T fs (fs.erase p) := by
  unfold Frame; exact keep_erase fs (by simp [notIn, h])

theorem frame_snoc {T : Path → Bool} (fs : FS) {p : Path} (e : Entry) (h : T p = true) :
    Frame T fs (fs ++ [(p, e)]) := by
  unfold Frame; exact keep_snoc fs e (by simp [notIn, h])

theorem Shrinks.shrinks_refl (fs : FS) : Shrinks fs fs := fun _ => Or.inr rfl

theorem Shrinks.shrinks_trans {a b c : FS} (h1 : Shrinks a b) (h2 : Shrinks b c) : Shrinks a c := by
  intro q
  rcases h2 q with h | h
  · exact Or.inl h
  · rcases h1 q with h' | h'
    · exact Or.inl (h.trans h')
    · exact Or.inr (h.trans h')

theorem shrinks_erase (fs : FS) (p : Path) : Shrinks fs (fs.erase p) := by
  intro q
  rw [stat_erase]
  split
  · exact Or.inl rfl
  · exact Or.inr rfl

theorem Extends.extends_refl (fs : FS) : Extends fs fs := fun _ _ h => h

theorem Extends.extends_trans {a b c : FS} (h1 : Extends a b) (h2 : Extends b c) : Extends a c :=
  fun q e h => h2 q e (h1 q e h)

theorem extends_snoc (fs : FS) (p : Path) (e : Entry) : Extends fs (fs ++ [(p, e)]) := by
  intro q x h
  rw [stat_snoc, h]

theorem map_fst_set (fs : FS) (p : Path) (e : Entry) :
    (fs.set p e).map Prod.fst =
      if (stat fs p).isSome then fs.map Prod.fst else fs.map Prod.fst ++ [p] := by
  induction fs with
  | nil => simp [FS.set, stat]
  | cons x t ih =>
    obtain ⟨k, v⟩ := x
    by_cases hk : k = p
    · simp [FS.set, stat, hk]
    · simp only [FS.set, hk, if_false, List.map_cons, ih, stat]
      split <;> simp

theorem nodup_set {fs : FS} (h : (fs.map Prod.fst).Nodup) (p : Path) (e : Entry) :
    ((fs.set p e).map Prod.fst).Nodup := by
  rw [map_fst_set]
  split
  · exact h
  · rename_i hs
    simp only [Bool.not_eq_true, Option.not_isSome, Option.isNone_iff_eq_none] at hs
    rw [List.nodup_append]
    refine ⟨h, by simp, ?_⟩
    intro a ha hb
    simp only [List.mem_singleton] at hb
    subst hb
    simp only [List.mem_map, Prod.exists, exists_and_right, exists_eq_right] at ha
    obtain ⟨x, hx⟩ := ha
    exact (stat_none_iff.1 hs) x hx

theorem nodup_erase {fs : FS} (h : (fs.map Prod.fst).Nodup) (p : Path) :
    ((fs.erase p).map Prod.fst).Nodup := by
  unfold FS.erase
  exact h.sublist (List.Sublist.map _ (List.filter_sublist _))

theorem wf_set {fs : FS} (h : WF fs) {p : Path} {e : Entry}
    (hpar : ∀ q n, p = q ++ [n] → stat fs q = some .dir)
    (he : e = .dir ∨ stat fs p ≠ some .dir) : WF (fs.set p e) := by
  refine ⟨nodup_set h.nodup p e, ?_⟩
  intro q n hs
  rw [stat_set] at hs ⊢
  by_cases h1 : p = q ++ [n]
  · have hne : p ≠ q := by
      intro e'; rw [e'] at h1
      have := congrArg List.length h1
      simp at this
    simp only [hne, if_false]
    exact hpar q n h1
  · simp only [h1, if_false] at hs
    have hq := h.parent q n hs
    by_cases h2 : p = q
    · subst h2
      simp only [if_true]
      rcases he with he | he
      · rw [he]
      · exact absurd hq he
    · simp only [h2, if_false]; exact hq

theorem wf_erase {fs : FS} (h : WF fs) {p : Path} (hc : ∀ n, stat fs (p ++ [n]) = none) :
    WF (fs.erase p) := by
  refine ⟨nodup_erase h.nodup p, ?_⟩
  intro q n hs
  rw [stat_erase] at hs ⊢
  split at hs
  · simp at hs
  · have hq := h.parent q n hs
    by_cases h2 : p = q
    · subst h2; rw [hc n] at hs; simp at hs
    · simp only [h2, if_false]; exact hq

/-- In a well-formed file system every path above an existing one is a directory. -/
theorem WF.above {fs : FS} (h : WF fs) {a : Path} (b : Path) (hb : b ≠ [])
    (hs : (stat fs (a ++ b)).isSome = true) : stat fs a = some .dir := by
  induction b using List.reverseRecOn generalizing a with
  | nil => exact absurd rfl hb
  | append_singleton b n ih =>
    rw [← List.append_assoc] at hs
    have hd := h.parent (a ++ b) n hs
    by_cases hbn : b = []
    · subst hbn; simpa using hd
    · exact ih hbn (by rw [hd]; rfl)

theorem WF.file_no_children {fs : FS} (h : WF fs) {p : Path} {c : File}
    (hp : stat fs p = some (.file c)) (b : Path) (hb : b ≠ []) : stat fs (p ++ b) = none := by
  cases hs : stat fs (p ++ b) with
  | none => rfl
  | some e =>
    have := h.above b hb (by rw [hs]; rfl)
    rw [hp] at this; simp at this

theorem no_children_of_empty {fs : FS} {p : Path} (h : (children fs p).isEmpty = true) (n : Name) :
    stat fs (p ++ [n]) = none := by
  rw [stat_none_iff]
  intro e he
  have : (⟨n, e.isDir⟩ : Dirent) ∈ children fs p := mem_children.2 ⟨e, he, rfl⟩
  rw [List.isEmpty_iff] at h
  rw [h] at this; simp at this

/-! ## The primitive operations -/

theorem ensureDir_cases {fl : Faults} {fs fs' : FS} {p : Path} {code : Code} {r : Option Err}
    (h : ensureDir fl fs p code = (fs', r)) :
    (fs' = fs ∧ (r = none → stat fs p = some .dir)) ∨
    (r = none ∧ stat fs p = none ∧ fl.write p = false ∧ fs' = fs ++ [(p, .dir)]) := by
  unfold ensureDir at h
  split at h
  · simp only [Prod.mk.injEq] at h; left; rename_i hs; exact ⟨h.1.symm, fun _ => hs⟩
  · simp only [Prod.mk.injEq] at h; left; refine ⟨h.1.symm, fun hr => ?_⟩
    rw [hr] at h; simp at h
  · rename_i hs
    split at h
    · simp only [Prod.mk.injEq] at h; left; refine ⟨h.1.symm, fun hr => ?_⟩
      rw [hr] at h; simp at h
    · rename_i hw
      simp only [Prod.mk.injEq] at h; right
      exact ⟨h.2.symm, hs, by simpa using hw, h.1.symm⟩

theorem ensureDir_dir {fl : Faults} {fs fs' : FS} {p : Path} {code : Code}
    (h : ensureDir fl fs p code = (fs', none)) : stat fs' p = some .dir := by
  rcases ensureDir_cases h with ⟨rfl, h2⟩ | ⟨_, hs, _, rfl⟩
  · exact h2 rfl
  · rw [stat_snoc, hs]; simp

theorem ensureDir_extends {fl : Faults} {fs fs' : FS} {p : Path} {code : Code} {r : Option Err}
    (h : ensureDir fl fs p code = (fs', r)) : Extends fs fs' := by
  rcases ensureDir_cases h with ⟨rfl, _⟩ | ⟨_, _, _, rfl⟩
  · exact Extends.extends_refl _
  · exact extends_snoc _ _ _

theorem ensureDir_frame {T : Path → Bool} {fl : Faults} {fs fs' : FS} {p : Path} {code : Code}
    {r : Option Err} (h : ensureDir fl fs p code = (fs', r)) (hT : T p = true) :
    Frame T fs fs' := by
  rcases ensureDir_cases h with ⟨rfl, _⟩ | ⟨_, _, _, rfl⟩
  · exact Frame.frame_refl _ _
  · exact frame_snoc _ _ hT

theorem ensureDir_wf {fl : Faults} {fs fs' : FS} {p : Path} {code : Code} {r : Option Err}
    (h : ensureDir fl fs p code = (fs', r)) (hw : WF fs)
    (hpar : ∀ q n, p = q ++ [n] → stat fs q = some .dir) : WF fs' := by
  rcases ensureDir_cases h with ⟨rfl, _⟩ | ⟨_, hs, _, rfl⟩
  · exact hw
  · rw [← set_of_stat_none _ hs]
    exact wf_set hw hpar (Or.inl rfl)

theorem ensureDir_noop {fl : Faults} {fs : FS} {p : Path} (code : Code)
    (h : stat fs p = some .dir) : ensureDir fl fs p code = (fs, none) := by
  simp [ensureDir, h]

theorem mkdirFrom_extends {fl : Faults} {rest : List Name} :
    ∀ {fs fs' : FS} {pre : Path} {r : Option Err},
      mkdirFrom fl fs pre rest = (fs', r) → Extends fs fs' := by
  induction rest with
  | nil => intro fs fs' pre r h; exact ensureDir_extends h
  | cons n rest ih =>
    intro fs fs' pre r h
    simp only [mkdirFrom] at h
    split at h
    · rename_i fs1 he
      exact (ensureDir_extends he).extends_trans (ih h)
    · rename_i hne
      exact ensureDir_extends h

theorem mkdirFrom_frame {T : Path → Bool} {fl : Faults} {rest : List Name} :
    ∀ {fs fs' : FS} {pre : Path} {r : Option Err},
      mkdirFrom fl fs pre rest = (fs', r) →
      (∀ q, under pre q = true → under q (pre ++ rest) = true → T q = true) → Frame T fs fs' := by
  induction rest with
  | nil =>
    intro fs fs' pre r h hT
    exact ensureDir_frame h (hT pre (under_refl _) (by simp [under_refl]))
  | cons n rest ih =>
    intro fs fs' pre r h hT
    simp only [mkdirFrom] at h
    have hpre : T pre = true := hT pre (under_refl _) (under_append _ _)
    split at h
    · rename_i fs1 he
      refine (ensureDir_frame he hpre).frame_trans (ih h ?_)
      intro q h1 h2
      refine hT q (under_trans (under_append pre [n]) h1) ?_
      simpa using h2
    · exact ensureDir_frame h hpre

theorem mkdirFrom_wf {fl : Faults} {rest : List Name} :
    ∀ {fs fs' : FS} {pre : Path} {r : Option Err},
      mkdirFrom fl fs pre rest = (fs', r) → WF fs →
      (∀ q n, pre = q ++ [n] → stat fs q = some .dir) → WF fs' := by
  induction rest with
  | nil => intro fs fs' pre r h hw hpar; exact ensureDir_wf h hw hpar
  | cons n rest ih =>
    intro fs fs' pre r h hw hpar
    simp only [mkdirFrom] at h
    split at h
    · rename_i fs1 he
      refine ih h (ensureDir_wf he hw hpar) ?_
      intro q m hq
      have := List.append_inj_left' hq (by simp)
      subst this
      exact ensureDir_dir he
    · exact ensureDir_wf h hw hpar

theorem mkdirFrom_dir {fl : Faults} {rest : List Name} :
    ∀ {fs fs' : FS} {pre : Path},
      mkdirFrom fl fs pre rest = (fs', none) → stat fs' (pre ++ rest) = some .dir := by
  induction rest with
  | nil => intro fs fs' pre h; simpa using ensureDir_dir h
  | cons n rest ih =>
    intro fs fs' pre h
    simp only [mkdirFrom] at h
    split at h
    · rename_i fs1 he
      have := ih h
      simpa using this
    · rename_i hne
      exact absurd h (by
        intro h'
        cases hh : ensureDir fl fs pre Code.ENOTDIR with
        | mk a b =>
          rw [hh] at h'
          simp only [Prod.mk.injEq] at h'
          exact hne a (by rw [hh, h'.2]))

theorem mkdirFrom_noop {fl : Faults} {rest : List Name} :
    ∀ {fs : FS} {pre : Path}, WF fs → stat fs (pre ++ rest) = some .dir →
      mkdirFrom fl fs pre rest = (fs, none) := by
  induction rest with
  | nil => intro fs pre _ h; simp only [mkdirFrom]; exact ensureDir_noop _ (by simpa using h)
  | cons n rest ih =>
    intro fs pre hw h
    simp only [mkdirFrom]
    have hpre : stat fs pre = some .dir := hw.above (n :: rest) (by simp) (by rw [h]; rfl)
    rw [ensureDir_noop _ hpre]
    exact ih hw (by simpa using h)

theorem mkdirRecursive_cases {fl : Faults} {fs fs' : FS} {p : Path} {r : Option Err}
    (h : mkdirRecursive fl fs p = (fs', r)) :
    (tooLong fl p = true ∧ fs' = fs ∧ r = some ⟨.ENAMETOOLONG, p⟩) ∨
    (tooLong fl p = false ∧ mkdirFrom fl fs [] p = (fs', r)) := by
  unfold mkdirRecursive at h
  split at h
  · rename_i ht
    simp only [Prod.mk.injEq] at h
    exact Or.inl ⟨ht, h.1.symm, h.2.symm⟩
  · rename_i ht
    exact Or.inr ⟨by simpa using ht, h⟩

theorem mkdirRecursive_extends {fl : Faults} {fs fs' : FS} {p : Path} {r : Option Err}
    (h : mkdirRecursive fl fs p = (fs', r)) : Extends fs fs' := by
  rcases mkdirRecursive_cases h with ⟨_, rfl, _⟩ | ⟨_, h⟩
  · exact Extends.extends_refl _
  · exact mkdirFrom_extends h

theorem mkdirRecursive_frame {fl : Faults} {fs fs' : FS} {p : Path} {r : Option Err}
    (h : mkdirRecursive fl fs p = (fs', r)) : Frame (fun q => under q p) fs fs' := by
  rcases mkdirRecursive_cases h with ⟨_, rfl, _⟩ | ⟨_, h⟩
  · exact Frame.frame_refl _ _
  · exact mkdirFrom_frame h (fun q _ h2 => by simpa using h2)

theorem mkdirRecursive_wf {fl : Faults} {fs fs' : FS} {p : Path} {r : Option Err}
    (h : mkdirRecursive fl fs p = (fs', r)) (hw : WF fs) : WF fs' := by
  rcases mkdirRecursive_cases h with ⟨_, rfl, _⟩ | ⟨_, h⟩
  · exact hw
  · exact mkdirFrom_wf h hw (fun q n hq => by simp at hq)

theorem mkdirRecursive_dir {fl : Faults} {fs fs' : FS} {p : Path}
    (h : mkdirRecursive fl fs p = (fs', none)) : stat fs' p = some .dir := by
  rcases mkdirRecursive_cases h with ⟨_, _, he⟩ | ⟨_, h⟩
  · simp at he
  · simpa using mkdirFrom_dir h

theorem mkdirRecursive_short {fl : Faults} {fs fs' : FS} {p : Path}
    (h : mkdirRecursive fl fs p = (fs', none)) : tooLong fl p = false := by
  rcases mkdirRecursive_cases h with ⟨_, _, he⟩ | ⟨ht, _⟩
  · simp at he
  · exact ht

theorem mkdirRecursive_noop {fl : Faults} {fs : FS} {p : Path} (hw : WF fs)
    (h : stat fs p = some .dir) (ht : tooLong fl p = false) :
    mkdirRecursive fl fs p = (fs, none) := by
  unfold mkdirRecursive
  rw [ht]
  exact mkdirFrom_noop hw (by simpa using h)

theorem dropLast_snoc (q : Path) (n : Name) : (q ++ [n]).dropLast = q := by
  simp

theorem copyFile_full {fl : Faults} {fs fs' : FS} {src dest : Path} {r : Option Err}
    (h : copyFile fl fs src dest = (fs', r)) :
    (fs' = fs ∧ ∃ e, r = some e ∧ e.path = src) ∨
    (r = none ∧ ∃ f, stat fs src = some (.file f) ∧ fl.read src = false ∧ f.readable = true ∧
      tooLong fl dest = false ∧ fl.write dest = false ∧ stat fs dest ≠ some .dir ∧
      (∀ d, stat fs dest = some (.file d) → d.writable = true) ∧
      (stat fs dest = none → stat fs dest.dropLast = some .dir) ∧
      fs' = fs.set dest (.file f)) := by
  unfold copyFile at h
  cases hsrc : stat fs src with
  | none =>
    simp only [hsrc, Prod.mk.injEq] at h
    exact Or.inl ⟨h.1.symm, _, h.2.symm, rfl⟩
  | some e =>
    cases e with
    | dir =>
      simp only [hsrc, Prod.mk.injEq] at h
      exact Or.inl ⟨h.1.symm, _, h.2.symm, rfl⟩
    | file f =>
      simp only [hsrc] at h
      by_cases hread : (fl.read src || !f.readable) = true
      · simp only [hread, if_true, Prod.mk.injEq] at h
        exact Or.inl ⟨h.1.symm, _, h.2.symm, rfl⟩
      · simp only [hread, Bool.false_eq_true, if_false] at h
        simp only [Bool.or_eq_true, Bool.not_eq_true', not_or, Bool.not_eq_true,
          Bool.not_eq_false] at hread
        by_cases hlong : tooLong fl dest = true
        · simp only [hlong, if_true, Prod.mk.injEq] at h
          exact Or.inl ⟨h.1.symm, _, h.2.symm, rfl⟩
        · simp only [hlong, Bool.false_eq_true, if_false] at h
          simp only [Bool.not_eq_true] at hlong
          cases hdest : stat fs dest with
          | some e =>
            cases e with
            | dir =>
              simp only [hdest, Prod.mk.injEq] at h
              exact Or.inl ⟨h.1.symm, _, h.2.symm, rfl⟩
            | file d =>
              simp only [hdest] at h
              by_cases hwr : (fl.write dest || !d.writable) = true
              · simp only [hwr, if_true, Prod.mk.injEq] at h
                exact Or.inl ⟨h.1.symm, _, h.2.symm, rfl⟩
              · simp only [hwr, Bool.false_eq_true, if_false, Prod.mk.injEq] at h
                simp only [Bool.or_eq_true, Bool.not_eq_true', not_or, Bool.not_eq_true,
                  Bool.not_eq_false] at hwr
                refine Or.inr ⟨h.2.symm, f, rfl, hread.1, hread.2, hlong, hwr.1, by simp, ?_,
                  by simp, h.1.symm⟩
                intro d' hd'
                simp only [Option.some.injEq, Entry.file.injEq] at hd'
                rw [← hd']; exact hwr.2
          | none =>
            simp only [hdest] at h
            cases hpar : stat fs dest.dropLast with
            | none =>
              simp only [hpar, Prod.mk.injEq] at h
              exact Or.inl ⟨h.1.symm, _, h.2.symm, rfl⟩
            | some e =>
              cases e with
              | file c =>
                simp only [hpar, Prod.mk.injEq] at h
                exact Or.inl ⟨h.1.symm, _, h.2.symm, rfl⟩
              | dir =>
                simp only [hpar] at h
                by_cases hwr : fl.write dest = true
                · simp only [hwr, if_true, Prod.mk.injEq] at h
                  exact Or.inl ⟨h.1.symm, _, h.2.symm, rfl⟩
                · simp only [hwr, Bool.false_eq_true, if_false, Prod.mk.injEq] at h
                  simp only [Bool.not_eq_true] at hwr
                  exact Or.inr ⟨h.2.symm, f, rfl, hread.1, hread.2, hlong, hwr, by simp,
                    by simp, fun _ => rfl, h.1.symm⟩

theorem copyFile_cases {fl : Faults} {fs fs' : FS} {src dest : Path} {r : Option Err}
    (h : copyFile fl fs src dest = (fs', r)) :
    (fs' = fs ∧ r ≠ none) ∨
    (r = none ∧ ∃ c, stat fs src = some (.file c) ∧ fl.read src = false ∧ fl.write dest = false ∧
      stat fs dest ≠ some .dir ∧ (stat fs dest = none → stat fs dest.dropLast = some .dir) ∧
      fs' = fs.set dest (.file c)) := by
  rcases copyFile_full h with ⟨h1, e, h2, _⟩ | ⟨h1, f, h2, h3, _, _, h4, h5, _, h6, h7⟩
  · exact Or.inl ⟨h1, by rw [h2]; simp⟩
  · exact Or.inr ⟨h1, f, h2, h3, h4, h5, h6, h7⟩

/-- When nothing is in the way, `copyFile` writes the file at `dest`. -/
theorem copyFile_ok {fl : Faults} {fs : FS} {src dest : Path} {c : File}
    (hsrc : stat fs src = some (.file c)) (hr : fl.read src = false) (hm : c.readable = true)
    (hl : tooLong fl dest = false) (hw : fl.write dest = false)
    (hd : stat fs dest ≠ some .dir) (hdw : ∀ d, stat fs dest = some (.file d) → d.writable = true)
    (hp : stat fs dest = none → stat fs dest.dropLast = some .dir) :
    copyFile fl fs src dest = (fs.set dest (.file c), none) := by
  unfold copyFile
  simp only [hsrc, hr, hm, hl, Bool.not_true, Bool.or_self, Bool.false_eq_true, if_false]
  cases hdest : stat fs dest with
  | none => simp [hp hdest, hw]
  | some e =>
    cases e with
    | dir => exact absurd hdest hd
    | file d => simp [hw, hdw d hdest]

theorem copyFile_frame {T : Path → Bool} {fl : Faults} {fs fs' : FS} {src dest : Path}
    {r : Option Err} (h : copyFile fl fs src dest = (fs', r)) (hT : T dest = true) :
    Frame T fs fs' := by
  rcases copyFile_cases h with ⟨rfl, _⟩ | ⟨_, c, _, _, _, _, _, rfl⟩
  · exact Frame.frame_refl _ _
  · exact frame_set _ _ hT

theorem copyFile_wf {fl : Faults} {fs fs' : FS} {src dest : Path} {r : Option Err}
    (h : copyFile fl fs src dest = (fs', r)) (hw : WF fs) : WF fs' := by
  rcases copyFile_cases h with ⟨rfl, _⟩ | ⟨_, c, _, _, _, hd, hp, rfl⟩
  · exact hw
  · refine wf_set hw ?_ (Or.inr hd)
    intro q n hq
    subst hq
    cases hs : stat fs (q ++ [n]) with
    | none => have := hp hs; simpa using this
    | some e => exact hw.parent q n (by rw [hs]; rfl)

theorem unlink_cases {fl : Faults} {fs fs' : FS} {p : Path} {r : Option Err}
    (h : unlink fl fs p = (fs', r)) :
    (fs' = fs ∧ ∃ e, r = some e ∧ e.path = p ∧ (e.code = .ENOENT → stat fs p = none)) ∨
    (r = none ∧ (∃ c, stat fs p = some (.file c)) ∧ fl.remove p = false ∧ fs' = fs.erase p) := by
  unfold unlink at h
  split at h
  · rename_i hs
    simp only [Prod.mk.injEq] at h; left; exact ⟨h.1.symm, _, h.2.symm, rfl, fun _ => hs⟩
  · simp only [Prod.mk.injEq] at h; left; exact ⟨h.1.symm, _, h.2.symm, rfl, by simp⟩
  · rename_i c hs
    split at h
    · simp only [Prod.mk.injEq] at h; left; exact ⟨h.1.symm, _, h.2.symm, rfl, by simp⟩
    · rename_i hrm
      simp only [Bool.not_eq_true] at hrm
      simp only [Prod.mk.injEq] at h; right
      exact ⟨h.2.symm, ⟨c, hs⟩, hrm, h.1.symm⟩

theorem rmdir_cases {fl : Faults} {fs fs' : FS} {p : Path} {r : Option Err}
    (h : rmdir fl fs p = (fs', r)) :
    (fs' = fs ∧ ∃ e, r = some e ∧ e.path = p ∧ (e.code = .ENOENT → stat fs p = none)) ∨
    (r = none ∧ stat fs p = some .dir ∧ (children fs p).isEmpty = true ∧ fl.remove p = false ∧
      fs' = fs.erase p) := by
  unfold rmdir at h
  split at h
  · rename_i hs
    simp only [Prod.mk.injEq] at h; left; exact ⟨h.1.symm, _, h.2.symm, rfl, fun _ => hs⟩
  · simp only [Prod.mk.injEq] at h; left; exact ⟨h.1.symm, _, h.2.symm, rfl, by simp⟩
  · rename_i hs
    split at h
    · rename_i hemp
      split at h
      · simp only [Prod.mk.injEq] at h; left; exact ⟨h.1.symm, _, h.2.symm, rfl, by simp⟩
      · rename_i hrm
        simp only [Bool.not_eq_true] at hrm
        simp only [Prod.mk.injEq] at h; right
        exact ⟨h.2.symm, hs, hemp, hrm, h.1.symm⟩
    · simp only [Prod.mk.injEq] at h; left; exact ⟨h.1.symm, _, h.2.symm, rfl, by simp⟩

theorem unlink_frame {T : Path → Bool} {fl : Faults} {fs fs' : FS} {p : Path} {r : Option Err}
    (h : unlink fl fs p = (fs', r)) (hT : T p = true) : Frame T fs fs' := by
  rcases unlink_cases h with ⟨rfl, _⟩ | ⟨_, _, _, rfl⟩
  · exact Frame.frame_refl _ _
  · exact frame_erase _ hT

theorem unlink_shrinks {fl : Faults} {fs fs' : FS} {p : Path} {r : Option Err}
    (h : unlink fl fs p = (fs', r)) : Shrinks fs fs' := by
  rcases unlink_cases h with ⟨rfl, _⟩ | ⟨_, _, _, rfl⟩
  · exact Shrinks.shrinks_refl _
  · exact shrinks_erase _ _

theorem unlink_wf {fl : Faults} {fs fs' : FS} {p : Path} {r : Option Err}
    (h : unlink fl fs p = (fs', r)) (hw : WF fs) : WF fs' := by
  rcases unlink_cases h with ⟨rfl, _⟩ | ⟨_, ⟨c, hc⟩, _, rfl⟩
  · exact hw
  · exact wf_erase hw (fun n => hw.file_no_children hc [n] (by simp))

theorem rmdir_frame {T : Path → Bool} {fl : Faults} {fs fs' : FS} {p : Path} {r : Option Err}
    (h : rmdir fl fs p = (fs', r)) (hT : T p = true) : Frame T fs fs' := by
  rcases rmdir_cases h with ⟨rfl, _⟩ | ⟨_, _, _, _, rfl⟩
  · exact Frame.frame_refl _ _
  · exact frame_erase _ hT

theorem rmdir_shrinks {fl : Faults} {fs fs' : FS} {p : Path} {r : Option Err}
    (h : rmdir fl fs p = (fs', r)) : Shrinks fs fs' := by
  rcases rmdir_cases h with ⟨rfl, _⟩ | ⟨_, _, _, _, rfl⟩
  · exact Shrinks.shrinks_refl _
  · exact shrinks_erase _ _

theorem rmdir_wf {fl : Faults} {fs fs' : FS} {p : Path} {r : Option Err}
    (h : rmdir fl fs p = (fs', r)) (hw : WF fs) : WF fs' := by
  rcases rmdir_cases h with ⟨rfl, _⟩ | ⟨_, _, hemp, _, rfl⟩
  · exact hw
  · exact wf_erase hw (no_children_of_empty hemp)

theorem readdir_ok {fl : Faults} {fs : FS} {p : Path} {ds : List Dirent}
    (h : readdir fl fs p = .ok ds) :
    stat fs p = some .dir ∧ fl.read p = false ∧ ds = children fs p := by
  unfold readdir at h
  split at h
  · simp at h
  · simp at h
  · rename_i hs
    split at h
    · simp at h
    · rename_i hr
      simp only [Bool.not_eq_true] at hr
      simp only [Except.ok.injEq] at h
      exact ⟨hs, hr, h.symm⟩

theorem readdir_error {fl : Faults} {fs : FS} {p : Path} {e : Err}
    (h : readdir fl fs p = .error e) :
    e.path = p ∧ (stat fs p = none → e.code = .ENOENT) ∧ (e.code = .ENOENT → stat fs p = none) := by
  unfold readdir at h
  split at h
  · rename_i hs
    simp only [Except.error.injEq] at h; subst h; exact ⟨rfl, fun _ => rfl, fun _ => hs⟩
  · rename_i c hs
    simp only [Except.error.injEq] at h; subst h
    exact ⟨rfl, fun h' => by rw [hs] at h'; simp at h', by simp⟩
  · rename_i hs
    split at h
    · simp only [Except.error.injEq] at h; subst h
      exact ⟨rfl, fun h' => by rw [hs] at h'; simp at h', by simp⟩
    · simp at h

theorem readdir_of_dir {fl : Faults} {fs : FS} {p : Path} (hs : stat fs p = some .dir)
    (hr : fl.read p = false) : readdir fl fs p = .ok (children fs p) := by
  simp [readdir, hs, hr]

/-- In a well-formed file system a listing names each child once, with its type. -/
theorem WF.children_spec {fs : FS} (hw : WF fs) {p : Path} {d : Dirent} :
    d ∈ children fs p ↔ ∃ e, stat fs (p ++ [d.name]) = some e ∧ d.isDirectory = e.isDir := by
  rw [mem_children]
  constructor
  · rintro ⟨e, he, hd⟩; exact ⟨e, stat_of_mem_nodup hw.nodup he, hd⟩
  · rintro ⟨e, he, hd⟩; exact ⟨e, mem_of_stat he, hd⟩

theorem children_names_nodup {fs : FS} (hn : (fs.map Prod.fst).Nodup) (p : Path) :
    ((children fs p).map Dirent.name).Nodup := by
  induction fs with
  | nil => simp [children]
  | cons x t ih =>
    obtain ⟨k, v⟩ := x
    simp only [List.map_cons, List.nodup_cons] at hn
    have iht := ih hn.2
    unfold children at iht ⊢
    cases hc : childOf p (k, v) with
    | none => simp only [List.filterMap_cons, hc]; exact iht
    | some d0 =>
      simp only [List.filterMap_cons, hc, List.map_cons, List.nodup_cons]
      refine ⟨?_, iht⟩
      intro hmem
      simp only [List.mem_map] at hmem
      obtain ⟨d, hd, hname⟩ := hmem
      have := (@mem_children t p d).1 hd
      obtain ⟨e, he, _⟩ := this
      have hk : k = p ++ [d0.name] := (childOf_eq_some.1 hc).1
      rw [hname, ← hk] at he
      exact hn.1 (List.mem_map.2 ⟨_, he, rfl⟩)

/-! ## Loops over directory entries -/

theorem forEntries_rel (R : FS → FS → Prop) (hrefl : ∀ s, R s s)
    (htrans : ∀ a b c, R a b → R b c → R a c)
    {step : FS → Dirent → Option (FS × Option Err)} {ds : List Dirent}
    (hstep : ∀ d ∈ ds, ∀ s s' r, step s d = some (s', r) → R s s') :
    ∀ {fs fs' : FS} {r : Option Err}, forEntries step fs ds = some (fs', r) → R fs fs' := by
  induction ds with
  | nil =>
    intro fs fs' r h
    simp only [forEntries, Option.some.injEq, Prod.mk.injEq] at h
    rw [← h.1]; exact hrefl _
  | cons d ds ih =>
    intro fs fs' r h
    simp only [forEntries] at h
    split at h
    · simp at h
    · rename_i fs1 e hs
      simp only [Option.some.injEq, Prod.mk.injEq] at h
      rw [← h.1]
      exact hstep d (List.mem_cons_self _ _) _ _ _ hs
    · rename_i fs1 hs
      exact htrans _ _ _ (hstep d (List.mem_cons_self _ _) _ _ _ hs)
        (ih (fun d' hd' => hstep d' (List.mem_cons_of_mem _ hd')) h)

theorem forEntries_inv (I : FS → Prop)
    {step : FS → Dirent → Option (FS × Option Err)} {ds : List Dirent}
    (hstep : ∀ d ∈ ds, ∀ s s' r, I s → step s d = some (s', r) → I s') :
    ∀ {fs fs' : FS} {r : Option Err}, I fs → forEntries step fs ds = some (fs', r) → I fs' := by
  induction ds with
  | nil =>
    intro fs fs' r hI h
    simp only [forEntries, Option.some.injEq, Prod.mk.injEq] at h
    rw [← h.1]; exact hI
  | cons d ds ih =>
    intro fs fs' r hI h
    simp only [forEntries] at h
    split at h
    · simp at h
    · rename_i fs1 e hs
      simp only [Option.some.injEq, Prod.mk.injEq] at h
      rw [← h.1]
      exact hstep d (List.mem_cons_self _ _) _ _ _ hI hs
    · rename_i fs1 hs
      exact ih (fun d' hd' => hstep d' (List.mem_cons_of_mem _ hd'))
        (hstep d (List.mem_cons_self _ _) _ _ _ hI hs) h

theorem forEntries_some (I : FS → Prop)
    {step : FS → Dirent → Option (FS × Option Err)} {ds : List Dirent}
    (hstep : ∀ d ∈ ds, ∀ s, I s → ∃ s' r, step s d = some (s', r) ∧ I s') :
    ∀ fs, I fs → ∃ fs' r, forEntries step fs ds = some (fs', r) := by
  induction ds with
  | nil => intro fs _; exact ⟨fs, none, rfl⟩
  | cons d ds ih =>
    intro fs hI
    obtain ⟨s', r, hs, hI'⟩ := hstep d (List.mem_cons_self _ _) fs hI
    simp only [forEntries, hs]
    cases r with
    | some e => exact ⟨s', some e, rfl⟩
    | none => exact ih (fun d' hd' => hstep d' (List.mem_cons_of_mem _ hd')) s' hI'

theorem forEntries_mono {step step' : FS → Dirent → Option (FS × Option Err)}
    {ds : List Dirent}
    (h : ∀ d ∈ ds, ∀ s x, step s d = some x → step' s d = some x) :
    ∀ {fs : FS} {x : FS × Option Err},
      forEntries step fs ds = some x → forEntries step' fs ds = some x := by
  induction ds with
  | nil => intro fs x hx; simpa [forEntries] using hx
  | cons d ds ih =>
    intro fs x hx
    simp only [forEntries] at hx ⊢
    split at hx
    · simp at hx
    · rename_i fs1 e hs
      rw [h d (List.mem_cons_self _ _) _ _ hs]
      exact hx
    · rename_i fs1 hs
      rw [h d (List.mem_cons_self _ _) _ _ hs]
      exact ih (fun d' hd' => h d' (List.mem_cons_of_mem _ hd')) hx

/-! ## `copyDirectory`: what it can touch -/

theorem copyDirectory_succ (fl : Faults) (fuel : Nat) (fs : FS) (src dest : Path) :
    copyDirectory fl (fuel + 1) fs src dest =
      match mkdirRecursive fl fs dest with
      | (fs1, some e) => some (fs1, some e)
      | (fs1, none) =>
        match readdir fl fs1 src with
        | .error e => some (fs1, some e)
        | .ok entries =>
          forEntries (fun s entry =>
            if entry.isDirectory then
              copyDirectory fl fuel s (src ++ [entry.name]) (dest ++ [entry.name])
            else some (copyFile fl s (src ++ [entry.name]) (dest ++ [entry.name]))) fs1 entries := by
  simp only [copyDirectory, join_name]

theorem removeDirectory_succ (fl : Faults) (fuel : Nat) (fs : FS) (dir : Path) :
    removeDirectory fl (fuel + 1) fs dir =
      match readdir fl fs dir with
      | .error e => some (fs, some e)
      | .ok entries =>
        match forEntries (fun s entry =>
            if entry.isDirectory then removeDirectory fl fuel s (dir ++ [entry.name])
            else some (unlink fl s (dir ++ [entry.name]))) fs entries with
        | none => none
        | some (fs1, some e) => some (fs1, some e)
        | some (fs1, none) => some (rmdir fl fs1 dir) := by
  simp only [removeDirectory, join_name]

theorem comparable_snoc {p q : Path} {n : Name} (h : comparable (p ++ [n]) q = true) :
    comparable p q = true := by
  simp only [comparable, Bool.or_eq_true] at h ⊢
  rcases h with h | h
  · exact Or.inl (under_trans (under_append p [n]) h)
  · rcases under_snoc_cases h with h | h
    · subst h; exact Or.inl (under_append p [n])
    · exact Or.inr h

/-- A copy touches only the destination, what is below it, and missing
directories above it. -/
theorem copyDirectory_frame (fl : Faults) :
    ∀ (fuel : Nat) {fs fs' : FS} {src dest : Path} {r : Option Err},
      copyDirectory fl fuel fs src dest = some (fs', r) → Frame (comparable dest) fs fs' := by
  intro fuel
  induction fuel with
  | zero => intro fs fs' src dest r h; simp [copyDirectory] at h
  | succ fuel ih =>
    intro fs fs' src dest r h
    rw [copyDirectory_succ] at h
    split at h
    · rename_i fs1 e hm
      simp only [Option.some.injEq, Prod.mk.injEq] at h
      rw [← h.1]
      exact (mkdirRecursive_frame hm).mono (fun q hq => by simp [comparable, hq])
    · rename_i fs1 hm
      have hf1 : Frame (comparable dest) fs fs1 :=
        (mkdirRecursive_frame hm).mono (fun q hq => by simp [comparable, hq])
      split at h
      · simp only [Option.some.injEq, Prod.mk.injEq] at h
        rw [← h.1]; exact hf1
      · rename_i entries hrd
        refine hf1.frame_trans (forEntries_rel (Frame (comparable dest)) (Frame.frame_refl _)
          (fun _ _ _ => Frame.frame_trans) ?_ h)
        intro d _ s s' r' hs
        split at hs
        · exact (ih hs).mono (fun q hq => comparable_snoc hq)
        · simp only [Option.some.injEq] at hs
          exact copyFile_frame hs (by simp [comparable, under_append])

theorem copyDirectory_wf (fl : Faults) :
    ∀ (fuel : Nat) {fs fs' : FS} {src dest : Path} {r : Option Err},
      copyDirectory fl fuel fs src dest = some (fs', r) → WF fs → WF fs' := by
  intro fuel
  induction fuel with
  | zero => intro fs fs' src dest r h; simp [copyDirectory] at h
  | succ fuel ih =>
    intro fs fs' src dest r h hw
    rw [copyDirectory_succ] at h
    split at h
    · rename_i fs1 e hm
      simp only [Option.some.injEq, Prod.mk.injEq] at h
      rw [← h.1]
      exact mkdirRecursive_wf hm hw
    · rename_i fs1 hm
      have hw1 := mkdirRecursive_wf hm hw
      split at h
      · simp only [Option.some.injEq, Prod.mk.injEq] at h
        rw [← h.1]; exact hw1
      · refine forEntries_inv WF ?_ hw1 h
        intro d _ s s' r' hws hs
        split at hs
        · exact ih hs hws
        · simp only [Option.some.injEq] at hs
          exact copyFile_wf hs hws

/-- The subtree at the source of a copy is left as it is when source and
destination are not at or below each other. -/
theorem copyDirectory_source {fl : Faults} {fuel : Nat} {fs fs' : FS} {src dest : Path}
    {r : Option Err} (hi : Incomp src dest)
    (h : copyDirectory fl fuel fs src dest = some (fs', r)) :
    keep (under src) fs' = keep (under src) fs := by
  apply (copyDirectory_frame fl fuel h).keep
  intro q hq
  simp only [comparable, Bool.or_eq_true] at hq
  rcases hq with hq | hq
  · exact hi.symm.not_both hq
  · by_contra hc
    simp only [Bool.not_eq_false] at hc
    have := under_trans hc hq
    rw [hi.1] at this; simp at this

theorem mem_keep {P : Path → Bool} {fs : FS} {x : Path × Entry} :
    x ∈ keep P fs ↔ x ∈ fs ∧ P x.1 = true := by
  simp [keep, List.mem_filter]

theorem children_of_keep_eq {fs fs' : FS} {p : Path}
    (h : keep (under p) fs' = keep (under p) fs) : children fs' p = children fs p := by
  rw [← children_keep fs' (P := under p) (fun n => under_append p [n]),
    ← children_keep fs (P := under p) (fun n => under_append p [n]), h]

theorem stat_of_keep_eq {P : Path → Bool} {fs fs' : FS}
    (h : keep P fs' = keep P fs) {q : Path} (hq : P q = true) : stat fs' q = stat fs q := by
  rw [← stat_keep fs' hq, ← stat_keep fs hq, h]

theorem keep_sub_of_keep_eq {fs fs' : FS} {p q : Path}
    (h : keep (under p) fs' = keep (under p) fs) (hq : under p q = true) :
    keep (under q) fs' = keep (under q) fs := by
  rw [← keep_keep fs' (Q := under p) (fun x hx => under_trans hq hx),
    ← keep_keep fs (Q := under p) (fun x hx => under_trans hq hx), h]

/-- With fuel beyond the depth of the source subtree a copy returns. -/
theorem copyDirectory_terminates (fl : Faults) :
    ∀ (fuel : Nat) (fs : FS) (src dest : Path), Incomp src dest →
      (∀ x ∈ keep (under src) fs, x.1.length ≤ src.length + fuel) →
      ∃ fs' r, copyDirectory fl (fuel + 1) fs src dest = some (fs', r) := by
  intro fuel
  induction fuel with
  | zero =>
    intro fs src dest hi hb
    rw [copyDirectory_succ]
    cases hm : mkdirRecursive fl fs dest with
    | mk fs1 r1 =>
      cases r1 with
      | some e => exact ⟨_, _, rfl⟩
      | none =>
        simp only
        cases hrd : readdir fl fs1 src with
        | error e => exact ⟨_, _, rfl⟩
        | ok entries =>
          simp only
          have hk : keep (under src) fs1 = keep (under src) fs := by
            apply (mkdirRecursive_frame hm).keep
            intro q hq
            by_contra hc
            simp only [Bool.not_eq_false] at hc
            have := under_trans hc hq
            rw [hi.1] at this; simp at this
          have hnil : entries = [] := by
            rw [(readdir_ok hrd).2.2, children_of_keep_eq hk]
            apply List.eq_nil_iff_forall_not_mem.2
            intro d hd
            obtain ⟨e, he, _⟩ := mem_children.1 hd
            have := hb _ (mem_keep.2 ⟨he, under_append _ _⟩)
            simp at this
          subst hnil
          exact ⟨_, _, rfl⟩
  | succ fuel ih =>
    intro fs src dest hi hb
    rw [copyDirectory_succ]
    cases hm : mkdirRecursive fl fs dest with
    | mk fs1 r1 =>
      cases r1 with
      | some e => exact ⟨_, _, rfl⟩
      | none =>
        simp only
        cases hrd : readdir fl fs1 src with
        | error e => exact ⟨_, _, rfl⟩
        | ok entries =>
          simp only
          have hk : keep (under src) fs1 = keep (under src) fs := by
            apply (mkdirRecursive_frame hm).keep
            intro q hq
            by_contra hc
            simp only [Bool.not_eq_false] at hc
            have := under_trans hc hq
            rw [hi.1] at this; simp at this
          apply forEntries_some (fun s => keep (under src) s = keep (under src) fs) _ fs1 hk
          intro d _ s hs
          have hi' : Incomp (src ++ [d.name]) (dest ++ [d.name]) := hi.append _ _
          have hsrc' : ∀ {s' : FS} {q : Path}, Frame (comparable (dest ++ [d.name])) s s' →
              keep (under src) s' = keep (under src) s := by
            intro s' q hf
            apply hf.keep
            intro q hq
            have := comparable_snoc hq
            simp only [comparable, Bool.or_eq_true] at this
            rcases this with hq | hq
            · exact hi.symm.not_both hq
            · by_contra hc
              simp only [Bool.not_eq_false] at hc
              have := under_trans hc hq
              rw [hi.1] at this; simp at this
          by_cases hd : d.isDirectory = true
          · simp only [hd, if_true]
            obtain ⟨s', r, hres⟩ := ih s (src ++ [d.name]) (dest ++ [d.name]) hi' (by
              intro x hx
              have hx' := mem_keep.1 hx
              have : x ∈ keep (under src) fs := by
                rw [← hs]
                exact mem_keep.2 ⟨hx'.1, under_trans (under_append src [d.name]) hx'.2⟩
              have := hb x this
              simp only [List.length_append, List.length_singleton]
              omega)
            refine ⟨s', r, hres, ?_⟩
            rw [hsrc' (q := []) (copyDirectory_frame fl _ hres), hs]
          · simp only [hd, if_false]
            cases hc : copyFile fl s (src ++ [d.name]) (dest ++ [d.name]) with
            | mk s' r =>
              refine ⟨s', r, rfl, ?_⟩
              rw [hsrc' (q := []) (copyFile_frame hc (by simp [comparable, under_refl])), hs]

theorem copyDirectory_mono (fl : Faults) :
    ∀ (fuel : Nat) {fs : FS} {src dest : Path} {x : FS × Option Err},
      copyDirectory fl fuel fs src dest = some x →
      copyDirectory fl (fuel + 1) fs src dest = some x := by
  intro fuel
  induction fuel with
  | zero => intro fs src dest x h; simp [copyDirectory] at h
  | succ fuel ih =>
    intro fs src dest x h
    rw [copyDirectory_succ] at h ⊢
    rcases hm : mkdirRecursive fl fs dest with ⟨fs1, _ | e⟩
    · rw [hm] at h
      simp only at h ⊢
      cases hrd : readdir fl fs1 src with
      | error e => rw [hrd] at h; exact h
      | ok entries =>
        rw [hrd] at h
        simp only at h ⊢
        refine forEntries_mono ?_ h
        intro d _ s y hy
        split at hy
        · rename_i hd; simp only [hd, if_true]; exact ih hy
        · rename_i hd; simp only [hd, if_false]; exact hy
    · rw [hm] at h; exact h

theorem copyDirectory_mono_le (fl : Faults) {fuel fuel' : Nat} (hle : fuel ≤ fuel')
    {fs : FS} {src dest : Path} {x : FS × Option Err}
    (h : copyDirectory fl fuel fs src dest = some x) :
    copyDirectory fl fuel' fs src dest = some x := by
  induction hle with
  | refl => exact h
  | step _ ih => exact copyDirectory_mono fl _ ih

theorem under_child_iff {p r : Path} {a b : Name} :
    under (p ++ [a]) (p ++ b :: r) = true ↔ a = b := by
  rw [under_iff]
  constructor
  · rintro ⟨t, ht⟩
    simp only [List.append_assoc, List.singleton_append, List.append_cancel_left_eq,
      List.cons.injEq] at ht
    exact ht.1.symm
  · rintro rfl; exact ⟨r, by simp⟩

theorem under_child_self {p : Path} {a : Name} : under (p ++ [a]) p = false := by
  by_contra hc
  simp only [Bool.not_eq_false] at hc
  have := under_length hc
  simp at this

theorem underAny_cons (dest : Path) (d : Dirent) (ds : List Dirent) (q : Path) :
    underAny dest (d :: ds) q = (under (dest ++ [d.name]) q || underAny dest ds q) := by
  simp [underAny]

theorem underAny_false {dest : Path} {ds : List Dirent} {n : Name} (r : Path)
    (h : n ∉ ds.map Dirent.name) : underAny dest ds (dest ++ n :: r) = false := by
  simp only [underAny, List.any_eq_false]
  intro d hd hu
  rw [under_child_iff] at hu
  exact h (List.mem_map.2 ⟨d, hd, hu⟩)

theorem underAny_under {dest : Path} {ds : List Dirent} {q : Path}
    (h : underAny dest ds q = true) : under dest q = true := by
  simp only [underAny, List.any_eq_true] at h
  obtain ⟨d, _, hd⟩ := h
  exact under_trans (under_append dest [d.name]) hd

theorem underAny_self {dest : Path} {ds : List Dirent} : underAny dest ds dest = false := by
  simp only [underAny, List.any_eq_false]
  intro d _
  simp [under_child_self]

/-! ## `copyDirectory`: the strict frame -/

theorem mkdirFrom_frame_strict {fl : Faults} {rest : List Name} :
    ∀ {fs fs' : FS} {pre : Path} {r : Option Err}, WF fs →
      (∀ q n, pre ++ rest = q ++ [n] → stat fs q = some .dir) →
      mkdirFrom fl fs pre rest = (fs', r) →
      Frame (fun q => decide (q = pre ++ rest)) fs fs' := by
  induction rest with
  | nil =>
    intro fs fs' pre r _ _ h
    exact ensureDir_frame h (by simp)
  | cons n rest ih =>
    intro fs fs' pre r hw hpar h
    simp only [mkdirFrom] at h
    have hpre : stat fs pre = some .dir := by
      have hne : n :: rest ≠ [] := by simp
      have hdl := List.dropLast_append_getLast hne
      have hq := hpar (pre ++ (n :: rest).dropLast) ((n :: rest).getLast hne) (by
        rw [List.append_assoc, hdl])
      by_cases hb : (n :: rest).dropLast = []
      · rw [hb] at hq; simpa using hq
      · exact hw.above _ hb (by rw [hq]; rfl)
    rw [ensureDir_noop _ hpre] at h
    simp only at h
    have := @ih fs fs' (pre ++ [n]) r hw (by
      intro q m hq
      exact hpar q m (by simpa using hq)) h
    simpa using this

theorem mkdirRecursive_frame_strict {fl : Faults} {fs fs' : FS} {p : Path} {r : Option Err}
    (hw : WF fs) (hpar : ∀ q n, p = q ++ [n] → stat fs q = some .dir)
    (h : mkdirRecursive fl fs p = (fs', r)) : Frame (fun q => decide (q = p)) fs fs' := by
  rcases mkdirRecursive_cases h with ⟨_, rfl, _⟩ | ⟨_, h⟩
  · exact Frame.frame_refl _ _
  · have := @mkdirFrom_frame_strict fl p fs fs' [] r hw (by simpa using hpar) h
    simpa using this

/-- A copy into a destination whose parent directory exists touches only the
destination and what is below it. -/
theorem copyDirectory_frame_under (fl : Faults) :
    ∀ (fuel : Nat) {fs fs' : FS} {src dest : Path} {r : Option Err}, WF fs →
      (∀ q n, dest = q ++ [n] → stat fs q = some .dir) →
      copyDirectory fl fuel fs src dest = some (fs', r) → Frame (under dest) fs fs' := by
  intro fuel
  induction fuel with
  | zero => intro fs fs' src dest r _ _ h; simp [copyDirectory] at h
  | succ fuel ih =>
    intro fs fs' src dest r hw hpar h
    rw [copyDirectory_succ] at h
    rcases hm : mkdirRecursive fl fs dest with ⟨fs1, _ | e⟩
    · rw [hm] at h
      simp only at h
      have hf1 : Frame (under dest) fs fs1 :=
        (mkdirRecursive_frame_strict hw hpar hm).mono (fun q hq => by
          simp only [decide_eq_true_eq] at hq; rw [hq]; exact under_refl _)
      have hw1 := mkdirRecursive_wf hm hw
      have hd1 := mkdirRecursive_dir hm
      cases hrd : readdir fl fs1 src with
      | error e =>
        rw [hrd] at h
        simp only [Option.some.injEq, Prod.mk.injEq] at h
        rw [← h.1]; exact hf1
      | ok entries =>
        rw [hrd] at h
        simp only at h
        have := forEntries_rel
          (fun s s' => WF s ∧ stat s dest = some .dir →
            WF s' ∧ stat s' dest = some .dir ∧ Frame (under dest) s s')
          (fun s hs => ⟨hs.1, hs.2, Frame.frame_refl _ _⟩)
          (fun a b c hab hbc ha => by
            obtain ⟨h1, h2, h3⟩ := hab ha
            obtain ⟨h4, h5, h6⟩ := hbc ⟨h1, h2⟩
            exact ⟨h4, h5, h3.frame_trans h6⟩)
          (by
            intro d _ s s' r' hs ⟨hws, hds⟩
            have hsub : ∀ q, under (dest ++ [d.name]) q = true → under dest q = true :=
              fun q hq => under_trans (under_append dest [d.name]) hq
            split at hs
            · have hf := ih hws (by
                intro q m hq
                have := List.append_inj_left' hq (by simp)
                rw [← this]; exact hds) hs
              refine ⟨copyDirectory_wf fl _ hs hws, ?_, hf.mono hsub⟩
              rw [hf.stat under_child_self]; exact hds
            · simp only [Option.some.injEq] at hs
              have hf : Frame (under (dest ++ [d.name])) s s' :=
                copyFile_frame hs (under_refl _)
              refine ⟨copyFile_wf hs hws, ?_, hf.mono hsub⟩
              rw [hf.stat under_child_self]; exact hds) h ⟨hw1, hd1⟩
        exact hf1.frame_trans this.2.2
    · rw [hm] at h
      simp only [Option.some.injEq, Prod.mk.injEq] at h
      rw [← h.1]
      exact (mkdirRecursive_frame_strict hw hpar hm).mono (fun q hq => by
        simp only [decide_eq_true_eq] at hq; rw [hq]; exact under_refl _)

/-- The loop of `copyDirectory` over the entries `ds`, started where `dest` is a
directory: it touches only what is at or below `dest/d` for the entries `d`. -/
theorem copyLoop_frame (fl : Faults) (fuel : Nat) (src dest : Path) :
    ∀ (ds : List Dirent) {s s' : FS} {r : Option Err}, WF s → stat s dest = some .dir →
      forEntries (fun s entry =>
        if entry.isDirectory then
          copyDirectory fl fuel s (src ++ [entry.name]) (dest ++ [entry.name])
        else some (copyFile fl s (src ++ [entry.name]) (dest ++ [entry.name]))) s ds
        = some (s', r) →
      WF s' ∧ stat s' dest = some .dir ∧ Frame (underAny dest ds) s s' := by
  intro ds
  induction ds with
  | nil =>
    intro s s' r hw hd h
    simp only [forEntries, Option.some.injEq, Prod.mk.injEq] at h
    rw [← h.1]; exact ⟨hw, hd, Frame.frame_refl _ _⟩
  | cons d ds ih =>
    intro s s' r hw hd h
    simp only [forEntries] at h
    have key : ∀ {s1 : FS} {r1 : Option Err},
        (if d.isDirectory then
          copyDirectory fl fuel s (src ++ [d.name]) (dest ++ [d.name])
        else some (copyFile fl s (src ++ [d.name]) (dest ++ [d.name]))) = some (s1, r1) →
        WF s1 ∧ stat s1 dest = some .dir ∧ Frame (underAny dest (d :: ds)) s s1 := by
      intro s1 r1 hs
      have hsub : ∀ q, under (dest ++ [d.name]) q = true → underAny dest (d :: ds) q = true :=
        fun q hq => by rw [underAny_cons, hq]; rfl
      split at hs
      · have hf := copyDirectory_frame_under fl fuel hw (by
          intro q m hq
          have := List.append_inj_left' hq (by simp)
          rw [← this]; exact hd) hs
        refine ⟨copyDirectory_wf fl _ hs hw, ?_, hf.mono hsub⟩
        rw [hf.stat under_child_self]; exact hd
      · simp only [Option.some.injEq] at hs
        have hf : Frame (under (dest ++ [d.name])) s s1 := copyFile_frame hs (under_refl _)
        refine ⟨copyFile_wf hs hw, ?_, hf.mono hsub⟩
        rw [hf.stat under_child_self]; exact hd
    split at h
    · simp at h
    · rename_i s1 e hs
      simp only [Option.some.injEq, Prod.mk.injEq] at h
      rw [← h.1]; exact key hs
    · rename_i s1 hs
      obtain ⟨hw1, hd1, hf1⟩ := key hs
      obtain ⟨hw2, hd2, hf2⟩ := ih hw1 hd1 h
      exact ⟨hw2, hd2, hf1.frame_trans (hf2.mono (fun q hq => by rw [underAny_cons, hq]; simp))⟩

/-! ## `copyDirectory`: what a successful copy leaves at the destination -/

theorem overlay_some {a : Option Entry} {e : Entry} (b : Option Entry) (h : a = some e) :
    overlay a b = some e := by
  subst h; rfl

theorem overlay_none {a : Option Entry} (b : Option Entry) (h : a = none) : overlay a b = b := by
  subst h; rfl

theorem keep_src_of_frame_child {src dest : Path} (hi : Incomp src dest) {n : Name} {s s1 : FS}
    (hf : Frame (under (dest ++ [n])) s s1) : keep (under src) s1 = keep (under src) s := by
  apply hf.keep
  intro q hq
  exact hi.symm.not_both (under_trans (under_append dest [n]) hq)

theorem keep_src_of_frame_any {src dest : Path} (hi : Incomp src dest) {ds : List Dirent}
    {s s1 : FS} (hf : Frame (underAny dest ds) s s1) :
    keep (under src) s1 = keep (under src) s := by
  apply hf.keep
  intro q hq
  exact hi.symm.not_both (underAny_under hq)

/-- The loop of a successful copy, given the result for the recursive calls. -/
theorem copyLoop_spec (fl : Faults) (fuel : Nat) (src dest : Path) (fs0 : FS) (hw0 : WF fs0)
    (hi : Incomp src dest)
    (ih : ∀ {fs fs' : FS} {src dest : Path}, WF fs → Incomp src dest →
      copyDirectory fl fuel fs src dest = some (fs', none) →
      ∀ r, stat fs' (dest ++ r) = overlay (stat fs (src ++ r)) (stat fs (dest ++ r))) :
    ∀ (ds : List Dirent) {s s' : FS}, (ds.map Dirent.name).Nodup →
      (∀ d ∈ ds, d ∈ children fs0 src) → WF s → stat s dest = some .dir →
      keep (under src) s = keep (under src) fs0 →
      forEntries (fun s entry =>
        if entry.isDirectory then
          copyDirectory fl fuel s (src ++ [entry.name]) (dest ++ [entry.name])
        else some (copyFile fl s (src ++ [entry.name]) (dest ++ [entry.name]))) s ds
        = some (s', none) →
      ∀ d ∈ ds, ∀ r, stat s' (dest ++ d.name :: r) =
        overlay (stat fs0 (src ++ d.name :: r)) (stat s (dest ++ d.name :: r)) := by
  intro ds
  induction ds with
  | nil => intro s s' _ _ _ _ _ _ d hd; simp at hd
  | cons d ds ihl =>
    intro s s' hnd hmem hw hd hk h
    have hloop := h
    simp only [forEntries] at h
    simp only [List.map_cons, List.nodup_cons] at hnd
    split at h
    · simp at h
    · simp at h
    · rename_i s1 hs
      -- the step for `d`
      have hone : WF s1 ∧ stat s1 dest = some .dir ∧ Frame (underAny dest [d]) s s1 :=
        copyLoop_frame fl fuel src dest [d] (r := none) hw hd (by simp only [forEntries, hs])
      have hf1 : Frame (under (dest ++ [d.name])) s s1 :=
        hone.2.2.mono (fun q hq => by simpa [underAny] using hq)
      have hk1 : keep (under src) s1 = keep (under src) fs0 := by
        rw [keep_src_of_frame_child hi hf1, hk]
      have hrest := copyLoop_frame fl fuel src dest ds hone.1 hone.2.1 h
      have hstat0 : ∀ q, under src q = true → stat s q = stat fs0 q :=
        fun q hq => stat_of_keep_eq hk hq
      have hF3 : ∀ r, stat s1 (dest ++ d.name :: r) =
          overlay (stat fs0 (src ++ d.name :: r)) (stat s (dest ++ d.name :: r)) := by
        intro r
        obtain ⟨e, he, hde⟩ := hw0.children_spec.1 (hmem d (List.mem_cons_self _ _))
        split at hs
        · have := ih hw (hi.append [d.name] [d.name]) hs r
          simp only [List.append_assoc, List.singleton_append] at this
          rw [this, hstat0 _ (under_append src _)]
        · simp only [Option.some.injEq] at hs
          rcases copyFile_cases hs with ⟨_, hne⟩ | ⟨_, c, hc, _, _, _, _, hset⟩
          · exact absurd rfl hne
          · rw [hstat0 _ (under_append src _)] at hc
            subst hset
            rw [stat_set]
            by_cases hr : r = []
            · subst hr
              simp only [if_true]
              rw [overlay_some _ hc]
            · have hne : dest ++ [d.name] ≠ dest ++ d.name :: r := by
                intro e'
                simp only [List.append_cancel_left_eq, List.cons.injEq, true_and] at e'
                exact hr e'.symm
              simp only [hne, if_false]
              have := hw0.file_no_children hc r hr
              simp only [List.append_assoc, List.singleton_append] at this
              rw [overlay_none _ this]
      intro d' hd' r
      rcases List.mem_cons.1 hd' with rfl | hd'
      · rw [hrest.2.2.stat (underAny_false r hnd.1)]
        exact hF3 r
      · have := ihl hnd.2 (fun x hx => hmem x (List.mem_cons_of_mem _ hx)) hone.1 hone.2.1 hk1 h
          d' hd' r
        rw [this]
        congr 1
        apply hf1.stat
        by_contra hc
        simp only [Bool.not_eq_false] at hc
        rw [under_child_iff] at hc
        exact hnd.1 (hc ▸ List.mem_map.2 ⟨d', hd', rfl⟩)

theorem not_under_of_incomp_above {src dest q : Path} (hi : Incomp src dest)
    (hq : under q dest = true) : under src q = false := by
  by_contra hc
  simp only [Bool.not_eq_false] at hc
  have := under_trans hc hq
  rw [hi.1] at this; simp at this

/-- After a successful copy the destination holds every path of the source, with
its type and contents, and what it held elsewhere before. -/
theorem copyDirectory_spec (fl : Faults) :
    ∀ (fuel : Nat) {fs fs' : FS} {src dest : Path}, WF fs → Incomp src dest →
      copyDirectory fl fuel fs src dest = some (fs', none) →
      ∀ r, stat fs' (dest ++ r) = overlay (stat fs (src ++ r)) (stat fs (dest ++ r)) := by
  intro fuel
  induction fuel with
  | zero => intro fs fs' src dest _ _ h; simp [copyDirectory] at h
  | succ fuel ih =>
    intro fs fs' src dest hw hi h r
    rw [copyDirectory_succ] at h
    rcases hm : mkdirRecursive fl fs dest with ⟨fs1, _ | e⟩
    · rw [hm] at h
      simp only at h
      have hw1 := mkdirRecursive_wf hm hw
      have hd1 := mkdirRecursive_dir hm
      have hfm := mkdirRecursive_frame hm
      have hk1 : keep (under src) fs1 = keep (under src) fs :=
        hfm.keep (fun q hq => not_under_of_incomp_above hi hq)
      cases hrd : readdir fl fs1 src with
      | error e => rw [hrd] at h; simp at h
      | ok entries =>
        rw [hrd] at h
        simp only at h
        obtain ⟨hsrc1, _, hent⟩ := readdir_ok hrd
        have hsrc : stat fs src = some .dir := by
          rw [← stat_of_keep_eq hk1 (under_refl src)]; exact hsrc1
        obtain ⟨hw', hd', hfl⟩ := copyLoop_frame fl fuel src dest entries hw1 hd1 h
        have hspec := copyLoop_spec fl fuel src dest fs1 hw1 hi (fun a b c => ih a b c) entries
          (by rw [hent]; exact children_names_nodup hw1.nodup src)
          (by intro d hd; rw [← hent]; exact hd) hw1 hd1 rfl h
        cases r with
        | nil =>
          simp only [List.append_nil]
          rw [overlay_some _ hsrc, hd']
        | cons n r =>
          have hsame1 : stat fs1 (src ++ n :: r) = stat fs (src ++ n :: r) :=
            stat_of_keep_eq hk1 (under_append _ _)
          have hsame2 : stat fs1 (dest ++ n :: r) = stat fs (dest ++ n :: r) := by
            apply hfm.stat
            by_contra hc
            simp only [Bool.not_eq_false] at hc
            have := under_length hc
            simp at this
          by_cases hn : n ∈ entries.map Dirent.name
          · obtain ⟨d, hd, hname⟩ := List.mem_map.1 hn
            have := hspec d hd r
            rw [hname] at this
            rw [this, hsame1, hsame2]
          · rw [hfl.stat (underAny_false r hn), hsame2]
            have hnone : stat fs (src ++ n :: r) = none := by
              cases hs : stat fs (src ++ n :: r) with
              | none => rfl
              | some e =>
                exfalso
                have hex : (stat fs1 (src ++ [n])).isSome = true := by
                  by_cases hr : r = []
                  · subst hr; rw [hsame1, hs]; rfl
                  · have := hw1.above (a := src ++ [n]) r hr (by
                      simp only [List.append_assoc, List.singleton_append]
                      rw [hsame1, hs]; rfl)
                    rw [this]; rfl
                obtain ⟨e', he'⟩ := Option.isSome_iff_exists.1 hex
                have : (⟨n, e'.isDir⟩ : Dirent) ∈ children fs1 src :=
                  hw1.children_spec.2 ⟨e', he', rfl⟩
                rw [← hent] at this
                exact hn (List.mem_map.2 ⟨_, this, rfl⟩)
            rw [overlay_none _ hnone]
    · rw [hm] at h; simp at h

/-! ## `copyDirectory`: running it again -/

/-- The loop of a copy that succeeded, run again where the destination already
holds the result: it succeeds and changes nothing. -/
theorem copyLoop_again (fl : Faults) (fuel : Nat) (src dest : Path) (fs0 fs1 fs2 : FS)
    (hw2 : WF fs2) (hi : Incomp src dest)
    (hk2 : keep (under src) fs2 = keep (under src) fs0)
    (hd2 : ∀ r, stat fs2 (dest ++ r) = stat fs1 (dest ++ r))
    (hwt : ∀ r f, stat fs2 (src ++ r) = some (.file f) → f.writable = true)
    (ih : ∀ {fs fs1 fs2 : FS} {src dest : Path}, WF fs → WF fs2 → Incomp src dest →
      copyDirectory fl fuel fs src dest = some (fs1, none) →
      keep (under src) fs2 = keep (under src) fs →
      (∀ r, stat fs2 (dest ++ r) = stat fs1 (dest ++ r)) →
      (∀ r f, stat fs2 (src ++ r) = some (.file f) → f.writable = true) →
      copyDirectory fl fuel fs2 src dest = some (fs2, none)) :
    ∀ (ds : List Dirent) {s : FS}, (ds.map Dirent.name).Nodup →
      (∀ d ∈ ds, d ∈ children fs0 src) → WF s → stat s dest = some .dir →
      keep (under src) s = keep (under src) fs0 →
      forEntries (fun s entry =>
        if entry.isDirectory then
          copyDirectory fl fuel s (src ++ [entry.name]) (dest ++ [entry.name])
        else some (copyFile fl s (src ++ [entry.name]) (dest ++ [entry.name]))) s ds
        = some (fs1, none) →
      forEntries (fun s entry =>
        if entry.isDirectory then
          copyDirectory fl fuel s (src ++ [entry.name]) (dest ++ [entry.name])
        else some (copyFile fl s (src ++ [entry.name]) (dest ++ [entry.name]))) fs2 ds
        = some (fs2, none) := by
  intro ds
  induction ds with
  | nil => intro s _ _ _ _ _ _; rfl
  | cons d ds ihl =>
    intro s hnd hmem hw hd hk h
    simp only [forEntries] at h
    simp only [List.map_cons, List.nodup_cons] at hnd
    split at h
    · simp at h
    · simp at h
    · rename_i s1 hs
      have hone : WF s1 ∧ stat s1 dest = some .dir ∧ Frame (underAny dest [d]) s s1 :=
        copyLoop_frame fl fuel src dest [d] (r := none) hw hd (by simp only [forEntries, hs])
      have hf1 : Frame (under (dest ++ [d.name])) s s1 :=
        hone.2.2.mono (fun q hq => by simpa [underAny] using hq)
      have hk1 : keep (under src) s1 = keep (under src) fs0 := by
        rw [keep_src_of_frame_child hi hf1, hk]
      have hrest := copyLoop_frame fl fuel src dest ds hone.1 hone.2.1 h
      have hfin : ∀ r, stat fs2 (dest ++ d.name :: r) = stat s1 (dest ++ d.name :: r) := by
        intro r
        rw [hd2, hrest.2.2.stat (underAny_false r hnd.1)]
      have hstep2 : (if d.isDirectory then
            copyDirectory fl fuel fs2 (src ++ [d.name]) (dest ++ [d.name])
          else some (copyFile fl fs2 (src ++ [d.name]) (dest ++ [d.name]))) = some (fs2, none) := by
        split at hs
        · rename_i hdir
          simp only [hdir, if_true]
          refine ih hw hw2 (hi.append _ _) hs ?_ ?_ ?_
          · rw [keep_sub_of_keep_eq hk2 (under_append src [d.name]),
              keep_sub_of_keep_eq hk (under_append src [d.name])]
          · intro r
            have := hfin r
            simpa using this
          · intro r f hf
            exact hwt (d.name :: r) f (by simpa using hf)
        · rename_i hdir
          simp only [hdir, if_false]
          simp only [Option.some.injEq] at hs
          rcases copyFile_full hs with ⟨_, e, hne, _⟩ | ⟨_, c, hc, hr, hm, hl, hwr, _, _, _, hset⟩
          · simp at hne
          · have hc2 : stat fs2 (src ++ [d.name]) = some (.file c) := by
              rw [stat_of_keep_eq hk2 (under_append src _), ← stat_of_keep_eq hk (under_append src _)]
              exact hc
            have hd2' : stat fs2 (dest ++ [d.name]) = some (.file c) := by
              rw [hfin [], hset, stat_set]; simp
            have hcw : c.writable = true := hwt [d.name] c hc2
            rw [copyFile_ok hc2 hr hm hl hwr (by rw [hd2']; simp)
                (fun d' h' => by
                  rw [hd2'] at h'
                  simp only [Option.some.injEq, Entry.file.injEq] at h'
                  rw [← h']; exact hcw)
                (by rw [hd2']; simp),
              set_of_stat_some hd2']
            simp
      simp only [forEntries]
      rw [hstep2]
      exact ihl hnd.2 (fun x hx => hmem x (List.mem_cons_of_mem _ hx)) hone.1 hone.2.1 hk1 h

/-- A copy that succeeded, run again where source and destination are as it left
them: it succeeds and changes nothing. -/
theorem copyDirectory_again (fl : Faults) :
    ∀ (fuel : Nat) {fs fs1 fs2 : FS} {src dest : Path}, WF fs → WF fs2 → Incomp src dest →
      copyDirectory fl fuel fs src dest = some (fs1, none) →
      keep (under src) fs2 = keep (under src) fs →
      (∀ r, stat fs2 (dest ++ r) = stat fs1 (dest ++ r)) →
      (∀ r f, stat fs2 (src ++ r) = some (.file f) → f.writable = true) →
      copyDirectory fl fuel fs2 src dest = some (fs2, none) := by
  intro fuel
  induction fuel with
  | zero => intro fs fs1 fs2 src dest _ _ _ h; simp [copyDirectory] at h
  | succ fuel ih =>
    intro fs fs1 fs2 src dest hw hw2 hi h hk2 hd2 hwt
    have hfirst := h
    rw [copyDirectory_succ] at h ⊢
    rcases hm : mkdirRecursive fl fs dest with ⟨fsA, _ | e⟩
    · rw [hm] at h
      simp only at h
      have hwA := mkdirRecursive_wf hm hw
      have hdA := mkdirRecursive_dir hm
      have hkA : keep (under src) fsA = keep (under src) fs :=
        (mkdirRecursive_frame hm).keep (fun q hq => not_under_of_incomp_above hi hq)
      cases hrd : readdir fl fsA src with
      | error e => rw [hrd] at h; simp at h
      | ok entries =>
        rw [hrd] at h
        simp only at h
        obtain ⟨hsrcA, hread, hent⟩ := readdir_ok hrd
        obtain ⟨_, hd1, _⟩ := copyLoop_frame fl fuel src dest entries hwA hdA h
        have hdest2 : stat fs2 dest = some .dir := by
          have := hd2 []
          simp only [List.append_nil] at this
          rw [this, hd1]
        rw [mkdirRecursive_noop hw2 hdest2 (mkdirRecursive_short hm)]
        simp only
        have hsrc2 : stat fs2 src = some .dir := by
          rw [stat_of_keep_eq hk2 (under_refl src), ← stat_of_keep_eq hkA (under_refl src)]
          exact hsrcA
        have hch2 : children fs2 src = entries := by
          rw [children_of_keep_eq hk2, ← children_of_keep_eq hkA, hent]
        rw [readdir_of_dir hsrc2 hread, hch2]
        simp only
        exact copyLoop_again fl fuel src dest fsA fs1 fs2 hw2 hi (by rw [hk2, hkA]) hd2 hwt
          (fun a b c d e f g => ih a b c d e f g) entries
          (by rw [hent]; exact children_names_nodup hwA.nodup src)
          (by intro d hd; rw [← hent]; exact hd) hwA hdA rfl h
    · rw [hm] at h; simp at h

/-! ## `removeDirectory` -/

theorem removeDirectory_cases {fl : Faults} {fuel : Nat} {fs fs' : FS} {dir : Path}
    {r : Option Err} (h : removeDirectory fl (fuel + 1) fs dir = some (fs', r)) :
    (∃ e, readdir fl fs dir = .error e ∧ fs' = fs ∧ r = some e) ∨
    (∃ entries, readdir fl fs dir = .ok entries ∧
      ((∃ e, forEntries (fun s entry =>
            if entry.isDirectory then removeDirectory fl fuel s (dir ++ [entry.name])
            else some (unlink fl s (dir ++ [entry.name]))) fs entries = some (fs', some e) ∧
          r = some e) ∨
       (∃ s, forEntries (fun s entry =>
            if entry.isDirectory then removeDirectory fl fuel s (dir ++ [entry.name])
            else some (unlink fl s (dir ++ [entry.name]))) fs entries = some (s, none) ∧
          rmdir fl s dir = (fs', r)))) := by
  rw [removeDirectory_succ] at h
  cases hrd : readdir fl fs dir with
  | error e =>
    rw [hrd] at h
    simp only [Option.some.injEq, Prod.mk.injEq] at h
    exact Or.inl ⟨e, rfl, h.1.symm, h.2.symm⟩
  | ok entries =>
    rw [hrd] at h
    simp only at h
    right
    refine ⟨entries, rfl, ?_⟩
    split at h
    · simp at h
    · rename_i s e hl
      simp only [Option.some.injEq, Prod.mk.injEq] at h
      left
      exact ⟨e, by rw [hl, h.1], h.2.symm⟩
    · rename_i s hl
      simp only [Option.some.injEq] at h
      right
      exact ⟨s, hl, h⟩

/-- From a relation that every primitive removal satisfies to the whole of
`removeDirectory`. -/
theorem removeDirectory_rel (fl : Faults) (R : FS → FS → Prop) (hrefl : ∀ s, R s s)
    (htrans : ∀ a b c, R a b → R b c → R a c)
    (hunlink : ∀ s s' p r, unlink fl s p = (s', r) → R s s')
    (hrmdir : ∀ s s' p r, rmdir fl s p = (s', r) → R s s') :
    ∀ (fuel : Nat) {fs fs' : FS} {dir : Path} {r : Option Err},
      removeDirectory fl fuel fs dir = some (fs', r) → R fs fs' := by
  intro fuel
  induction fuel with
  | zero => intro fs fs' dir r h; simp [removeDirectory] at h
  | succ fuel ih =>
    intro fs fs' dir r h
    have hloop : ∀ {entries : List Dirent} {s : FS} {r' : Option Err},
        forEntries (fun s entry =>
            if entry.isDirectory then removeDirectory fl fuel s (dir ++ [entry.name])
            else some (unlink fl s (dir ++ [entry.name]))) fs entries = some (s, r') → R fs s := by
      intro entries s r' hl
      refine forEntries_rel R hrefl htrans ?_ hl
      intro d _ a b r'' hs
      split at hs
      · exact ih hs
      · simp only [Option.some.injEq] at hs
        exact hunlink _ _ _ _ hs
    rcases removeDirectory_cases h with ⟨e, _, rfl, _⟩ | ⟨entries, _, ⟨e, hl, _⟩ | ⟨s, hl, hr⟩⟩
    · exact hrefl _
    · exact hloop hl
    · exact htrans _ _ _ (hloop hl) (hrmdir _ _ _ _ hr)

theorem removeDirectory_shrinks (fl : Faults) (fuel : Nat) {fs fs' : FS} {dir : Path}
    {r : Option Err} (h : removeDirectory fl fuel fs dir = some (fs', r)) : Shrinks fs fs' :=
  removeDirectory_rel fl Shrinks Shrinks.shrinks_refl (fun _ _ _ => Shrinks.shrinks_trans)
    (fun _ _ _ _ => unlink_shrinks) (fun _ _ _ _ => rmdir_shrinks) fuel h

theorem removeDirectory_wf (fl : Faults) (fuel : Nat) {fs fs' : FS} {dir : Path}
    {r : Option Err} (h : removeDirectory fl fuel fs dir = some (fs', r)) (hw : WF fs) : WF fs' :=
  removeDirectory_rel fl (fun a b => WF a → WF b) (fun _ h => h) (fun _ _ _ h1 h2 h => h2 (h1 h))
    (fun _ _ _ _ h hw => unlink_wf h hw) (fun _ _ _ _ h hw => rmdir_wf h hw) fuel h hw

theorem unlink_sublist {fl : Faults} {fs fs' : FS} {p : Path} {r : Option Err}
    (h : unlink fl fs p = (fs', r)) : List.Sublist fs' fs := by
  rcases unlink_cases h with ⟨rfl, _⟩ | ⟨_, _, _, rfl⟩
  · exact List.Sublist.refl _
  · exact List.filter_sublist _

theorem rmdir_sublist {fl : Faults} {fs fs' : FS} {p : Path} {r : Option Err}
    (h : rmdir fl fs p = (fs', r)) : List.Sublist fs' fs := by
  rcases rmdir_cases h with ⟨rfl, _⟩ | ⟨_, _, _, _, rfl⟩
  · exact List.Sublist.refl _
  · exact List.filter_sublist _

theorem removeDirectory_sublist (fl : Faults) (fuel : Nat) {fs fs' : FS} {dir : Path}
    {r : Option Err} (h : removeDirectory fl fuel fs dir = some (fs', r)) :
    List.Sublist fs' fs :=
  removeDirectory_rel fl (fun a b => List.Sublist b a) (fun _ => List.Sublist.refl _)
    (fun _ _ _ h1 h2 => h2.trans h1)
    (fun _ _ _ _ => unlink_sublist) (fun _ _ _ _ => rmdir_sublist) fuel h

/-- A removal touches only the directory and what is below it. -/
theorem removeDirectory_frame (fl : Faults) :
    ∀ (fuel : Nat) {fs fs' : FS} {dir : Path} {r : Option Err},
      removeDirectory fl fuel fs dir = some (fs', r) → Frame (under dir) fs fs' := by
  intro fuel
  induction fuel with
  | zero => intro fs fs' dir r h; simp [removeDirectory] at h
  | succ fuel ih =>
    intro fs fs' dir r h
    have hloop : ∀ {entries : List Dirent} {s : FS} {r' : Option Err},
        forEntries (fun s entry =>
            if entry.isDirectory then removeDirectory fl fuel s (dir ++ [entry.name])
            else some (unlink fl s (dir ++ [entry.name]))) fs entries = some (s, r') →
        Frame (under dir) fs s := by
      intro entries s r' hl
      refine forEntries_rel (Frame (under dir)) (Frame.frame_refl _) (fun _ _ _ => Frame.frame_trans) ?_ hl
      intro d _ a b r'' hs
      split at hs
      · exact (ih hs).mono (fun q hq => under_trans (under_append dir [d.name]) hq)
      · simp only [Option.some.injEq] at hs
        exact unlink_frame hs (under_append _ _)
    rcases removeDirectory_cases h with ⟨e, _, rfl, _⟩ | ⟨entries, _, ⟨e, hl, _⟩ | ⟨s, hl, hr⟩⟩
    · exact Frame.frame_refl _ _
    · exact hloop hl
    · exact (hloop hl).frame_trans (rmdir_frame hr (under_refl _))

/-- The loop of `removeDirectory` touches only what is at or below `dir/d` for
the entries `d`. -/
theorem removeLoop_frame (fl : Faults) (fuel : Nat) (dir : Path) (ds : List Dirent)
    {s s' : FS} {r : Option Err}
    (h : forEntries (fun s entry =>
        if entry.isDirectory then removeDirectory fl fuel s (dir ++ [entry.name])
        else some (unlink fl s (dir ++ [entry.name]))) s ds = some (s', r)) :
    Frame (underAny dir ds) s s' := by
  refine forEntries_rel (Frame (underAny dir ds)) (Frame.frame_refl _) (fun _ _ _ => Frame.frame_trans) ?_ h
  intro d hd a b r'' hs
  have hsub : ∀ q, under (dir ++ [d.name]) q = true → underAny dir ds q = true := by
    intro q hq
    simp only [underAny, List.any_eq_true]
    exact ⟨d, hd, hq⟩
  split at hs
  · exact (removeDirectory_frame fl fuel hs).mono hsub
  · simp only [Option.some.injEq] at hs
    exact unlink_frame hs (hsub _ (under_refl _))

theorem removeLoop_wf (fl : Faults) (fuel : Nat) (dir : Path) (ds : List Dirent)
    {s s' : FS} {r : Option Err}
    (h : forEntries (fun s entry =>
        if entry.isDirectory then removeDirectory fl fuel s (dir ++ [entry.name])
        else some (unlink fl s (dir ++ [entry.name]))) s ds = some (s', r)) (hw : WF s) :
    WF s' := by
  refine forEntries_inv WF ?_ hw h
  intro d _ a b r'' hwa hs
  split at hs
  · exact removeDirectory_wf fl fuel hs hwa
  · simp only [Option.some.injEq] at hs
    exact unlink_wf hs hwa

theorem removeLoop_shrinks (fl : Faults) (fuel : Nat) (dir : Path) (ds : List Dirent)
    {s s' : FS} {r : Option Err}
    (h : forEntries (fun s entry =>
        if entry.isDirectory then removeDirectory fl fuel s (dir ++ [entry.name])
        else some (unlink fl s (dir ++ [entry.name]))) s ds = some (s', r)) :
    Shrinks s s' := by
  refine forEntries_rel Shrinks Shrinks.shrinks_refl (fun _ _ _ => Shrinks.shrinks_trans) ?_ h
  intro d _ a b r'' hs
  split at hs
  · exact removeDirectory_shrinks fl fuel hs
  · simp only [Option.some.injEq] at hs
    exact unlink_shrinks hs

/-- The loop of a successful removal, given the result for the recursive calls. -/
theorem removeLoop_spec (fl : Faults) (fuel : Nat) (dir : Path)
    (ih : ∀ {fs fs' : FS} {p : Path}, WF fs → removeDirectory fl fuel fs p = some (fs', none) →
      ∀ q, under p q = true → stat fs' q = none) :
    ∀ (ds : List Dirent) {s s' : FS}, WF s →
      forEntries (fun s entry =>
        if entry.isDirectory then removeDirectory fl fuel s (dir ++ [entry.name])
        else some (unlink fl s (dir ++ [entry.name]))) s ds = some (s', none) →
      ∀ d ∈ ds, ∀ q, under (dir ++ [d.name]) q = true → stat s' q = none := by
  intro ds
  induction ds with
  | nil => intro s s' _ _ d hd; simp at hd
  | cons d ds ihl =>
    intro s s' hw h
    simp only [forEntries] at h
    split at h
    · simp at h
    · simp at h
    · rename_i s1 hs
      have hw1 : WF s1 := removeLoop_wf fl fuel dir [d] (r := none)
        (by simp only [forEntries, hs]) hw
      have hsh := removeLoop_shrinks fl fuel dir ds h
      intro d' hd' q hq
      rcases List.mem_cons.1 hd' with rfl | hd'
      · have h1 : stat s1 q = none := by
          split at hs
          · exact ih hw hs q hq
          · simp only [Option.some.injEq] at hs
            rcases unlink_cases hs with ⟨_, e, he, _⟩ | ⟨_, ⟨c, hc⟩, _, hset⟩
            · simp at he
            · subst hset
              rw [stat_erase]
              split
              · rfl
              · rename_i hne
                obtain ⟨t, rfl⟩ := under_iff.1 hq
                have ht : t ≠ [] := by
                  rintro rfl
                  exact hne (by simp)
                exact hw.file_no_children hc t ht
        rcases hsh q with h2 | h2
        · exact h2
        · rw [h2, h1]
      · exact ihl hw1 h d' hd' q hq

/-- A successful removal leaves nothing at or below the directory. -/
theorem removeDirectory_spec (fl : Faults) :
    ∀ (fuel : Nat) {fs fs' : FS} {p : Path}, WF fs →
      removeDirectory fl fuel fs p = some (fs', none) →
      ∀ q, under p q = true → stat fs' q = none := by
  intro fuel
  induction fuel with
  | zero => intro fs fs' p _ h; simp [removeDirectory] at h
  | succ fuel ih =>
    intro fs fs' p hw h q hq
    rcases removeDirectory_cases h with ⟨e, _, _, he⟩ | ⟨entries, hrd, ⟨e, _, he⟩ | ⟨s, hl, hr⟩⟩
    · simp at he
    · simp at he
    · rcases rmdir_cases hr with ⟨_, e, he, _⟩ | ⟨_, _, _, _, hset⟩
      · simp at he
      · subst hset
        rw [stat_erase]
        split
        · rfl
        · rename_i hne
          obtain ⟨t, rfl⟩ := under_iff.1 hq
          cases t with
          | nil => exact absurd (by simp) hne
          | cons n t =>
            rcases removeLoop_shrinks fl fuel p entries hl (p ++ n :: t) with h2 | h2
            · exact h2
            · rw [h2]
              cases hst : stat fs (p ++ n :: t) with
              | none => rfl
              | some en =>
                exfalso
                have hex : (stat fs (p ++ [n])).isSome = true := by
                  by_cases ht : t = []
                  · subst ht; rw [hst]; rfl
                  · have := hw.above (a := p ++ [n]) t ht (by
                      simp only [List.append_assoc, List.singleton_append]
                      rw [hst]; rfl)
                    rw [this]; rfl
                obtain ⟨e', he'⟩ := Option.isSome_iff_exists.1 hex
                have hmem : (⟨n, e'.isDir⟩ : Dirent) ∈ children fs p :=
                  hw.children_spec.2 ⟨e', he', rfl⟩
                rw [← (readdir_ok hrd).2.2] at hmem
                have := removeLoop_spec fl fuel p (fun a b => ih a b) entries hw hl _ hmem
                  (p ++ n :: t) (under_child_iff.2 rfl)
                rw [this] at h2
                rw [hst] at h2
                simp at h2

theorem removeDirectory_missing (fl : Faults) (fuel : Nat) {fs : FS} {p : Path}
    (h : stat fs p = none) :
    removeDirectory fl (fuel + 1) fs p = some (fs, some ⟨.ENOENT, p⟩) := by
  rw [removeDirectory_succ]
  simp [readdir, h]

theorem between_cases {dir a : Path} {n : Name} {t : Path} (h1 : under dir a = true)
    (h2 : under a (dir ++ n :: t) = true) : a = dir ∨ under (dir ++ [n]) a = true := by
  obtain ⟨u, rfl⟩ := under_iff.1 h1
  cases u with
  | nil => left; simp
  | cons m u =>
    right
    obtain ⟨v, hv⟩ := under_iff.1 h2
    simp only [List.append_assoc, List.cons_append, List.append_cancel_left_eq,
      List.cons.injEq] at hv
    rw [hv.1]
    exact under_child_iff.2 rfl

/-- The loop of a failed removal, given the result for the recursive calls: the
error names a path at or below one of the entries, and nothing from that entry
down to the path was removed. -/
theorem removeLoop_error (fl : Faults) (fuel : Nat) (dir : Path)
    (ih : ∀ {fs fs' : FS} {p : Path} {e : Err}, WF fs → stat fs p = some .dir →
      removeDirectory fl fuel fs p = some (fs', some e) →
      under p e.path = true ∧
        ∀ a, under p a = true → under a e.path = true →
          (stat fs' a).isSome = true ∧ stat fs' a = stat fs a) :
    ∀ (ds : List Dirent) {s s' : FS} {e : Err}, (ds.map Dirent.name).Nodup → WF s →
      (∀ d ∈ ds, ∃ en, stat s (dir ++ [d.name]) = some en ∧ d.isDirectory = en.isDir) →
      forEntries (fun s entry =>
        if entry.isDirectory then removeDirectory fl fuel s (dir ++ [entry.name])
        else some (unlink fl s (dir ++ [entry.name]))) s ds = some (s', some e) →
      ∃ n, under (dir ++ [n]) e.path = true ∧
        ∀ a, under (dir ++ [n]) a = true → under a e.path = true →
          (stat s' a).isSome = true ∧ stat s' a = stat s a := by
  intro ds
  induction ds with
  | nil => intro s s' e _ _ _ h; simp [forEntries] at h
  | cons d ds ihl =>
    intro s s' e hnd hw hex h
    simp only [forEntries] at h
    simp only [List.map_cons, List.nodup_cons] at hnd
    obtain ⟨en, hen, hdir⟩ := hex d (List.mem_cons_self _ _)
    split at h
    · simp at h
    · rename_i s1 e1 hs
      simp only [Option.some.injEq, Prod.mk.injEq] at h
      obtain ⟨rfl, rfl⟩ := h
      refine ⟨d.name, ?_⟩
      split at hs
      · rename_i hd
        have hen' : stat s (dir ++ [d.name]) = some .dir := by
          rw [hen]
          cases en with
          | dir => rfl
          | file c => rw [hd] at hdir; simp [Entry.isDir] at hdir
        exact ih hw hen' hs
      · simp only [Option.some.injEq] at hs
        rcases unlink_cases hs with ⟨rfl, e', he', hp, _⟩ | ⟨hn, _⟩
        · simp only [Option.some.injEq] at he'
          subst he'
          rw [hp]
          refine ⟨under_refl _, ?_⟩
          intro a h1 h2
          have := under_antisymm h1 h2
          subst this
          exact ⟨by rw [hen]; rfl, rfl⟩
        · simp at hn
    · rename_i s1 hs
      have hw1 : WF s1 := removeLoop_wf fl fuel dir [d] (r := none)
        (by simp only [forEntries, hs]) hw
      have hf1 : Frame (underAny dir [d]) s s1 := removeLoop_frame fl fuel dir [d] (r := none)
        (by simp only [forEntries, hs])
      have hstat : ∀ {n : Name} (t : Path), n ≠ d.name →
          stat s1 (dir ++ n :: t) = stat s (dir ++ n :: t) := by
        intro n t hn
        apply hf1.stat
        apply underAny_false
        simpa using hn
      obtain ⟨n, hn1, hn2⟩ := ihl hnd.2 hw1 (by
        intro d' hd'
        obtain ⟨en', hen', hdir'⟩ := hex d' (List.mem_cons_of_mem _ hd')
        refine ⟨en', ?_, hdir'⟩
        rw [← hen']
        exact hstat [] (fun e' => hnd.1 (e' ▸ List.mem_map.2 ⟨d', hd', rfl⟩))) h
      refine ⟨n, hn1, ?_⟩
      intro a h1 h2
      obtain ⟨hsome, heq⟩ := hn2 a h1 h2
      refine ⟨hsome, ?_⟩
      rw [heq]
      obtain ⟨t, rfl⟩ := under_iff.1 h1
      by_cases hnd' : n = d.name
      · -- the entry `d` was removed, so nothing below it is left in `s1`
        exfalso
        subst hnd'
        have hgone : stat s1 (dir ++ [d.name] ++ t) = none := by
          split at hs
          · exact removeDirectory_spec fl fuel hw hs _ (under_append _ _)
          · simp only [Option.some.injEq] at hs
            rcases unlink_cases hs with ⟨_, e', he', _⟩ | ⟨_, ⟨c, hc⟩, _, hset⟩
            · simp at he'
            · subst hset
              rw [stat_erase]
              split
              · rfl
              · rename_i hne
                have ht : t ≠ [] := by
                  rintro rfl
                  exact hne (by simp)
                exact hw.file_no_children hc t ht
        rw [heq, hgone] at hsome
        simp at hsome
      · have := hstat t hnd'
        simpa using this

/-- A failed removal names a path at or below the directory, and nothing from
the directory down to that path was removed. -/
theorem removeDirectory_error (fl : Faults) :
    ∀ (fuel : Nat) {fs fs' : FS} {p : Path} {e : Err}, WF fs → stat fs p = some .dir →
      removeDirectory fl fuel fs p = some (fs', some e) →
      under p e.path = true ∧
        ∀ a, under p a = true → under a e.path = true →
          (stat fs' a).isSome = true ∧ stat fs' a = stat fs a := by
  intro fuel
  induction fuel with
  | zero => intro fs fs' p e _ _ h; simp [removeDirectory] at h
  | succ fuel ih =>
    intro fs fs' p e hw hp h
    rcases removeDirectory_cases h with ⟨e', hrd, rfl, he⟩ | ⟨entries, hrd, ⟨e', hl, he⟩ | ⟨s, hl, hr⟩⟩
    · simp only [Option.some.injEq] at he
      subst he
      rw [(readdir_error hrd).1]
      refine ⟨under_refl _, ?_⟩
      intro a h1 h2
      have := under_antisymm h1 h2
      subst this
      exact ⟨by rw [hp]; rfl, rfl⟩
    · simp only [Option.some.injEq] at he
      subst he
      have hent := (readdir_ok hrd).2.2
      obtain ⟨n, hn1, hn2⟩ := removeLoop_error fl fuel p (fun a b c => ih a b c) entries
        (by rw [hent]; exact children_names_nodup hw.nodup p) hw
        (by intro d hd; rw [hent] at hd; exact hw.children_spec.1 hd) hl
      refine ⟨under_trans (under_append p [n]) hn1, ?_⟩
      intro a h1 h2
      obtain ⟨t, ht⟩ := under_iff.1 hn1
      rw [ht] at h2
      simp only [List.append_assoc, List.singleton_append] at h2
      rcases between_cases h1 h2 with rfl | h3
      · have := (removeLoop_frame fl fuel _ entries hl).stat underAny_self
        rw [this]
        exact ⟨by rw [hp]; rfl, rfl⟩
      · apply hn2 a h3
        rw [ht]
        simpa using h2
    · rcases rmdir_cases hr with ⟨rfl, e', he', hpath, _⟩ | ⟨hn, _⟩
      · simp only [Option.some.injEq] at he'
        subst he'
        rw [hpath]
        refine ⟨under_refl _, ?_⟩
        intro a h1 h2
        have := under_antisymm h1 h2
        subst this
        have := (removeLoop_frame fl fuel _ entries hl).stat underAny_self
        rw [this]
        exact ⟨by rw [hp]; rfl, rfl⟩
      · simp at hn

/-- With fuel beyond the depth of the subtree a removal returns. -/
theorem removeDirectory_terminates (fl : Faults) :
    ∀ (fuel : Nat) (fs : FS) (dir : Path),
      (∀ x ∈ keep (under dir) fs, x.1.length ≤ dir.length + fuel) →
      ∃ fs' r, removeDirectory fl (fuel + 1) fs dir = some (fs', r) := by
  intro fuel
  induction fuel with
  | zero =>
    intro fs dir hb
    rw [removeDirectory_succ]
    cases hrd : readdir fl fs dir with
    | error e => exact ⟨_, _, rfl⟩
    | ok entries =>
      have hnil : entries = [] := by
        rw [(readdir_ok hrd).2.2]
        apply List.eq_nil_iff_forall_not_mem.2
        intro d hd
        obtain ⟨e, he, _⟩ := mem_children.1 hd
        have := hb _ (mem_keep.2 ⟨he, under_append _ _⟩)
        simp at this
      subst hnil
      simp only [forEntries]
      exact ⟨_, _, rfl⟩
  | succ fuel ih =>
    intro fs dir hb
    rw [removeDirectory_succ]
    cases hrd : readdir fl fs dir with
    | error e => exact ⟨_, _, rfl⟩
    | ok entries =>
      simp only
      obtain ⟨s, r, hl⟩ := @forEntries_some (fun s => List.Sublist s fs)
        (fun s entry =>
          if entry.isDirectory then removeDirectory fl (fuel + 1) s (dir ++ [entry.name])
          else some (unlink fl s (dir ++ [entry.name])))
        entries (by
          intro d _ s hs
          by_cases hd : d.isDirectory = true
          · simp only [hd, if_true]
            obtain ⟨s', r, hres⟩ := ih s (dir ++ [d.name]) (by
              intro x hx
              have hx' := mem_keep.1 hx
              have := hb x (mem_keep.2 ⟨hs.subset hx'.1,
                under_trans (under_append dir [d.name]) hx'.2⟩)
              simp only [List.length_append, List.length_singleton]
              omega)
            exact ⟨s', r, hres, (removeDirectory_sublist fl _ hres).trans hs⟩
          · simp only [hd, if_false]
            cases hc : unlink fl s (dir ++ [d.name]) with
            | mk s' r => exact ⟨s', r, rfl, (unlink_sublist hc).trans hs⟩)
        fs (List.Sublist.refl _)
      rw [hl]
      cases r with
      | some e => exact ⟨_, _, rfl⟩
      | none => exact ⟨_, _, rfl⟩

theorem removeDirectory_mono (fl : Faults) :
    ∀ (fuel : Nat) {fs : FS} {dir : Path} {x : FS × Option Err},
      removeDirectory fl fuel fs dir = some x →
      removeDirectory fl (fuel + 1) fs dir = some x := by
  intro fuel
  induction fuel with
  | zero => intro fs dir x h; simp [removeDirectory] at h
  | succ fuel ih =>
    intro fs dir x h
    rw [removeDirectory_succ] at h ⊢
    cases hrd : readdir fl fs dir with
    | error e => rw [hrd] at h; exact h
    | ok entries =>
      rw [hrd] at h
      simp only at h ⊢
      have hm : ∀ {y : FS × Option Err},
          forEntries (fun s entry =>
            if entry.isDirectory then removeDirectory fl fuel s (dir ++ [entry.name])
            else some (unlink fl s (dir ++ [entry.name]))) fs entries = some y →
          forEntries (fun s entry =>
            if entry.isDirectory then removeDirectory fl (fuel + 1) s (dir ++ [entry.name])
            else some (unlink fl s (dir ++ [entry.name]))) fs entries = some y := by
        intro y hy
        refine forEntries_mono ?_ hy
        intro d _ s z hz
        split at hz
        · rename_i hd; simp only [hd, if_true]; exact ih hz
        · rename_i hd; simp only [hd, if_false]; exact hz
      split at h
      · simp at h
      · rename_i s e hl
        rw [hm hl]; exact h
      · rename_i s hl
        rw [hm hl]; exact h

theorem removeDirectory_mono_le (fl : Faults) {fuel fuel' : Nat} (hle : fuel ≤ fuel')
    {fs : FS} {dir : Path} {x : FS × Option Err}
    (h : removeDirectory fl fuel fs dir = some x) :
    removeDirectory fl fuel' fs dir = some x := by
  induction hle with
  | refl => exact h
  | step _ ih => exact removeDirectory_mono fl _ ih

/-! ## Code-unit order -/

theorem unitsLt_irrefl (a : List Nat) : unitsLt a a = false := by
  induction a with
  | nil => rfl
  | cons x xs ih => simp [unitsLt, ih]

theorem unitsLt_trans : ∀ {a b c : List Nat}, unitsLt a b = true → unitsLt b c = true →
    unitsLt a c = true := by
  intro a
  induction a with
  | nil =>
    intro b c h1 h2
    cases b with
    | nil => simp [unitsLt] at h1
    | cons y ys =>
      cases c with
      | nil => simp [unitsLt] at h2
      | cons z zs => simp [unitsLt]
  | cons x xs ih =>
    intro b c h1 h2
    cases b with
    | nil => simp [unitsLt] at h1
    | cons y ys =>
      cases c with
      | nil => simp [unitsLt] at h2
      | cons z zs =>
        simp only [unitsLt, Bool.or_eq_true, decide_eq_true_eq, Bool.and_eq_true] at h1 h2 ⊢
        rcases h1 with h1 | ⟨h1, h1'⟩
        · rcases h2 with h2 | ⟨h2, _⟩
          · left; omega
          · left; omega
        · rcases h2 with h2 | ⟨h2, h2'⟩
          · left; omega
          · right; exact ⟨by omega, ih h1' h2'⟩

theorem unitsLt_total : ∀ {a b : List Nat}, unitsLt a b = false → unitsLt b a = false → a = b := by
  intro a
  induction a with
  | nil =>
    intro b h1 _
    cases b with
    | nil => rfl
    | cons y ys => simp [unitsLt] at h1
  | cons x xs ih =>
    intro b h1 h2
    cases b with
    | nil => simp [unitsLt] at h2
    | cons y ys =>
      simp only [unitsLt, Bool.or_eq_false_iff, decide_eq_false_iff_not, Bool.and_eq_false_imp,
        decide_eq_true_eq] at h1 h2
      have hxy : x = y := by omega
      subst hxy
      rw [ih (h1.2 rfl) (h2.2 rfl)]

theorem utf16_ne_nil (c : Char) : utf16 c ≠ [] := by
  unfold utf16; split <;> simp

theorem char_toNat_inj {c d : Char} (h : c.toNat = d.toNat) : c = d := by
  apply Char.ext
  apply UInt32.ext
  exact h

theorem char_range (c : Char) :
    c.toNat < 0xD800 ∨ (0xDFFF < c.toNat ∧ c.toNat < 0x110000) := by
  have := c.valid
  exact this

theorem codeUnits_inj : ∀ {a b : List Char}, codeUnits a = codeUnits b → a = b := by
  intro a
  induction a with
  | nil =>
    intro b h
    cases b with
    | nil => rfl
    | cons d ds =>
      simp only [codeUnits] at h
      have := utf16_ne_nil d
      cases hu : utf16 d with
      | nil => exact absurd hu this
      | cons u us => rw [hu] at h; simp at h
  | cons c cs ih =>
    intro b h
    cases b with
    | nil =>
      simp only [codeUnits] at h
      have := utf16_ne_nil c
      cases hu : utf16 c with
      | nil => exact absurd hu this
      | cons u us => rw [hu] at h; simp at h
    | cons d ds =>
      simp only [codeUnits, utf16] at h
      have hc := char_range c
      have hd := char_range d
      split at h <;> split at h
      · simp only [List.singleton_append, List.cons.injEq] at h
        rw [char_toNat_inj h.1, ih h.2]
      · simp only [List.singleton_append, List.cons_append, List.nil_append,
          List.cons.injEq] at h
        omega
      · simp only [List.singleton_append, List.cons_append, List.nil_append,
          List.cons.injEq] at h
        omega
      · simp only [List.cons_append, List.nil_append, List.cons.injEq] at h
        have : c.toNat = d.toNat := by omega
        rw [char_toNat_inj this, ih h.2.2]

theorem sortLe_total (x y : Option String) : sortLe x y ∨ sortLe y x := by
  unfold sortLe
  cases h : unitsLt (codeUnits (jsToString y).data) (codeUnits (jsToString x).data) with
  | false => left; rfl
  | true =>
    right
    cases h' : unitsLt (codeUnits (jsToString x).data) (codeUnits (jsToString y).data) with
    | false => rfl
    | true =>
      have := unitsLt_trans h h'
      rw [unitsLt_irrefl] at this
      exact absurd this (by simp)

theorem sortLe_trans {x y z : Option String} (h1 : sortLe x y) (h2 : sortLe y z) :
    sortLe x z := by
  unfold sortLe at *
  cases h : unitsLt (codeUnits (jsToString z).data) (codeUnits (jsToString x).data) with
  | false => rfl
  | true =>
    cases h' : unitsLt (codeUnits (jsToString x).data) (codeUnits (jsToString y).data) with
    | false =>
      have := unitsLt_total h1 h'
      rw [this, h] at h2
      exact absurd h2 (by simp)
    | true =>
      have := unitsLt_trans h h'
      rw [this] at h2
      exact absurd h2 (by simp)

theorem sortLt_of_le_ne {s t : String} (h : sortLe (some s) (some t)) (hne : s ≠ t) :
    sortLt (some s) (some t) := by
  unfold sortLe at h
  unfold sortLt
  cases h' : unitsLt (codeUnits (jsToString (some s)).data)
      (codeUnits (jsToString (some t)).data) with
  | true => rfl
  | false =>
    exfalso
    have := codeUnits_inj (unitsLt_total h' h)
    simp only [jsToString] at this
    exact hne (String.ext this)

/-! ## `new Set` -/

theorem mem_uniq {α : Type} [DecidableEq α] {l : List α} {x : α} : x ∈ uniq l ↔ x ∈ l := by
  induction l with
  | nil => simp [uniq]
  | cons y ys ih =>
    simp only [uniq, List.mem_cons, List.mem_filter, decide_eq_true_eq, ih]
    constructor
    · rintro (h | ⟨h, _⟩)
      · exact Or.inl h
      · exact Or.inr h
    · rintro (h | h)
      · exact Or.inl h
      · by_cases hxy : x = y
        · exact Or.inl hxy
        · exact Or.inr ⟨h, hxy⟩

theorem nodup_uniq {α : Type} [DecidableEq α] (l : List α) : (uniq l).Nodup := by
  induction l with
  | nil => simp [uniq]
  | cons y ys ih =>
    simp only [uniq, List.nodup_cons, List.mem_filter, decide_eq_true_eq, ne_eq, not_and,
      not_not]
    exact ⟨fun _ => trivial, ih.filter _⟩

/-! ## Extensions -/

theorem lastDotSuffix_none {cs : List Char} (h : '.' ∉ cs) : lastDotSuffix cs = none := by
  induction cs with
  | nil => rfl
  | cons c cs ih =>
    simp only [List.mem_cons, not_or] at h
    simp only [lastDotSuffix, ih h.2]
    simp [Ne.symm h.1]

theorem lastDotSuffix_split (pre : List Char) {suf : List Char} (h : '.' ∉ suf) :
    lastDotSuffix (pre ++ '.' :: suf) = some ('.' :: suf) := by
  induction pre with
  | nil => simp [lastDotSuffix, lastDotSuffix_none h]
  | cons c cs ih => simp [lastDotSuffix, ih]

/-- A name without a `.` after its first character has the empty extension. -/
theorem extname_none {s : String} {c : Char} {cs : List Char} (hs : s.data = c :: cs)
    (h : '.' ∉ cs) : extname s = "" := by
  unfold extname
  rw [hs]
  simp only [lastDotSuffix_none h]
  split <;> rfl

/-- The extension of a name runs from its last `.`, when that is not the first
character. -/
theorem extname_split {s : String} {pre suf : List Char} (hs : s.data = pre ++ '.' :: suf)
    (hpre : pre ≠ []) (h : '.' ∉ suf) (hv : s ≠ "..") :
    extname s = String.mk ('.' :: suf) := by
  unfold extname
  cases pre with
  | nil => exact absurd rfl hpre
  | cons c cs =>
    rw [hs]
    simp only [List.cons_append, hv, if_false, lastDotSuffix_split cs h]

theorem wf_of_check {fs : FS} (h : wfCheck fs = true) : WF fs := by
  simp only [wfCheck, Bool.and_eq_true, decide_eq_true_eq, List.all_eq_true, Bool.or_eq_true] at h
  refine ⟨h.1, ?_⟩
  intro p n hs
  obtain ⟨e, he⟩ := Option.isSome_iff_exists.1 hs
  rcases h.2 _ (mem_of_stat he) with h1 | h1
  · simp at h1
  · simpa using h1

theorem le_depth {fs : FS} {x : Path × Entry} (h : x ∈ fs) : x.1.length ≤ depth fs := by
  induction fs with
  | nil => simp at h
  | cons y t ih =>
    simp only [depth]
    rcases List.mem_cons.1 h with rfl | h
    · exact le_max_left _ _
    · exact le_trans (ih h) (le_max_right _ _)

theorem copyDirectory_returns (fl : Faults) (fs : FS) {src dest : Path} (hi : Incomp src dest)
    {fuel : Nat} (hf : depth fs < fuel) : ∃ fs' r, copyDirectory fl fuel fs src dest = some (fs', r) := by
  obtain ⟨fs', r, h⟩ := copyDirectory_terminates fl (depth fs) fs src dest hi (by
    intro x hx
    have := le_depth (mem_keep.1 hx).1
    omega)
  exact ⟨fs', r, copyDirectory_mono_le fl hf h⟩

theorem removeDirectory_returns (fl : Faults) (fs : FS) (p : Path)
    {fuel : Nat} (hf : depth fs < fuel) : ∃ fs' r, removeDirectory fl fuel fs p = some (fs', r) := by
  obtain ⟨fs', r, h⟩ := removeDirectory_terminates fl (depth fs) fs p (by
    intro x hx
    have := le_depth (mem_keep.1 hx).1
    omega)
  exact ⟨fs', r, removeDirectory_mono_le fl hf h⟩

/-! ## The limit on the length of a path -/

theorem length_le_pathBytes (p : Path) : p.length ≤ pathBytes p := by
  induction p with
  | nil => simp [pathBytes]
  | cons n p ih =>
    simp only [pathBytes, List.map_cons, List.sum_cons, List.length_cons] at ih ⊢
    omega

theorem tooLong_of_length {fl : Faults} {p : Path} (h : fl.pathMax < p.length) :
    tooLong fl p = true := by
  simp only [tooLong, Bool.or_eq_true, decide_eq_true_eq]
  left
  have := length_le_pathBytes p
  omega

/-- A copy returns whatever the source and the destination are: the destination
of every nested call is one component longer, and the system refuses a path
beyond its limit. -/
theorem copyDirectory_total (fl : Faults) :
    ∀ (fuel : Nat) (fs : FS) (src dest : Path), fl.pathMax < fuel + dest.length →
      ∃ fs' r, copyDirectory fl (fuel + 1) fs src dest = some (fs', r) := by
  intro fuel
  induction fuel with
  | zero =>
    intro fs src dest h
    rw [copyDirectory_succ]
    have ht : tooLong fl dest = true := tooLong_of_length (by simpa using h)
    simp only [mkdirRecursive, ht, if_true]
    exact ⟨_, _, rfl⟩
  | succ fuel ih =>
    intro fs src dest h
    rw [copyDirectory_succ]
    rcases hm : mkdirRecursive fl fs dest with ⟨fs1, _ | e⟩
    · simp only
      cases hrd : readdir fl fs1 src with
      | error e => exact ⟨_, _, rfl⟩
      | ok entries =>
        simp only
        refine forEntries_some (fun _ => True) ?_ fs1 trivial
        intro d _ s _
        by_cases hd : d.isDirectory = true
        · simp only [hd, if_true]
          obtain ⟨s', r, hs⟩ := ih s (src ++ [d.name]) (dest ++ [d.name]) (by
            simp only [List.length_append, List.length_singleton]; omega)
          exact ⟨s', r, hs, trivial⟩
        · simp only [hd, Bool.false_eq_true, if_false]
          exact ⟨_, _, rfl, trivial⟩
    · exact ⟨_, _, rfl⟩

/-- With fuel beyond the limit on the length of a path, a copy returns, and its
result no longer depends on the fuel. -/
theorem copyDirectory_ends (fl : Faults) (fs : FS) (src dest : Path) :
    ∃ x, ∀ fuel, fl.pathMax + 2 ≤ fuel → copyDirectory fl fuel fs src dest = some x := by
  obtain ⟨fs', r, h⟩ := copyDirectory_total fl (fl.pathMax + 1) fs src dest (by omega)
  exact ⟨(fs', r), fun fuel hf => copyDirectory_mono_le fl hf h⟩

/-- A removal leaves alone every path that cannot be removed. -/
theorem removeDirectory_protected (fl : Faults) (fuel : Nat) {fs fs' : FS} {dir : Path}
    {r : Option Err} (h : removeDirectory fl fuel fs dir = some (fs', r)) :
    ∀ q, fl.remove q = true → stat fs' q = stat fs q := by
  refine removeDirectory_rel fl (fun a b => ∀ q, fl.remove q = true → stat b q = stat a q)
    (fun _ _ _ => rfl) (fun _ _ _ h1 h2 q hq => (h2 q hq).trans (h1 q hq)) ?_ ?_ fuel h
  · intro s s' p r hu q hq
    rcases unlink_cases hu with ⟨rfl, _⟩ | ⟨_, _, hrm, rfl⟩
    · rfl
    · rw [stat_erase]
      split
      · rename_i hpq; subst hpq; rw [hrm] at hq; simp at hq
      · rfl
  · intro s s' p r hu q hq
    rcases rmdir_cases hu with ⟨rfl, _⟩ | ⟨_, _, _, hrm, rfl⟩
    · rfl
    · rw [stat_erase]
      split
      · rename_i hpq; subst hpq; rw [hrm] at hq; simp at hq
      · rfl

/-! ## Claims on the leaf components -/

/-- C6 (as amended): for a readable directory `D` of a well-formed file system
`getContents` returns one item per immediate child of `D`, in listing order;
`isDirectory` holds exactly for the children that are directories, `type` is
`directory` exactly then and `file` otherwise, and `extension` is `null` exactly
for directories.  For a file it is the lower-cased `path.extname` of the name:
the lower-cased empty string when the name has no `.` after its first
character, and the lower-cased suffix from the last `.` otherwise. -/
theorem getContents_items (lower : String → String) (fl : Faults) (fs : FS) (D : Path)
    (hw : WF fs) (hD : stat fs D = some .dir) (hr : fl.read D = false) :
    ∃ items, getContents lower fl fs D = .ok items ∧
      items.map Item.name = (children fs D).map Dirent.name ∧
      (items.map Item.name).Nodup ∧
      (∀ n, n ∈ items.map Item.name ↔ (stat fs (D ++ [n])).isSome = true) ∧
      ∀ item ∈ items,
        (item.isDirectory = true ↔ stat fs (D ++ [item.name]) = some .dir) ∧
        (item.type = "directory" ↔ item.isDirectory = true) ∧
        (item.isDirectory = false → item.type = "file") ∧
        (item.extension = none ↔ item.isDirectory = true) ∧
        (item.isDirectory = false →
          item.extension = some (lower (extname item.name.val)) ∧
          (∀ c cs, item.name.val.data = c :: cs → '.' ∉ cs →
            item.extension = some (lower "")) ∧
          (∀ pre suf, item.name.val.data = pre ++ '.' :: suf → pre ≠ [] → '.' ∉ suf →
            item.extension = some (lower (String.mk ('.' :: suf))))) := by
  have hget : getContents lower fl fs D = .ok ((children fs D).map (fun dirent =>
      { name := dirent.name
        isDirectory := dirent.isDirectory
        type := if dirent.isDirectory then "directory" else "file"
        extension :=
          if dirent.isDirectory then none else some (lower (extname dirent.name.val)) })) := by
    simp only [getContents, readdir_of_dir hD hr]
  refine ⟨_, hget, ?_, ?_, ?_, ?_⟩
  · simp [List.map_map, Function.comp_def]
  · simp only [List.map_map, Function.comp_def]
    exact children_names_nodup hw.nodup D
  · intro n
    simp only [List.map_map, Function.comp_def, List.mem_map]
    constructor
    · rintro ⟨d, hd, rfl⟩
      obtain ⟨e, he, _⟩ := hw.children_spec.1 hd
      rw [he]; rfl
    · intro hs
      obtain ⟨e, he⟩ := Option.isSome_iff_exists.1 hs
      exact ⟨⟨n, e.isDir⟩, hw.children_spec.2 ⟨e, he, rfl⟩, rfl⟩
  · intro item hitem
    simp only [List.mem_map] at hitem
    obtain ⟨d, hd, rfl⟩ := hitem
    obtain ⟨e, he, hde⟩ := hw.children_spec.1 hd
    simp only
    refine ⟨?_, ?_, ?_, ?_, ?_⟩
    · rw [he, hde]
      cases e <;> simp [Entry.isDir]
    · cases d.isDirectory <;> simp
    · intro h; simp [h]
    · cases d.isDirectory <;> simp
    · intro h
      simp only [h, Bool.false_eq_true, if_false, Option.some.injEq, true_and]
      refine ⟨?_, ?_⟩
      · intro c cs hs hdot
        rw [extname_none hs hdot]
      · intro pre suf hs hpre hdot
        rw [extname_split hs hpre hdot d.name.property.2.2.1]

/-- Witness for C6: the listing of `/home` in the example file system. -/
theorem getContents_items_witness :
    ∃ items, getContents lowerAscii Faults.none exFS [nHome] = .ok items ∧
      items.map Item.name = [nA, nB, nSub] := by
  obtain ⟨items, h1, h2, _⟩ :=
    getContents_items lowerAscii Faults.none exFS [nHome] (wf_of_check (by decide)) (by decide) rfl
  exact ⟨items, h1, by rw [h2]; decide⟩

/-- Counterexample to C6 as stated: the file `README` has no extension, and its
`extension` is the empty string, not `null`. -/
theorem getContents_extensionless :
    getContents lowerAscii Faults.none exReadme [nHome] =
      .ok [⟨nReadme, false, "file", some ""⟩] ∧
    '.' ∉ nReadme.val.data ∧ (some "" : Option String) ≠ none := by
  refine ⟨rfl, by decide, by simp⟩

/-- C7 (as amended): the array `extensions` is strictly ascending in the order of
the default sort comparator, holds no `null`, and its elements are exactly the
truthy (neither `null` nor empty) extension values of the listing. -/
theorem extensions_sorted (contents : List Item) :
    List.Pairwise sortLt (extensions contents) ∧
    (extensions contents).Nodup ∧
    (∀ x ∈ extensions contents, x ≠ none) ∧
    (∀ x, x ∈ extensions contents ↔
      truthy x = true ∧ ∃ item ∈ contents, item.extension = x) := by
  have hmem : ∀ x, x ∈ extensions contents ↔
      truthy x = true ∧ ∃ item ∈ contents, item.extension = x := by
    intro x
    unfold extensions
    rw [(List.perm_insertionSort _ _).mem_iff, mem_uniq]
    simp only [List.mem_map, List.mem_filter]
    constructor
    · rintro ⟨item, ⟨h1, h2⟩, rfl⟩; exact ⟨h2, item, h1, rfl⟩
    · rintro ⟨h1, item, h2, rfl⟩; exact ⟨item, ⟨h2, h1⟩, rfl⟩
  have hnd : (extensions contents).Nodup := by
    unfold extensions
    exact (List.perm_insertionSort _ _).nodup_iff.2 (nodup_uniq _)
  have hsome : ∀ x ∈ extensions contents, ∃ s, x = some s := by
    intro x hx
    have := ((hmem x).1 hx).1
    cases x with
    | none => simp [truthy] at this
    | some s => exact ⟨s, rfl⟩
  refine ⟨?_, hnd, ?_, hmem⟩
  · have hs : List.Pairwise sortLe (extensions contents) :=
      @List.sorted_insertionSort _ sortLe _ ⟨sortLe_total⟩ ⟨fun _ _ _ => sortLe_trans⟩ _
    refine (hs.and hnd).imp_of_mem ?_
    intro a b ha hb hab
    obtain ⟨s, rfl⟩ := hsome a ha
    obtain ⟨t, rfl⟩ := hsome b hb
    exact sortLt_of_le_ne hab.1 (fun e => hab.2 (by rw [e]))
  · intro x hx
    obtain ⟨s, rfl⟩ := hsome x hx
    simp

/-- Counterexample to C7 as stated: the empty string is a non-null extension
value of the listing of `README`, and it is not among the extensions. -/
theorem extensions_drop_empty :
    (some "" : Option String) ≠ none ∧
    some "" ∈ List.map Item.extension [⟨nReadme, false, "file", some ""⟩] ∧
    some "" ∉ extensions [⟨nReadme, false, "file", some ""⟩] := by
  decide

/-- C8 (as amended): when neither of `src` and `dest` is at or below the other,
`copyDirectory(src, dest)` returns once the fuel exceeds the depth of the file
system, and whether it succeeds or fails the subtree at `src` (its paths, their
types, contents and order) is what it was before. -/
theorem copyDirectory_keeps_source (fl : Faults) (fs : FS) (src dest : Path)
    (hi : Incomp src dest) :
    (∀ fuel, depth fs < fuel → ∃ fs' r, copyDirectory fl fuel fs src dest = some (fs', r)) ∧
    ∀ fuel fs' r, copyDirectory fl fuel fs src dest = some (fs', r) →
      keep (under src) fs' = keep (under src) fs ∧
      ∀ q, stat fs' (src ++ q) = stat fs (src ++ q) := by
  refine ⟨fun fuel hf => copyDirectory_returns fl fs hi hf, ?_⟩
  intro fuel fs' r h
  have hk := copyDirectory_source hi h
  exact ⟨hk, fun q => stat_of_keep_eq hk (under_append src q)⟩

/-- Witness for C8: copying `/home/sub` to `/home/dst`. -/
theorem copyDirectory_keeps_source_witness :
    Incomp [nHome, nSub] [nHome, nDst] ∧
    ∃ fs', copyDirectory Faults.none 3 exExtra [nHome, nSub] [nHome, nDst] = some (fs', none) ∧
      keep (under [nHome, nSub]) fs' = keep (under [nHome, nSub]) exExtra := by
  have hi : Incomp [nHome, nSub] [nHome, nDst] := by
    constructor <;> decide
  refine ⟨hi, _, rfl, ?_⟩
  exact ((copyDirectory_keeps_source Faults.none exExtra _ _ hi).2 3 _ none rfl).1

/-- Counterexample to C8 as stated: copying the existing directory `/home/sub`
to `/home`, above it, succeeds and adds `c.txt` to `/home/sub`. -/
theorem copyDirectory_changes_source :
    stat exNested [nHome, nSub] = some .dir ∧
    ∃ fs', copyDirectory Faults.none 3 exNested [nHome, nSub] [nHome] = some (fs', none) ∧
      stat exNested [nHome, nSub, nC] = none ∧
      stat fs' [nHome, nSub, nC] = some (.file (.raw "C")) := by
  refine ⟨by decide, _, rfl, by decide, by decide⟩

/-- C9: in a well-formed file system, (1) `removeDirectory` of a missing path
fails with `ENOENT` and changes nothing; (2) when `removeDirectory` of a
directory fails, the error names a path at or below it, and every path from the
directory down to that path still exists, unchanged; a path at or below the
directory that cannot be removed makes the call fail; (3) when it succeeds,
nothing is left at or below the path and everything else is unchanged; and the
call returns once the fuel exceeds the depth of the file system. -/
theorem removeDirectory_strict (fl : Faults) (fs : FS) (p : Path) (hw : WF fs) :
    (stat fs p = none →
      ∀ fuel, removeDirectory fl (fuel + 1) fs p = some (fs, some ⟨.ENOENT, p⟩)) ∧
    (∀ fuel fs' e, stat fs p = some .dir → removeDirectory fl fuel fs p = some (fs', some e) →
      under p e.path = true ∧
      ∀ a, under p a = true → under a e.path = true →
        (stat fs' a).isSome = true ∧ stat fs' a = stat fs a) ∧
    (∀ fuel fs' q, under p q = true → (stat fs q).isSome = true → fl.remove q = true →
      removeDirectory fl fuel fs p ≠ some (fs', none)) ∧
    (∀ fuel fs', removeDirectory fl fuel fs p = some (fs', none) →
      (∀ q, under p q = true → stat fs' q = none) ∧
      keep (notIn (under p)) fs' = keep (notIn (under p)) fs ∧
      ∀ q, under p q = false → stat fs' q = stat fs q) ∧
    (∀ fuel, depth fs < fuel → ∃ fs' r, removeDirectory fl fuel fs p = some (fs', r)) := by
  refine ⟨fun h fuel => removeDirectory_missing fl fuel h, ?_, ?_, ?_, ?_⟩
  · intro fuel fs' e hp h
    exact removeDirectory_error fl fuel hw hp h
  · intro fuel fs' q hq hs hrm h
    have h1 := removeDirectory_spec fl fuel hw h q hq
    have h2 := removeDirectory_protected fl fuel h q hrm
    rw [h2] at h1
    rw [h1] at hs
    simp at hs
  · intro fuel fs' h
    have hf := removeDirectory_frame fl fuel h
    exact ⟨removeDirectory_spec fl fuel hw h, hf, fun q hq => hf.stat hq⟩
  · intro fuel hf
    exact removeDirectory_returns fl fs p hf

/-- Witness for C9: removing `/home/sub` from the example file system. -/
theorem removeDirectory_strict_witness :
    WF exFS ∧
    ∃ fs', removeDirectory Faults.none 3 exFS [nHome, nSub] = some (fs', none) ∧
      stat fs' [nHome, nSub, nC] = none ∧ stat fs' [nHome, nB] = stat exFS [nHome, nB] := by
  have hw : WF exFS := wf_of_check (by decide)
  refine ⟨hw, _, rfl, ?_, ?_⟩
  · exact ((removeDirectory_strict Faults.none exFS [nHome, nSub] hw).2.2.2.1 3 _ rfl).1 _
      (by decide)
  · exact ((removeDirectory_strict Faults.none exFS [nHome, nSub] hw).2.2.2.1 3 _ rfl).2.2 _
      (by decide)

/-- C10 (as amended): in a well-formed file system, when neither of `src` and
`dest` is at or below the other, every file of the tree at `src` can be written,
and `copyDirectory(src, dest)` succeeds, running it again succeeds and leaves the
file system as the first run left it; the source is unchanged, every path of the
source is at the destination with the same type, contents and mode, and when
nothing was at the destination before, the tree at the destination is the tree
at the source. -/
theorem copyDirectory_twice (fl : Faults) (fuel : Nat) (fs fs1 : FS) (src dest : Path)
    (hw : WF fs) (hi : Incomp src dest)
    (hwt : ∀ r f, stat fs (src ++ r) = some (.file f) → f.writable = true)
    (h : copyDirectory fl fuel fs src dest = some (fs1, none)) :
    copyDirectory fl fuel fs1 src dest = some (fs1, none) ∧
    (∀ r, stat fs1 (src ++ r) = stat fs (src ++ r)) ∧
    (∀ r e, stat fs (src ++ r) = some e → stat fs1 (dest ++ r) = some e) ∧
    ((∀ r, stat fs (dest ++ r) = none) → ∀ r, stat fs1 (dest ++ r) = stat fs1 (src ++ r)) := by
  have hk := copyDirectory_source hi h
  have hsrc : ∀ r, stat fs1 (src ++ r) = stat fs (src ++ r) :=
    fun r => stat_of_keep_eq hk (under_append src r)
  have hspec := copyDirectory_spec fl fuel hw hi h
  refine ⟨?_, hsrc, ?_, ?_⟩
  · exact copyDirectory_again fl fuel hw (copyDirectory_wf fl fuel h hw) hi h hk (fun _ => rfl)
      (fun r f hf => hwt r f (by rw [← hsrc r]; exact hf))
  · intro r e he
    rw [hspec r, overlay_some _ he]
  · intro hnone r
    rw [hspec r, hnone r, hsrc r]
    cases stat fs (src ++ r) <;> rfl

/-- Witness for C10: copying `/home/sub` to `/home/dst` twice. -/
theorem copyDirectory_twice_witness :
    WF exExtra ∧ Incomp [nHome, nSub] [nHome, nDst] ∧
    (∀ r f, stat exExtra ([nHome, nSub] ++ r) = some (.file f) → f.writable = true) ∧
    ∃ fs1, copyDirectory Faults.none 3 exExtra [nHome, nSub] [nHome, nDst] = some (fs1, none) ∧
      copyDirectory Faults.none 3 fs1 [nHome, nSub] [nHome, nDst] = some (fs1, none) := by
  have hw : WF exExtra := wf_of_check (by decide)
  have hi : Incomp [nHome, nSub] [nHome, nDst] := by
    constructor <;> decide
  have hwt : ∀ r f, stat exExtra ([nHome, nSub] ++ r) = some (.file f) → f.writable = true := by
    intro r f hf
    have hm := mem_of_stat hf
    simp only [exExtra, List.mem_cons, Prod.mk.injEq, List.mem_singleton, List.not_mem_nil,
      or_false] at hm
    rcases hm with h | h | h | h | h | h
    all_goals first
      | (exfalso; simpa using h.2)
      | (have h2 := h.2
         simp only [Entry.file.injEq] at h2
         rw [h2]; rfl)
  exact ⟨hw, hi, hwt, _, rfl,
    (copyDirectory_twice Faults.none 3 exExtra _ [nHome, nSub] [nHome, nDst] hw hi hwt rfl).1⟩

/-- Counterexample to C10 as stated, in three cases.  Where the destination holds
a file `out` and the source a directory `out`, the first and the second run both
fail.  Where the destination holds a file the source lacks, both runs succeed
and the destination keeps that file, so it is not the tree of the source.  And
where the source holds a read-only file and nothing is at the destination, the
first run succeeds and gives the copy the mode of the file, and the second run
fails: the copy cannot be opened for writing. -/
theorem copyDirectory_twice_fails :
    (∃ fs1 e, copyDirectory Faults.none 3 exClash [nHome, nSub] [nHome, nDst] = some (fs1, some e) ∧
      copyDirectory Faults.none 3 fs1 [nHome, nSub] [nHome, nDst] = some (fs1, some e)) ∧
    (∃ fs1, copyDirectory Faults.none 3 exExtra [nHome, nSub] [nHome, nDst] = some (fs1, none) ∧
      copyDirectory Faults.none 3 fs1 [nHome, nSub] [nHome, nDst] = some (fs1, none) ∧
      stat fs1 [nHome, nDst, nB] = some (.file (.raw "B")) ∧ stat fs1 [nHome, nSub, nB] = none) ∧
    (stat exReadOnly [nHome, nDst] = none ∧
      ∃ fs1, copyDirectory Faults.none 3 exReadOnly [nHome, nSub] [nHome, nDst] =
          some (fs1, none) ∧
        stat fs1 [nHome, nDst, nC] = some (.file ⟨.raw "C", true, false⟩) ∧
        copyDirectory Faults.none 3 fs1 [nHome, nSub] [nHome, nDst] =
          some (fs1, some ⟨.EACCES, [nHome, nSub, nC]⟩)) := by
  refine ⟨⟨_, _, rfl, rfl⟩, ⟨_, rfl, rfl, by decide, by decide⟩,
    ⟨by decide, _, rfl, by decide, rfl⟩⟩

theorem underNames_cons (p : Path) (n : Name) (ns : List Name) (q : Path) :
    underNames p (n :: ns) q = (under (p ++ [n]) q || underNames p ns q) := by
  simp [underNames]

theorem underNames_false {p : Path} {ns : List Name} {n : Name} (r : Path) (h : n ∉ ns) :
    underNames p ns (p ++ n :: r) = false := by
  simp only [underNames, List.any_eq_false]
  intro m hm hu
  rw [under_child_iff] at hu
  exact h (hu ▸ hm)

theorem underNames_under {p : Path} {ns : List Name} {q : Path}
    (h : underNames p ns q = true) : under p q = true := by
  simp only [underNames, List.any_eq_true] at h
  obtain ⟨n, _, hn⟩ := h
  exact under_trans (under_append p [n]) hn

theorem underNames_mem {p : Path} {ns : List Name} {n : Name} {q : Path} (hn : n ∈ ns)
    (h : under (p ++ [n]) q = true) : underNames p ns q = true := by
  simp only [underNames, List.any_eq_true]
  exact ⟨n, hn, h⟩

theorem underNames_iff {p : Path} {ns : List Name} {q : Path} :
    underNames p ns q = true ↔ ∃ n ∈ ns, under (p ++ [n]) q = true := by
  simp [underNames, List.any_eq_true]

theorem val_injective : Function.Injective (fun n : Name => n.val) :=
  fun _ _ h => Subtype.ext h

theorem selection_names {S : List String} (h : ∀ s ∈ S, validName s) :
    ∃ names : List Name, S = names.map (fun n => n.val) := by
  induction S with
  | nil => exact ⟨[], rfl⟩
  | cons s S ih =>
    obtain ⟨names, hn⟩ := ih (fun t ht => h t (List.mem_cons_of_mem _ ht))
    exact ⟨⟨s, h s (List.mem_cons_self _ _)⟩ :: names, by simp [hn]⟩

/-! ## The staging loop -/

theorem stageItem_name (fl : Faults) (fuel : Nat) (fs : FS) (src shared : Path) (n : Name) :
    stageItem fl fuel fs src shared n.val =
      match stat fs (src ++ [n]) with
      | none => some (fs, .failedCopy n.val ⟨.ENOENT, src ++ [n]⟩)
      | some .dir =>
        match copyDirectory fl fuel fs (src ++ [n]) (shared ++ [n]) with
        | none => none
        | some (fs1, none) => some (fs1, .copied n.val)
        | some (fs1, some e) => some (fs1, .failedCopy n.val e)
      | some (.file _) =>
        match copyFile fl fs (src ++ [n]) (shared ++ [n]) with
        | (fs1, none) => some (fs1, .copied n.val)
        | (fs1, some e) => some (fs1, .failedCopy n.val e) := by
  simp only [stageItem, join_name]

theorem incomp_stage (src : Path) {n f : Name} (h : n ≠ f) :
    Incomp (src ++ [n]) (src ++ [f] ++ [n]) := by
  have := (incomp_siblings src h).append [] [n]
  simpa using this

/-- One round of the staging loop for an item other than the staging folder. -/
theorem stageItem_props (fl : Faults) (fuel : Nat) (src : Path) (f n : Name) (hnf : n ≠ f)
    {s s1 : FS} {l : Log} (hw : WF s) (hd : stat s (src ++ [f]) = some .dir)
    (h : stageItem fl fuel s src (src ++ [f]) n.val = some (s1, l)) :
    WF s1 ∧ stat s1 (src ++ [f]) = some .dir ∧ Frame (under (src ++ [f] ++ [n])) s s1 ∧
    CopyLogOf n l ∧
    (l = .copied n.val → ∀ r, stat s1 (src ++ [f] ++ n :: r) =
      overlay (stat s (src ++ n :: r)) (stat s (src ++ [f] ++ n :: r))) := by
  rw [stageItem_name] at h
  have hpar : ∀ q m, src ++ [f] ++ [n] = q ++ [m] → stat s q = some .dir := by
    intro q m hq
    have := List.append_inj_left' hq (by simp)
    rw [← this]; exact hd
  have hdir : ∀ {s1 : FS}, Frame (under (src ++ [f] ++ [n])) s s1 →
      stat s1 (src ++ [f]) = some .dir := by
    intro s1 hf
    rw [hf.stat under_child_self]; exact hd
  cases hst : stat s (src ++ [n]) with
  | none =>
    rw [hst] at h
    simp only [Option.some.injEq, Prod.mk.injEq] at h
    obtain ⟨rfl, rfl⟩ := h
    exact ⟨hw, hd, Frame.frame_refl _ _, Or.inr ⟨_, rfl⟩, fun h' => by simp at h'⟩
  | some en =>
    cases en with
    | dir =>
      rw [hst] at h
      simp only at h
      cases hc : copyDirectory fl fuel s (src ++ [n]) (src ++ [f] ++ [n]) with
      | none => rw [hc] at h; simp at h
      | some x =>
        obtain ⟨s2, r⟩ := x
        have hf := copyDirectory_frame_under fl fuel hw hpar hc
        have hw2 := copyDirectory_wf fl fuel hc hw
        rw [hc] at h
        cases r with
        | none =>
          simp only [Option.some.injEq, Prod.mk.injEq] at h
          obtain ⟨rfl, rfl⟩ := h
          refine ⟨hw2, hdir hf, hf, Or.inl rfl, fun _ r => ?_⟩
          have := copyDirectory_spec fl fuel hw (incomp_stage src hnf) hc r
          simpa using this
        | some e =>
          simp only [Option.some.injEq, Prod.mk.injEq] at h
          obtain ⟨rfl, rfl⟩ := h
          exact ⟨hw2, hdir hf, hf, Or.inr ⟨_, rfl⟩, fun h' => by simp at h'⟩
    | file c =>
      rw [hst] at h
      simp only at h
      cases hc : copyFile fl s (src ++ [n]) (src ++ [f] ++ [n]) with
      | mk s2 r =>
        have hf : Frame (under (src ++ [f] ++ [n])) s s2 := copyFile_frame hc (under_refl _)
        have hw2 := copyFile_wf hc hw
        rw [hc] at h
        cases r with
        | none =>
          simp only [Option.some.injEq, Prod.mk.injEq] at h
          obtain ⟨rfl, rfl⟩ := h
          refine ⟨hw2, hdir hf, hf, Or.inl rfl, fun _ r => ?_⟩
          rcases copyFile_cases hc with ⟨_, hne⟩ | ⟨_, c', hc', _, _, _, _, hset⟩
          · exact absurd rfl hne
          · rw [hst] at hc'
            simp only [Option.some.injEq, Entry.file.injEq] at hc'
            subst hc'
            subst hset
            rw [stat_set]
            by_cases hr : r = []
            · subst hr
              simp only [if_true]
              rw [overlay_some _ hst]
            · have hne : src ++ [f] ++ [n] ≠ src ++ [f] ++ n :: r := by
                intro e'
                simp only [List.append_cancel_left_eq, List.cons.injEq, true_and] at e'
                exact hr e'.symm
              simp only [hne, if_false]
              have := hw.file_no_children hst r hr
              simp only [List.append_assoc, List.singleton_append] at this
              rw [overlay_none _ this]
        | some e =>
          simp only [Option.some.injEq, Prod.mk.injEq] at h
          obtain ⟨rfl, rfl⟩ := h
          exact ⟨hw2, hdir hf, hf, Or.inr ⟨_, rfl⟩, fun h' => by simp at h'⟩

theorem copied_mem {names : List Name} {ls : List Log} (h : List.Forall₂ CopyLogOf names ls)
    {m : Name} (hm : Log.copied m.val ∈ ls) : m ∈ names := by
  induction h with
  | nil => simp at hm
  | cons hl _ ih =>
    rcases List.mem_cons.1 hm with h' | h'
    · rcases hl with h'' | ⟨e, h''⟩
      · rw [h''] at h'
        simp only [Log.copied.injEq] at h'
        exact List.mem_cons.2 (Or.inl (Subtype.ext h'))
      · rw [h''] at h'; simp at h'
    · exact List.mem_cons_of_mem _ (ih h')

theorem stageLoop_cons (fl : Faults) (fuel : Nat) (src shared : Path) (fs : FS) (item : String)
    (rest : List String) :
    stageLoop fl fuel src shared fs (item :: rest) =
      match stageItem fl fuel fs src shared item with
      | none => none
      | some (fs1, l) =>
        match stageLoop fl fuel src shared fs1 rest with
        | none => none
        | some (fs2, ls) => some (fs2, l :: ls) := rfl

theorem stageLoop_split {fl : Faults} {fuel : Nat} {src shared : Path} {fs fs' : FS}
    {item : String} {rest : List String} {ls : List Log}
    (h : stageLoop fl fuel src shared fs (item :: rest) = some (fs', ls)) :
    ∃ fs1 l ls', stageItem fl fuel fs src shared item = some (fs1, l) ∧
      stageLoop fl fuel src shared fs1 rest = some (fs', ls') ∧ ls = l :: ls' := by
  rw [stageLoop_cons] at h
  cases h1 : stageItem fl fuel fs src shared item with
  | none => rw [h1] at h; simp at h
  | some x =>
    obtain ⟨fs1, l⟩ := x
    rw [h1] at h
    simp only at h
    cases h2 : stageLoop fl fuel src shared fs1 rest with
    | none => rw [h2] at h; simp at h
    | some y =>
      obtain ⟨fs2, ls'⟩ := y
      rw [h2] at h
      simp only [Option.some.injEq, Prod.mk.injEq] at h
      exact ⟨fs1, l, ls', rfl, by rw [← h.1]; exact h2, h.2.symm⟩

/-- The staging loop over items other than the staging folder: it touches only
the staged copies, logs one line per item in order, and the staged copy of a
copied item holds what the item held. -/
theorem stageLoop_props (fl : Faults) (fuel : Nat) (src : Path) (f : Name) :
    ∀ (names : List Name) {s s' : FS} {ls : List Log}, names.Nodup → f ∉ names → WF s →
      stat s (src ++ [f]) = some .dir →
      stageLoop fl fuel src (src ++ [f]) s (names.map (fun n => n.val)) = some (s', ls) →
      WF s' ∧ stat s' (src ++ [f]) = some .dir ∧ Frame (underNames (src ++ [f]) names) s s' ∧
      List.Forall₂ CopyLogOf names ls ∧
      ∀ n ∈ names, Log.copied n.val ∈ ls → ∀ r, stat s' (src ++ [f] ++ n :: r) =
        overlay (stat s (src ++ n :: r)) (stat s (src ++ [f] ++ n :: r)) := by
  intro names
  induction names with
  | nil =>
    intro s s' ls _ _ hw hd h
    simp only [List.map_nil, stageLoop, Option.some.injEq, Prod.mk.injEq] at h
    obtain ⟨rfl, rfl⟩ := h
    exact ⟨hw, hd, Frame.frame_refl _ _, List.Forall₂.nil, fun n hn => by simp at hn⟩
  | cons n names ih =>
    intro s s' ls hnd hf hw hd h
    simp only [List.map_cons] at h
    obtain ⟨s1, l, ls', h1, h2, rfl⟩ := stageLoop_split h
    simp only [List.nodup_cons] at hnd
    simp only [List.mem_cons, not_or] at hf
    obtain ⟨hw1, hd1, hf1, hl1, hc1⟩ :=
      stageItem_props fl fuel src f n (fun e => hf.1 e.symm) hw hd h1
    obtain ⟨hw2, hd2, hf2, hl2, hc2⟩ := ih hnd.2 hf.2 hw1 hd1 h2
    have hlogs : ∀ m : Name, Log.copied m.val ∈ ls' → m ∈ names :=
      fun m hm => copied_mem hl2 hm
    have hsub1 : ∀ q, under (src ++ [f] ++ [n]) q = true →
        underNames (src ++ [f]) (n :: names) q = true :=
      fun q hq => underNames_mem (List.mem_cons_self _ _) hq
    have hsub2 : ∀ q, underNames (src ++ [f]) names q = true →
        underNames (src ++ [f]) (n :: names) q = true := by
      intro q hq
      rw [underNames_cons, hq]; simp
    refine ⟨hw2, hd2, (hf1.mono hsub1).frame_trans (hf2.mono hsub2), List.Forall₂.cons hl1 hl2, ?_⟩
    intro m hm hcop r
    rcases List.mem_cons.1 hm with rfl | hm
    · have hl : l = .copied m.val := by
        rcases List.mem_cons.1 hcop with h' | h'
        · exact h'.symm
        · exact absurd (hlogs m h') hnd.1
      rw [hf2.stat (underNames_false r hnd.1)]
      exact hc1 hl r
    · have hmn : m ≠ n := fun e => hnd.1 (e ▸ hm)
      have hcop' : Log.copied m.val ∈ ls' := by
        rcases List.mem_cons.1 hcop with h' | h'
        · rcases hl1 with h'' | ⟨e, h''⟩
          · rw [h''] at h'
            simp only [Log.copied.injEq] at h'
            exact absurd (Subtype.ext h') hmn
          · rw [h''] at h'; simp at h'
        · exact h'
      rw [hc2 m hm hcop' r]
      have e1 : stat s1 (src ++ m :: r) = stat s (src ++ m :: r) := by
        apply hf1.stat
        by_contra hc
        simp only [Bool.not_eq_false] at hc
        have := under_trans (under_append (src ++ [f]) [n]) hc
        rw [under_child_iff] at this
        exact hf.2 (this ▸ hm)
      have e2 : stat s1 (src ++ [f] ++ m :: r) = stat s (src ++ [f] ++ m :: r) := by
        apply hf1.stat
        by_contra hc
        simp only [Bool.not_eq_false] at hc
        rw [under_child_iff] at hc
        exact hmn hc.symm
      rw [e1, e2]

/-! ## The loop that deletes the originals -/

theorem deleteItem_name (fl : Faults) (fuel : Nat) (fs : FS) (src : Path) (n : Name) :
    deleteItem fl fuel fs src n.val =
      match stat fs (src ++ [n]) with
      | none => some (fs, .failedDelete n.val ⟨.ENOENT, src ++ [n]⟩)
      | some .dir =>
        match removeDirectory fl fuel fs (src ++ [n]) with
        | none => none
        | some (fs1, none) => some (fs1, .deleted n.val)
        | some (fs1, some e) => some (fs1, .failedDelete n.val e)
      | some (.file _) =>
        match unlink fl fs (src ++ [n]) with
        | (fs1, none) => some (fs1, .deleted n.val)
        | (fs1, some e) => some (fs1, .failedDelete n.val e) := by
  simp only [deleteItem, join_name]

/-- One round of the loop that deletes the originals. -/
theorem deleteItem_props (fl : Faults) (fuel : Nat) (src : Path) (n : Name)
    {s s1 : FS} {l : Log} (hw : WF s)
    (h : deleteItem fl fuel s src n.val = some (s1, l)) :
    WF s1 ∧ Frame (under (src ++ [n])) s s1 ∧ Shrinks s s1 ∧ DeleteLogOf n l ∧
    (l = .deleted n.val → ∀ q, under (src ++ [n]) q = true → stat s1 q = none) := by
  rw [deleteItem_name] at h
  cases hst : stat s (src ++ [n]) with
  | none =>
    rw [hst] at h
    simp only [Option.some.injEq, Prod.mk.injEq] at h
    obtain ⟨rfl, rfl⟩ := h
    exact ⟨hw, Frame.frame_refl _ _, Shrinks.shrinks_refl _, Or.inr ⟨_, rfl⟩, fun h' => by simp at h'⟩
  | some en =>
    cases en with
    | dir =>
      rw [hst] at h
      simp only at h
      cases hc : removeDirectory fl fuel s (src ++ [n]) with
      | none => rw [hc] at h; simp at h
      | some x =>
        obtain ⟨s2, r⟩ := x
        have hf := removeDirectory_frame fl fuel hc
        have hw2 := removeDirectory_wf fl fuel hc hw
        have hsh := removeDirectory_shrinks fl fuel hc
        rw [hc] at h
        cases r with
        | none =>
          simp only [Option.some.injEq, Prod.mk.injEq] at h
          obtain ⟨rfl, rfl⟩ := h
          exact ⟨hw2, hf, hsh, Or.inl rfl, fun _ => removeDirectory_spec fl fuel hw hc⟩
        | some e =>
          simp only [Option.some.injEq, Prod.mk.injEq] at h
          obtain ⟨rfl, rfl⟩ := h
          exact ⟨hw2, hf, hsh, Or.inr ⟨_, rfl⟩, fun h' => by simp at h'⟩
    | file c =>
      rw [hst] at h
      simp only at h
      cases hc : unlink fl s (src ++ [n]) with
      | mk s2 r =>
        have hf : Frame (under (src ++ [n])) s s2 := unlink_frame hc (under_refl _)
        have hw2 := unlink_wf hc hw
        have hsh := unlink_shrinks hc
        rw [hc] at h
        cases r with
        | none =>
          simp only [Option.some.injEq, Prod.mk.injEq] at h
          obtain ⟨rfl, rfl⟩ := h
          refine ⟨hw2, hf, hsh, Or.inl rfl, fun _ q hq => ?_⟩
          rcases unlink_cases hc with ⟨_, e, he, _⟩ | ⟨_, _, _, hset⟩
          · simp at he
          · subst hset
            rw [stat_erase]
            split
            · rfl
            · rename_i hne
              obtain ⟨t, rfl⟩ := under_iff.1 hq
              have ht : t ≠ [] := by
                rintro rfl
                exact hne (by simp)
              exact hw.file_no_children hst t ht
        | some e =>
          simp only [Option.some.injEq, Prod.mk.injEq] at h
          obtain ⟨rfl, rfl⟩ := h
          exact ⟨hw2, hf, hsh, Or.inr ⟨_, rfl⟩, fun h' => by simp at h'⟩

theorem deleteLoop_split {fl : Faults} {fuel : Nat} {src : Path} {fs fs' : FS}
    {item : String} {rest : List String} {ls : List Log}
    (h : deleteLoop fl fuel src fs (item :: rest) = some (fs', ls)) :
    ∃ fs1 l ls', deleteItem fl fuel fs src item = some (fs1, l) ∧
      deleteLoop fl fuel src fs1 rest = some (fs', ls') ∧ ls = l :: ls' := by
  simp only [deleteLoop] at h
  cases h1 : deleteItem fl fuel fs src item with
  | none => rw [h1] at h; simp at h
  | some x =>
    obtain ⟨fs1, l⟩ := x
    rw [h1] at h
    simp only at h
    cases h2 : deleteLoop fl fuel src fs1 rest with
    | none => rw [h2] at h; simp at h
    | some y =>
      obtain ⟨fs2, ls'⟩ := y
      rw [h2] at h
      simp only [Option.some.injEq, Prod.mk.injEq] at h
      exact ⟨fs1, l, ls', rfl, by rw [← h.1]; exact h2, h.2.symm⟩

theorem deleted_mem {names : List Name} {ls : List Log} (h : List.Forall₂ DeleteLogOf names ls)
    {m : Name} (hm : Log.deleted m.val ∈ ls) : m ∈ names := by
  induction h with
  | nil => simp at hm
  | cons hl _ ih =>
    rcases List.mem_cons.1 hm with h' | h'
    · rcases hl with h'' | ⟨e, h''⟩
      · rw [h''] at h'
        simp only [Log.deleted.injEq] at h'
        exact List.mem_cons.2 (Or.inl (Subtype.ext h'))
      · rw [h''] at h'; simp at h'
    · exact List.mem_cons_of_mem _ (ih h')

/-- The loop that deletes the originals: it touches only the items, creates
nothing, logs one line per item in order, and nothing is left of an item it
reports deleted. -/
theorem deleteLoop_props (fl : Faults) (fuel : Nat) (src : Path) :
    ∀ (names : List Name) {s s' : FS} {ls : List Log}, WF s →
      deleteLoop fl fuel src s (names.map (fun n => n.val)) = some (s', ls) →
      WF s' ∧ Frame (underNames src names) s s' ∧ Shrinks s s' ∧
      List.Forall₂ DeleteLogOf names ls ∧
      ∀ n ∈ names, Log.deleted n.val ∈ ls →
        ∀ q, under (src ++ [n]) q = true → stat s' q = none := by
  intro names
  induction names with
  | nil =>
    intro s s' ls hw h
    simp only [List.map_nil, deleteLoop, Option.some.injEq, Prod.mk.injEq] at h
    obtain ⟨rfl, rfl⟩ := h
    exact ⟨hw, Frame.frame_refl _ _, Shrinks.shrinks_refl _, List.Forall₂.nil, fun n hn => by simp at hn⟩
  | cons n names ih =>
    intro s s' ls hw h
    simp only [List.map_cons] at h
    obtain ⟨s1, l, ls', h1, h2, rfl⟩ := deleteLoop_split h
    obtain ⟨hw1, hf1, hs1, hl1, hc1⟩ := deleteItem_props fl fuel src n hw h1
    obtain ⟨hw2, hf2, hs2, hl2, hc2⟩ := ih hw1 h2
    have hsub1 : ∀ q, under (src ++ [n]) q = true → underNames src (n :: names) q = true :=
      fun q hq => underNames_mem (List.mem_cons_self _ _) hq
    have hsub2 : ∀ q, underNames src names q = true → underNames src (n :: names) q = true := by
      intro q hq
      rw [underNames_cons, hq]; simp
    refine ⟨hw2, (hf1.mono hsub1).frame_trans (hf2.mono hsub2), hs1.shrinks_trans hs2,
      List.Forall₂.cons hl1 hl2, ?_⟩
    intro m hm hdel q hq
    rcases List.mem_cons.1 hdel with h' | h'
    · have hmn : m = n := by
        rcases hl1 with h'' | ⟨e, h''⟩
        · rw [h''] at h'
          simp only [Log.deleted.injEq] at h'
          exact Subtype.ext h'
        · rw [h''] at h'; simp at h'
      subst hmn
      have := hc1 h'.symm q hq
      rcases hs2 q with h3 | h3
      · exact h3
      · rw [h3, this]
    · exact hc2 m (deleted_mem hl2 h') h' q hq

/-! ## The archive step -/

theorem entryAt_eq_some {p : Path} {x : Path × Entry} {r : Path} {d : Option Content} :
    entryAt p x = some (r, d) ↔ r ≠ [] ∧ x.1 = p ++ r ∧ x.2.data = d := by
  unfold entryAt
  cases hs : strip p x.1 with
  | none =>
    constructor
    · intro h; simp at h
    · rintro ⟨_, h1, _⟩
      rw [← strip_eq_some, hs] at h1
      simp at h1
  | some t =>
    have ht := strip_eq_some.1 hs
    cases t with
    | nil =>
      constructor
      · intro h; simp at h
      · rintro ⟨hr, h1, _⟩
        rw [ht] at h1
        simp only [List.append_nil, List.self_eq_append_right] at h1
        exact absurd h1 hr
    | cons n t =>
      simp only [Option.some.injEq, Prod.mk.injEq]
      constructor
      · rintro ⟨h1, h2⟩
        exact ⟨by rw [← h1]; simp, by rw [← h1]; exact ht, h2⟩
      · rintro ⟨_, h1, h2⟩
        rw [ht] at h1
        simp only [List.append_cancel_left_eq] at h1
        exact ⟨h1, h2⟩

theorem mem_walkEntries {fs : FS} {p r : Path} {d : Option Content} :
    (r, d) ∈ walkEntries fs p ↔ r ≠ [] ∧ ∃ e, (p ++ r, e) ∈ fs ∧ e.data = d := by
  unfold walkEntries
  simp only [List.mem_filterMap, entryAt_eq_some, Prod.exists]
  constructor
  · rintro ⟨k, v, hmem, hr, h1, h2⟩
    have h1' : k = p ++ r := h1
    subst h1'
    exact ⟨hr, v, hmem, h2⟩
  · rintro ⟨hr, e, hmem, h2⟩
    exact ⟨_, _, hmem, hr, rfl, h2⟩

theorem walkEntries_keep (fs : FS) (p : Path) :
    walkEntries (keep (under p) fs) p = walkEntries fs p := by
  induction fs with
  | nil => simp [keep, walkEntries]
  | cons x t ih =>
    obtain ⟨k, v⟩ := x
    unfold keep walkEntries at ih ⊢
    cases hP : under p k
    · have hnone : entryAt p (k, v) = none := by
        cases hf : entryAt p (k, v) with
        | none => rfl
        | some y =>
          obtain ⟨r, c⟩ := y
          have hk : k = p ++ r := (entryAt_eq_some.1 hf).2.1
          rw [hk, under_append] at hP
          simp at hP
      simp only [List.filter, hP, List.filterMap_cons, ih, hnone]
    · simp only [List.filter, hP, List.filterMap_cons, ih]

theorem walkEntries_of_keep_eq {fs fs' : FS} {p : Path}
    (h : keep (under p) fs' = keep (under p) fs) : walkEntries fs' p = walkEntries fs p := by
  rw [← walkEntries_keep fs', ← walkEntries_keep fs, h]

theorem writeContent_file {fs : FS} {p : Path} {g : File} (h : stat fs p = some (.file g))
    (c : Content) : writeContent fs p c = fs.set p (.file ⟨c, g.readable, g.writable⟩) := by
  simp only [writeContent, h]

theorem writeContent_frame (fs : FS) (out : Path) (c : Content) :
    Frame (fun q => decide (q = out)) fs (writeContent fs out c) := by
  unfold writeContent
  split
  · exact frame_set _ _ (by simp)
  · exact Frame.frame_refl _ _

theorem createWriteStream_cases {fl : Faults} {fs fs' : FS} {out : Path} {r : Option Err}
    (h : createWriteStream fl fs out = (fs', r)) :
    (fs' = fs ∧ r ≠ none) ∨
    (r = none ∧ stat fs out ≠ some .dir ∧ fl.write out = false ∧
      (stat fs out = none → stat fs out.dropLast = some .dir) ∧
      ∃ g : File, g.content = .raw "" ∧ (stat fs out = none → g = File.raw "") ∧
        fs' = fs.set out (.file g)) := by
  unfold createWriteStream at h
  by_cases hl : tooLong fl out = true
  · simp only [hl, if_true, Prod.mk.injEq] at h
    exact Or.inl ⟨h.1.symm, by rw [← h.2]; simp⟩
  simp only [hl, Bool.false_eq_true, if_false] at h
  cases hs : stat fs out with
  | some e =>
    cases e with
    | dir =>
      simp only [hs, Prod.mk.injEq] at h
      exact Or.inl ⟨h.1.symm, by rw [← h.2]; simp⟩
    | file g =>
      simp only [hs] at h
      by_cases hwr : (fl.write out || !g.writable) = true
      · simp only [hwr, if_true, Prod.mk.injEq] at h
        exact Or.inl ⟨h.1.symm, by rw [← h.2]; simp⟩
      · simp only [hwr, Bool.false_eq_true, if_false, Prod.mk.injEq] at h
        simp only [Bool.or_eq_true, Bool.not_eq_true', not_or, Bool.not_eq_true,
          Bool.not_eq_false] at hwr
        refine Or.inr ⟨h.2.symm, by simp, hwr.1, by simp, ⟨.raw "", g.readable, g.writable⟩, rfl,
          by simp, ?_⟩
        rw [← h.1, writeContent_file hs]
  | none =>
    simp only [hs] at h
    cases hpar : stat fs out.dropLast with
    | none =>
      simp only [hpar, Prod.mk.injEq] at h
      exact Or.inl ⟨h.1.symm, by rw [← h.2]; simp⟩
    | some e =>
      cases e with
      | file c =>
        simp only [hpar, Prod.mk.injEq] at h
        exact Or.inl ⟨h.1.symm, by rw [← h.2]; simp⟩
      | dir =>
        simp only [hpar] at h
        by_cases hwr : fl.write out = true
        · simp only [hwr, if_true, Prod.mk.injEq] at h
          exact Or.inl ⟨h.1.symm, by rw [← h.2]; simp⟩
        · simp only [hwr, Bool.false_eq_true, if_false, Prod.mk.injEq] at h
          simp only [Bool.not_eq_true] at hwr
          exact Or.inr ⟨h.2.symm, by simp, hwr, fun _ => rfl, File.raw "", rfl, fun _ => rfl,
            h.1.symm⟩

theorem createWriteStream_ok {fl : Faults} {fs : FS} {out : Path} (hs : stat fs out = none)
    (hp : stat fs out.dropLast = some .dir) (hw : fl.write out = false)
    (hl : tooLong fl out = false) :
    createWriteStream fl fs out = (fs.set out (.file (.raw "")), none) := by
  simp [createWriteStream, hs, hp, hw, hl, File.raw]

theorem wf_overwrite {fs : FS} (hw : WF fs) {p : Path} {c c' : File}
    (h : stat fs p = some (.file c)) : WF (fs.set p (.file c')) := by
  refine wf_set hw ?_ (Or.inr (by rw [h]; simp))
  intro q n hq
  subst hq
  exact hw.parent q n (by rw [h]; rfl)

theorem createWriteStream_wf {fl : Faults} {fs fs' : FS} {out : Path} {r : Option Err}
    (h : createWriteStream fl fs out = (fs', r)) (hw : WF fs) : WF fs' := by
  rcases createWriteStream_cases h with ⟨rfl, _⟩ | ⟨_, hd, _, hp, g, _, _, rfl⟩
  · exact hw
  · refine wf_set hw ?_ (Or.inr hd)
    intro q n hq
    subst hq
    cases hs : stat fs (q ++ [n]) with
    | none => have := hp hs; simpa using this
    | some e => exact hw.parent q n (by rw [hs]; rfl)

/-- The archive step: it touches only the output file; when it resolves and
`source` is a directory, the output file is the archive of the entries below
`source`, with their paths relative to `source`; it crashes exactly when the
output file cannot be opened. -/
theorem zipDirectory_props {fl : Faults} {fs fs' : FS} {source out : Path} {zr : ZipResult}
    (h : zipDirectory fl fs source out = (fs', zr)) (hw : WF fs) :
    WF fs' ∧ Frame (fun q => decide (q = out)) fs fs' ∧
    (zr = .resolved → stat fs source = some .dir → source ≠ out →
      ∃ g : File, g.content = .raw "" ∧ (stat fs out = none → g = File.raw "") ∧
        stat fs' out = some (.file ⟨Content.pack (walkEntries (fs.set out (.file g)) source),
          g.readable, g.writable⟩)) ∧
    (∀ e, zr = .crashed e → createWriteStream fl fs out = (fs', some e)) := by
  unfold zipDirectory at h
  cases hc : createWriteStream fl fs out with
  | mk fs1 r1 =>
    have hw1 := createWriteStream_wf hc hw
    rw [hc] at h
    cases r1 with
    | some e =>
      have hf1 : Frame (fun q => decide (q = out)) fs fs1 := by
        rcases createWriteStream_cases hc with ⟨rfl, _⟩ | ⟨_, _, _, _, g, _, _, rfl⟩
        · exact Frame.frame_refl _ _
        · exact frame_set _ _ (by simp)
      simp only [Prod.mk.injEq] at h
      obtain ⟨rfl, rfl⟩ := h
      refine ⟨hw1, hf1, fun h' => by simp at h', ?_⟩
      intro e' he'
      simp only [ZipResult.crashed.injEq] at he'
      rw [he']
    | none =>
      obtain ⟨g, hg, hgn, hset⟩ : ∃ g : File, g.content = .raw "" ∧
          (stat fs out = none → g = File.raw "") ∧ fs1 = fs.set out (.file g) := by
        rcases createWriteStream_cases hc with ⟨_, hne⟩ | ⟨_, _, _, _, hex⟩
        · exact absurd rfl hne
        · exact hex
      have hf1 : Frame (fun q => decide (q = out)) fs fs1 := by
        rw [hset]; exact frame_set _ _ (by simp)
      have hout : stat fs1 out = some (.file g) := by
        rw [hset, stat_set]; simp
      have hwc : ∀ c, WF (writeContent fs1 out c) ∧
          Frame (fun q => decide (q = out)) fs (writeContent fs1 out c) ∧
          stat (writeContent fs1 out c) out = some (.file ⟨c, g.readable, g.writable⟩) := by
        intro c
        rw [writeContent_file hout]
        exact ⟨wf_overwrite hw1 hout, hf1.frame_trans (frame_set _ _ (by simp)),
          by rw [stat_set]; simp⟩
      have hsrc1 : source ≠ out → stat fs1 source = stat fs source := by
        intro hne
        exact hf1.stat (by simpa using hne)
      simp only at h
      cases hsd : stat fs1 source with
      | none =>
        simp only [hsd, Prod.mk.injEq] at h
        obtain ⟨rfl, rfl⟩ := h
        refine ⟨(hwc _).1, (hwc _).2.1, ?_, fun e he => by simp at he⟩
        intro _ hdir hne
        rw [hsrc1 hne, hdir] at hsd
        simp at hsd
      | some en =>
        cases en with
        | file c =>
          simp only [hsd, Prod.mk.injEq] at h
          obtain ⟨rfl, rfl⟩ := h
          refine ⟨(hwc _).1, (hwc _).2.1, ?_, fun e he => by simp at he⟩
          intro _ hdir hne
          rw [hsrc1 hne, hdir] at hsd
          simp at hsd
        | dir =>
          simp only [hsd] at h
          cases hu : firstUnreadable fl fs1 source with
          | some q =>
            simp only [hu, Prod.mk.injEq] at h
            obtain ⟨rfl, rfl⟩ := h
            exact ⟨(hwc _).1, (hwc _).2.1, fun h' => by simp at h', fun e he => by simp at he⟩
          | none =>
            simp only [hu, Prod.mk.injEq] at h
            obtain ⟨rfl, rfl⟩ := h
            refine ⟨(hwc _).1, (hwc _).2.1, ?_, fun e he => by simp at he⟩
            intro _ _ _
            refine ⟨g, hg, hgn, ?_⟩
            rw [(hwc _).2.2, hset]

/-! ## Enough fuel -/

theorem removeDirectory_stable (fl : Faults) (fs : FS) (p : Path) :
    ∃ x, ∀ fuel, depth fs < fuel → removeDirectory fl fuel fs p = some x := by
  obtain ⟨fs', r, h⟩ := removeDirectory_returns fl fs p (Nat.lt_succ_self (depth fs))
  exact ⟨(fs', r), fun fuel hf => removeDirectory_mono_le fl hf h⟩

theorem stageItem_stable (fl : Faults) (sourceDir sharedFolder : Path) (item : String) (s : FS) :
    ∃ x, ∀ fuel, fl.pathMax + 2 ≤ fuel →
      stageItem fl fuel s sourceDir sharedFolder item = some x := by
  cases hst : stat s (join sourceDir item) with
  | none =>
    exact ⟨(s, .failedCopy item ⟨.ENOENT, join sourceDir item⟩), fun fuel _ => by
      simp only [stageItem, hst]⟩
  | some en =>
    cases en with
    | file c =>
      rcases hc : copyFile fl s (join sourceDir item) (join sharedFolder item) with ⟨s1, _ | e⟩
      · exact ⟨(s1, .copied item), fun fuel _ => by simp only [stageItem, hst, hc]⟩
      · exact ⟨(s1, .failedCopy item e), fun fuel _ => by simp only [stageItem, hst, hc]⟩
    | dir =>
      obtain ⟨⟨s1, r⟩, hx⟩ :=
        copyDirectory_ends fl s (join sourceDir item) (join sharedFolder item)
      cases r with
      | none =>
        exact ⟨(s1, .copied item), fun fuel hf => by simp only [stageItem, hst, hx fuel hf]⟩
      | some e =>
        exact ⟨(s1, .failedCopy item e), fun fuel hf => by
          simp only [stageItem, hst, hx fuel hf]⟩

theorem stageLoop_stable (fl : Faults) (sourceDir sharedFolder : Path) :
    ∀ (items : List String) (s : FS), ∃ x, ∀ fuel, fl.pathMax + 2 ≤ fuel →
      stageLoop fl fuel sourceDir sharedFolder s items = some x := by
  intro items
  induction items with
  | nil => intro s; exact ⟨(s, []), fun fuel _ => rfl⟩
  | cons item rest ih =>
    intro s
    obtain ⟨⟨s1, l⟩, h1⟩ := stageItem_stable fl sourceDir sharedFolder item s
    obtain ⟨⟨s2, ls⟩, h2⟩ := ih s1
    refine ⟨(s2, l :: ls), ?_⟩
    intro fuel hfuel
    simp only [stageLoop]
    rw [h1 fuel hfuel]
    simp only
    rw [h2 fuel hfuel]

theorem deleteItem_stable (fl : Faults) (sourceDir : Path) (item : String) (s : FS) :
    ∃ x, ∀ fuel, depth s < fuel → deleteItem fl fuel s sourceDir item = some x := by
  cases hst : stat s (join sourceDir item) with
  | none =>
    exact ⟨(s, .failedDelete item ⟨.ENOENT, join sourceDir item⟩), fun fuel _ => by
      simp only [deleteItem, hst]⟩
  | some en =>
    cases en with
    | file c =>
      rcases hc : unlink fl s (join sourceDir item) with ⟨s1, _ | e⟩
      · exact ⟨(s1, .deleted item), fun fuel _ => by simp only [deleteItem, hst, hc]⟩
      · exact ⟨(s1, .failedDelete item e), fun fuel _ => by simp only [deleteItem, hst, hc]⟩
    | dir =>
      obtain ⟨⟨s1, r⟩, hx⟩ := removeDirectory_stable fl s (join sourceDir item)
      cases r with
      | none =>
        exact ⟨(s1, .deleted item), fun fuel hf => by simp only [deleteItem, hst, hx fuel hf]⟩
      | some e =>
        exact ⟨(s1, .failedDelete item e), fun fuel hf => by
          simp only [deleteItem, hst, hx fuel hf]⟩

theorem deleteLoop_stable (fl : Faults) (sourceDir : Path) :
    ∀ (items : List String) (s : FS), ∃ N x, ∀ fuel, N ≤ fuel →
      deleteLoop fl fuel sourceDir s items = some x := by
  intro items
  induction items with
  | nil => intro s; exact ⟨0, (s, []), fun fuel _ => rfl⟩
  | cons item rest ih =>
    intro s
    obtain ⟨⟨s1, l⟩, h1⟩ := deleteItem_stable fl sourceDir item s
    obtain ⟨N, ⟨s2, ls⟩, h2⟩ := ih s1
    refine ⟨max N (depth s + 1), (s2, l :: ls), ?_⟩
    intro fuel hfuel
    simp only [deleteLoop]
    rw [h1 fuel (by omega)]
    simp only
    rw [h2 fuel (by omega)]

theorem cleanAndDelete_stable (fl : Faults) (sourceDir sharedFolder : Path)
    (items : List String) (s : FS) :
    ∃ N fs' ls, ∀ fuel, N ≤ fuel →
      cleanAndDelete fl fuel s sourceDir sharedFolder items = some (fs', ls, .done) := by
  obtain ⟨⟨s1, r⟩, h1⟩ := removeDirectory_stable fl s sharedFolder
  obtain ⟨N, ⟨s2, ls⟩, h2⟩ := deleteLoop_stable fl sourceDir items s1
  cases r with
  | none =>
    refine ⟨max N (depth s + 1), s2, [.cleaning, .cleaned, .deleting] ++ ls ++ [.done], ?_⟩
    intro fuel hfuel
    simp only [cleanAndDelete]
    rw [h1 fuel (by omega)]
    simp only
    rw [h2 fuel (by omega)]
  | some e =>
    refine ⟨max N (depth s + 1), s2, [.cleaning, .failedClean e, .deleting] ++ ls ++ [.done], ?_⟩
    intro fuel hfuel
    simp only [cleanAndDelete]
    rw [h1 fuel (by omega)]
    simp only
    rw [h2 fuel (by omega)]

theorem mkdirFrom_create {fl : Faults} {n : Name} {rest : List Name} :
    ∀ {fs : FS} {pre : Path}, WF fs → stat fs (pre ++ rest) = some .dir →
      stat fs (pre ++ rest ++ [n]) = none → fl.write (pre ++ rest ++ [n]) = false →
      mkdirFrom fl fs pre (rest ++ [n]) = (fs ++ [(pre ++ rest ++ [n], .dir)], none) := by
  induction rest with
  | nil =>
    intro fs pre _ hd hn hwr
    simp only [List.append_nil] at hd hn hwr ⊢
    simp only [List.nil_append, mkdirFrom]
    rw [ensureDir_noop _ hd]
    simp only [ensureDir, hn, hwr]
    simp
  | cons m rest ih =>
    intro fs pre hw hd hn hwr
    have hpre : stat fs pre = some .dir := hw.above (m :: rest) (by simp) (by rw [hd]; rfl)
    simp only [List.cons_append, mkdirFrom]
    rw [ensureDir_noop _ hpre]
    simp only
    have := @ih fs (pre ++ [m]) hw (by simpa using hd) (by simpa using hn) (by simpa using hwr)
    simpa using this

theorem mkdirRecursive_create {fl : Faults} {fs : FS} {p : Path} {n : Name} (hw : WF fs)
    (hd : stat fs p = some .dir) (hn : stat fs (p ++ [n]) = none)
    (hwr : fl.write (p ++ [n]) = false) (hl : tooLong fl (p ++ [n]) = false) :
    mkdirRecursive fl fs (p ++ [n]) = (fs ++ [(p ++ [n], .dir)], none) := by
  have := @mkdirFrom_create fl n p fs [] hw (by simpa using hd)
    (by simpa using hn) (by simpa using hwr)
  simpa [mkdirRecursive, hl] using this

/-! ## The pipeline, step by step -/

theorem filterContents_nil (ans : Answers) : filterContents [] ans = [] := by
  unfold filterContents
  cases ans.filterOption <;> simp

theorem filterContents_subset {contents : List Item} {ans : Answers} {item : Item}
    (h : item ∈ filterContents contents ans) : item ∈ contents := by
  unfold filterContents at h
  split at h
  · exact (List.mem_filter.1 h).1
  · split at h
    · exact (List.mem_filter.1 h).1
    · exact h
  · exact h

theorem getContents_ok {lower : String → String} {fl : Faults} {fs : FS} {src : Path}
    {contents : List Item} (h : getContents lower fl fs src = .ok contents) :
    stat fs src = some .dir ∧ fl.read src = false ∧
      contents.map Item.name = (children fs src).map Dirent.name := by
  unfold getContents at h
  cases hrd : readdir fl fs src with
  | error e => rw [hrd] at h; simp at h
  | ok ds =>
    rw [hrd] at h
    simp only [Except.ok.injEq] at h
    obtain ⟨h1, h2, h3⟩ := readdir_ok hrd
    refine ⟨h1, h2, ?_⟩
    rw [← h, ← h3]
    simp [List.map_map, Function.comp_def]

/-- A run either ends before the staging folder is created, with the file system
as it was, or it is the pipeline run on a non-empty selection. -/
theorem main_cases {lower : String → String} {fl : Faults} {fuel : Nat} {fs fs' : FS}
    {src : Path} {ans : Answers} {log : List Log} {out : Outcome}
    (h : main lower fl fuel fs src ans = some (fs', log, out)) :
    (fs' = fs ∧ out ≠ .done ∧ ∀ e, out ≠ .crashed e) ∨
    (∃ contents, getContents lower fl fs src = .ok contents ∧
      filterContents contents ans ≠ [] ∧ ans.selected ≠ [] ∧
      runPipeline fl fuel fs src (join src ans.customFolderName)
        (join src (ans.customFolderName ++ ".zip")) ans.selected = some (fs', log, out)) := by
  unfold main at h
  simp only at h
  split at h
  · simp only [Option.some.injEq, Prod.mk.injEq] at h
    left; exact ⟨h.1.symm, by rw [← h.2.2]; simp, by rw [← h.2.2]; simp⟩
  · split at h
    · simp only [Option.some.injEq, Prod.mk.injEq] at h
      left; exact ⟨h.1.symm, by rw [← h.2.2]; simp, by rw [← h.2.2]; simp⟩
    · rename_i contents hc
      split at h
      · simp only [Option.some.injEq, Prod.mk.injEq] at h
        left; exact ⟨h.1.symm, by rw [← h.2.2]; simp, by rw [← h.2.2]; simp⟩
      · split at h
        · simp only [Option.some.injEq, Prod.mk.injEq] at h
          left; exact ⟨h.1.symm, by rw [← h.2.2]; simp, by rw [← h.2.2]; simp⟩
        · rename_i hfil
          split at h
          · simp only [Option.some.injEq, Prod.mk.injEq] at h
            left; exact ⟨h.1.symm, by rw [← h.2.2]; simp, by rw [← h.2.2]; simp⟩
          · rename_i hsel
            right
            refine ⟨contents, hc, ?_, ?_, h⟩
            · intro e; rw [e] at hfil; simp at hfil
            · intro e; rw [e] at hsel; simp at hsel

theorem main_of_guards {lower : String → String} {fl : Faults} (fuel : Nat) {fs : FS}
    {src : Path} {ans : Answers} {contents : List Item}
    (hc : getContents lower fl fs src = .ok contents)
    (hfil : filterContents contents ans ≠ []) (hsel : ans.selected ≠ []) :
    main lower fl fuel fs src ans =
      runPipeline fl fuel fs src (join src ans.customFolderName)
        (join src (ans.customFolderName ++ ".zip")) ans.selected := by
  have hsrc := (getContents_ok hc).1
  have hne : contents ≠ [] := by
    rintro rfl
    exact hfil (filterContents_nil ans)
  unfold main
  simp only [hsrc, Option.isNone_some, Bool.false_eq_true, if_false, hc]
  have h1 : ¬ contents.length = 0 := fun e => hne (List.length_eq_zero.1 e)
  have h2 : ¬ (filterContents contents ans).length = 0 := fun e => hfil (List.length_eq_zero.1 e)
  have h3 : ¬ ans.selected.length = 0 := fun e => hsel (List.length_eq_zero.1 e)
  simp only [h1, h2, h3, if_false]

/-- How a run of the pipeline can end, with the states in between. -/
theorem runPipeline_cases {fl : Faults} {fuel : Nat} {fs fs' : FS} {src shared zipFile : Path}
    {sel : List String} {log : List Log} {out : Outcome}
    (h : runPipeline fl fuel fs src shared zipFile sel = some (fs', log, out)) :
    (∃ e, mkdirRecursive fl fs shared = (fs', some e) ∧ log = [.error e] ∧ out = .aborted e) ∨
    ∃ fs1 fs2 copyLog fs3 zr,
      mkdirRecursive fl fs shared = (fs1, none) ∧
      stageLoop fl fuel src shared fs1 sel = some (fs2, copyLog) ∧
      zipDirectory fl fs2 shared zipFile = (fs3, zr) ∧
      ((∃ e, zr = .crashed e ∧ fs' = fs3 ∧ log = [.moving] ++ copyLog ++ [.zipping] ∧
          out = .crashed e) ∨
       (∃ fs4 cr delLog zipLog cleanLog,
          removeDirectory fl fuel fs3 shared = some (fs4, cr) ∧
          deleteLoop fl fuel src fs4 sel = some (fs', delLog) ∧
          ((zipLog = [.zippedBytes, .zipped] ∧ zr = .resolved) ∨
            ∃ e, zipLog = [.failedZip e] ∧ zr = .rejected e) ∧
          ((cleanLog = .cleaned ∧ cr = none) ∨ ∃ e, cleanLog = .failedClean e ∧ cr = some e) ∧
          log = [.moving] ++ copyLog ++ [.zipping] ++ zipLog ++
            ([.cleaning, cleanLog, .deleting] ++ delLog ++ [.done]) ∧
          out = .done)) := by
  unfold runPipeline at h
  rcases hm : mkdirRecursive fl fs shared with ⟨fs1, _ | e⟩
  · rw [hm] at h
    simp only at h
    right
    cases hst : stageLoop fl fuel src shared fs1 sel with
    | none => rw [hst] at h; simp at h
    | some x =>
      obtain ⟨fs2, copyLog⟩ := x
      rw [hst] at h
      simp only at h
      rcases hz : zipDirectory fl fs2 shared zipFile with ⟨fs3, zr⟩
      rw [hz] at h
      refine ⟨fs1, fs2, copyLog, fs3, zr, rfl, hst, hz, ?_⟩
      have hclean : ∀ (zipLog : List Log),
          (match cleanAndDelete fl fuel fs3 src shared sel with
            | none => none
            | some (fs4, ls, out) =>
              some (fs4, [Log.moving] ++ copyLog ++ [Log.zipping] ++ zipLog ++ ls, out)) =
            some (fs', log, out) →
          ∃ fs4 cr delLog cleanLog,
            removeDirectory fl fuel fs3 shared = some (fs4, cr) ∧
            deleteLoop fl fuel src fs4 sel = some (fs', delLog) ∧
            ((cleanLog = .cleaned ∧ cr = none) ∨ ∃ e, cleanLog = .failedClean e ∧ cr = some e) ∧
            log = [.moving] ++ copyLog ++ [.zipping] ++ zipLog ++
              ([.cleaning, cleanLog, .deleting] ++ delLog ++ [.done]) ∧
            out = .done := by
        intro zipLog h'
        unfold cleanAndDelete at h'
        cases hr : removeDirectory fl fuel fs3 shared with
        | none => rw [hr] at h'; simp at h'
        | some y =>
          obtain ⟨fs4, cr⟩ := y
          rw [hr] at h'
          simp only at h'
          cases hd : deleteLoop fl fuel src fs4 sel with
          | none => rw [hd] at h'; simp at h'
          | some w =>
            obtain ⟨fs5, delLog⟩ := w
            rw [hd] at h'
            simp only [Option.some.injEq, Prod.mk.injEq] at h'
            obtain ⟨rfl, rfl, rfl⟩ := h'
            cases cr with
            | none => exact ⟨fs4, none, delLog, .cleaned, rfl, hd, Or.inl ⟨rfl, rfl⟩, rfl, rfl⟩
            | some e =>
              exact ⟨fs4, some e, delLog, .failedClean e, rfl, hd, Or.inr ⟨e, rfl, rfl⟩, rfl, rfl⟩
      cases zr with
      | crashed e =>
        simp only [Option.some.injEq, Prod.mk.injEq] at h
        left
        exact ⟨e, rfl, h.1.symm, h.2.1.symm, h.2.2.symm⟩
      | resolved =>
        simp only at h
        right
        obtain ⟨fs4, cr, delLog, cleanLog, h1, h2, h3, h4, h5⟩ := hclean _ h
        exact ⟨fs4, cr, delLog, _, cleanLog, h1, h2, Or.inl ⟨rfl, rfl⟩, h3, h4, h5⟩
      | rejected e =>
        simp only at h
        right
        obtain ⟨fs4, cr, delLog, cleanLog, h1, h2, h3, h4, h5⟩ := hclean _ h
        exact ⟨fs4, cr, delLog, _, cleanLog, h1, h2, Or.inr ⟨e, rfl, rfl⟩, h3, h4, h5⟩
  · rw [hm] at h
    simp only [Option.some.injEq, Prod.mk.injEq] at h
    left
    exact ⟨e, by rw [h.1], h.2.1.symm, h.2.2.symm⟩

/-! ## What the pipeline can touch -/

theorem stageItem_frame {fl : Faults} {fuel : Nat} {src shared : Path} {n : Name}
    {s s1 : FS} {l : Log} (h : stageItem fl fuel s src shared n.val = some (s1, l)) :
    Frame (comparable shared) s s1 := by
  rw [stageItem_name] at h
  have hsub : ∀ q, comparable (shared ++ [n]) q = true → comparable shared q = true :=
    fun q hq => comparable_snoc hq
  cases hst : stat s (src ++ [n]) with
  | none =>
    rw [hst] at h
    simp only [Option.some.injEq, Prod.mk.injEq] at h
    rw [← h.1]; exact Frame.frame_refl _ _
  | some en =>
    cases en with
    | dir =>
      rw [hst] at h
      simp only at h
      cases hc : copyDirectory fl fuel s (src ++ [n]) (shared ++ [n]) with
      | none => rw [hc] at h; simp at h
      | some x =>
        obtain ⟨s2, r⟩ := x
        have hf := (copyDirectory_frame fl fuel hc).mono hsub
        rw [hc] at h
        cases r <;>
          (simp only [Option.some.injEq, Prod.mk.injEq] at h; rw [← h.1]; exact hf)
    | file c =>
      rw [hst] at h
      simp only at h
      cases hc : copyFile fl s (src ++ [n]) (shared ++ [n]) with
      | mk s2 r =>
        have hf : Frame (comparable shared) s s2 :=
          copyFile_frame hc (by simp [comparable, under_append])
        rw [hc] at h
        cases r <;>
          (simp only [Option.some.injEq, Prod.mk.injEq] at h; rw [← h.1]; exact hf)

theorem stageLoop_frame (fl : Faults) (fuel : Nat) (src shared : Path) :
    ∀ (names : List Name) {s s' : FS} {ls : List Log},
      stageLoop fl fuel src shared s (names.map (fun n => n.val)) = some (s', ls) →
      Frame (comparable shared) s s' := by
  intro names
  induction names with
  | nil =>
    intro s s' ls h
    simp only [List.map_nil, stageLoop, Option.some.injEq, Prod.mk.injEq] at h
    rw [← h.1]; exact Frame.frame_refl _ _
  | cons n names ih =>
    intro s s' ls h
    simp only [List.map_cons] at h
    obtain ⟨s1, l, ls', h1, h2, _⟩ := stageLoop_split h
    exact (stageItem_frame h1).frame_trans (ih h2)

theorem deleteItem_frame {fl : Faults} {fuel : Nat} {src : Path} {n : Name}
    {s s1 : FS} {l : Log} (h : deleteItem fl fuel s src n.val = some (s1, l)) :
    Frame (under (src ++ [n])) s s1 ∧ Shrinks s s1 := by
  rw [deleteItem_name] at h
  cases hst : stat s (src ++ [n]) with
  | none =>
    rw [hst] at h
    simp only [Option.some.injEq, Prod.mk.injEq] at h
    rw [← h.1]; exact ⟨Frame.frame_refl _ _, Shrinks.shrinks_refl _⟩
  | some en =>
    cases en with
    | dir =>
      rw [hst] at h
      simp only at h
      cases hc : removeDirectory fl fuel s (src ++ [n]) with
      | none => rw [hc] at h; simp at h
      | some x =>
        obtain ⟨s2, r⟩ := x
        have hf := removeDirectory_frame fl fuel hc
        have hs := removeDirectory_shrinks fl fuel hc
        rw [hc] at h
        cases r <;>
          (simp only [Option.some.injEq, Prod.mk.injEq] at h; rw [← h.1]; exact ⟨hf, hs⟩)
    | file c =>
      rw [hst] at h
      simp only at h
      cases hc : unlink fl s (src ++ [n]) with
      | mk s2 r =>
        have hf : Frame (under (src ++ [n])) s s2 := unlink_frame hc (under_refl _)
        have hs := unlink_shrinks hc
        rw [hc] at h
        cases r <;>
          (simp only [Option.some.injEq, Prod.mk.injEq] at h; rw [← h.1]; exact ⟨hf, hs⟩)

theorem deleteLoop_frame (fl : Faults) (fuel : Nat) (src : Path) :
    ∀ (names : List Name) {s s' : FS} {ls : List Log},
      deleteLoop fl fuel src s (names.map (fun n => n.val)) = some (s', ls) →
      Frame (underNames src names) s s' ∧ Shrinks s s' := by
  intro names
  induction names with
  | nil =>
    intro s s' ls h
    simp only [List.map_nil, deleteLoop, Option.some.injEq, Prod.mk.injEq] at h
    rw [← h.1]; exact ⟨Frame.frame_refl _ _, Shrinks.shrinks_refl _⟩
  | cons n names ih =>
    intro s s' ls h
    simp only [List.map_cons] at h
    obtain ⟨s1, l, ls', h1, h2, _⟩ := deleteLoop_split h
    obtain ⟨hf1, hs1⟩ := deleteItem_frame h1
    obtain ⟨hf2, hs2⟩ := ih h2
    refine ⟨?_, hs1.shrinks_trans hs2⟩
    exact (hf1.mono (fun q hq => underNames_mem (List.mem_cons_self _ _) hq)).frame_trans
      (hf2.mono (fun q hq => by rw [underNames_cons, hq]; simp))

theorem zipDirectory_frame {fl : Faults} {fs fs' : FS} {source out : Path} {zr : ZipResult}
    (h : zipDirectory fl fs source out = (fs', zr)) :
    Frame (fun q => decide (q = out)) fs fs' := by
  unfold zipDirectory at h
  cases hc : createWriteStream fl fs out with
  | mk fs1 r1 =>
    have hf1 : Frame (fun q => decide (q = out)) fs fs1 := by
      rcases createWriteStream_cases hc with ⟨rfl, _⟩ | ⟨_, _, _, _, g, _, _, rfl⟩
      · exact Frame.frame_refl _ _
      · exact frame_set _ _ (by simp)
    rw [hc] at h
    cases r1 with
    | some e =>
      simp only [Prod.mk.injEq] at h
      rw [← h.1]; exact hf1
    | none =>
      simp only at h
      split at h
      · split at h
        · simp only [Prod.mk.injEq] at h
          rw [← h.1]
          exact hf1.frame_trans (writeContent_frame _ _ _)
        · simp only [Prod.mk.injEq] at h
          rw [← h.1]
          exact hf1.frame_trans (writeContent_frame _ _ _)
      · simp only [Prod.mk.injEq] at h
        rw [← h.1]
        exact hf1.frame_trans (writeContent_frame _ _ _)

/-- A run of the pipeline touches the staging folder and the archive file, and
then removes from the selected items. -/
theorem runPipeline_frame {fl : Faults} {fuel : Nat} {fs fs' : FS} {src shared zipFile : Path}
    {names : List Name} {log : List Log} {out : Outcome}
    (h : runPipeline fl fuel fs src shared zipFile (names.map (fun n => n.val))
      = some (fs', log, out)) :
    ∃ fsm, Frame (stagingArea shared zipFile) fs fsm ∧
      Frame (underNames src names) fsm fs' ∧ Shrinks fsm fs' := by
  have hA : ∀ q, under q shared = true → stagingArea shared zipFile q = true := by
    intro q hq; simp [stagingArea, comparable, hq]
  have hB : ∀ q, comparable shared q = true → stagingArea shared zipFile q = true := by
    intro q hq; simp [stagingArea, hq]
  have hC : ∀ q, decide (q = zipFile) = true → stagingArea shared zipFile q = true := by
    intro q hq; simp only [stagingArea, hq]; simp
  have hD : ∀ q, under shared q = true → stagingArea shared zipFile q = true := by
    intro q hq; simp [stagingArea, comparable, hq]
  rcases runPipeline_cases h with ⟨e, hm, _, _⟩ | ⟨fs1, fs2, copyLog, fs3, zr, hm, hst, hz, hrest⟩
  · exact ⟨fs', (mkdirRecursive_frame hm).mono hA, Frame.frame_refl _ _, Shrinks.shrinks_refl _⟩
  · have h123 : Frame (stagingArea shared zipFile) fs fs3 :=
      (((mkdirRecursive_frame hm).mono hA).frame_trans
        ((stageLoop_frame fl fuel src shared names hst).mono hB)).frame_trans
        ((zipDirectory_frame hz).mono hC)
    rcases hrest with ⟨e, _, rfl, _, _⟩ | ⟨fs4, cr, delLog, zipLog, cleanLog, hr, hd, _, _, _, _⟩
    · exact ⟨fs', h123, Frame.frame_refl _ _, Shrinks.shrinks_refl _⟩
    · obtain ⟨hf, hs⟩ := deleteLoop_frame fl fuel src names hd
      exact ⟨fs4, h123.frame_trans ((removeDirectory_frame fl fuel hr).mono hD), hf, hs⟩

theorem nothing_below {fs : FS} (hw : WF fs) {p : Path} (h : stat fs p = none) (r : Path) :
    stat fs (p ++ r) = none := by
  by_cases hr : r = []
  · subst hr; simpa using h
  · cases hs : stat fs (p ++ r) with
    | none => rfl
    | some e =>
      have := hw.above r hr (by rw [hs]; rfl)
      rw [h] at this; simp at this

/-- What a regular run provides: the names of the staging folder, of the archive
and of the selected items, and the run as a run of the pipeline. -/
theorem Regular.setup {lower : String → String} {fl : Faults} {fs : FS} {src : Path}
    {ans : Answers} (hr : Regular lower fl fs src ans) :
    ∃ (f z : Name) (names : List Name),
      f.val = ans.customFolderName ∧ z.val = ans.customFolderName ++ ".zip" ∧
      join src ans.customFolderName = src ++ [f] ∧
      join src (ans.customFolderName ++ ".zip") = src ++ [z] ∧ z ≠ f ∧
      ans.selected = names.map (fun n => n.val) ∧ names.Nodup ∧ names ≠ [] ∧
      (∀ n ∈ names, (stat fs (src ++ [n])).isSome = true) ∧ f ∉ names ∧ z ∉ names ∧
      stat fs src = some .dir ∧ stat fs (src ++ [f]) = none ∧ stat fs (src ++ [z]) = none ∧
      ∀ fuel, main lower fl fuel fs src ans =
        runPipeline fl fuel fs src (src ++ [f]) (src ++ [z]) (names.map (fun n => n.val)) := by
  obtain ⟨contents, hc, hsel⟩ := hr.listing
  have hvalid : ∀ s ∈ ans.selected, validName s := by
    intro s hs
    obtain ⟨item, _, rfl⟩ := hsel s hs
    exact item.name.property
  obtain ⟨names, hnames⟩ := selection_names hvalid
  have hjf := join_valid src hr.folder
  have hjz := join_valid src (validName_zip hr.folder)
  have hf0 := hr.fresh
  have hz0 := hr.freshZip
  rw [hjf] at hf0
  rw [hjz] at hz0
  have hchild : ∀ n ∈ names, (stat fs (src ++ [n])).isSome = true := by
    intro n hn
    have hmem : n.val ∈ ans.selected := by
      rw [hnames]; exact List.mem_map.2 ⟨n, hn, rfl⟩
    obtain ⟨item, hitem, hval⟩ := hsel _ hmem
    have hin : item.name ∈ contents.map Item.name :=
      List.mem_map.2 ⟨item, filterContents_subset hitem, rfl⟩
    rw [(getContents_ok hc).2.2] at hin
    obtain ⟨d, hd, hdn⟩ := List.mem_map.1 hin
    obtain ⟨e, he, _⟩ := mem_children.1 hd
    have hnn : d.name = n := by rw [hdn]; exact Subtype.ext hval
    rw [hnn] at he
    exact stat_isSome_of_mem he
  have hne : names ≠ [] := by
    rintro rfl
    exact hr.nonempty (by rw [hnames]; rfl)
  have hfil : filterContents contents ans ≠ [] := by
    cases hs : ans.selected with
    | nil => exact absurd hs hr.nonempty
    | cons s rest =>
      obtain ⟨item, hitem, _⟩ := hsel s (by rw [hs]; exact List.mem_cons_self _ _)
      exact List.ne_nil_of_mem hitem
  refine ⟨⟨_, hr.folder⟩, ⟨_, validName_zip hr.folder⟩, names, rfl, rfl, hjf, hjz, ?_, hnames,
    ?_, hne, hchild, ?_, ?_, (getContents_ok hc).1, hf0, hz0, ?_⟩
  · intro e
    have := congrArg Subtype.val e
    exact zip_ne_self _ this
  · have := hr.distinct
    rw [hnames] at this
    exact List.Nodup.of_map _ this
  · intro hmem
    have := hchild _ hmem
    rw [hf0] at this; simp at this
  · intro hmem
    have := hchild _ hmem
    rw [hz0] at this; simp at this
  · intro fuel
    rw [main_of_guards fuel hc hfil hr.nonempty, hjf, hjz, hnames]

theorem not_under_parent {src : Path} {n f : Name} (r : Path) (h : n ≠ f) :
    under (src ++ n :: r) (src ++ [f]) = false := by
  by_contra hc
  simp only [Bool.not_eq_false] at hc
  obtain ⟨t, ht⟩ := under_iff.1 hc
  simp only [List.append_assoc, List.cons_append, List.append_cancel_left_eq,
    List.cons.injEq] at ht
  exact h ht.1.symm

theorem not_under_longer {p : Path} {n : Name} (r : Path) :
    under (p ++ n :: r) p = false := by
  by_contra hc
  simp only [Bool.not_eq_false] at hc
  have := under_length hc
  simp at this

/-- The facts about a run of the pipeline that ends normally, from a well-formed
file system where the staging folder and the archive are new names and the
selected items are distinct entries of the source directory. -/
theorem pipeline_facts (fl : Faults) (fuel : Nat) (src : Path) (f z : Name) (names : List Name)
    (hzf : z ≠ f) {fs fs' : FS} {log : List Log} (hw : WF fs)
    (hf : stat fs (src ++ [f]) = none) (hz0 : stat fs (src ++ [z]) = none)
    (hnd : names.Nodup) (hfn : f ∉ names) (hzn : z ∉ names)
    (h : runPipeline fl fuel fs src (src ++ [f]) (src ++ [z]) (names.map (fun n => n.val))
      = some (fs', log, .done)) :
    ∃ copyLog zipLog cleanLog delLog,
      log = [.moving] ++ copyLog ++ [.zipping] ++ zipLog ++
        ([.cleaning, cleanLog, .deleting] ++ delLog ++ [.done]) ∧
      List.Forall₂ CopyLogOf names copyLog ∧ List.Forall₂ DeleteLogOf names delLog ∧
      (zipLog = [.zippedBytes, .zipped] ∨ ∃ e, zipLog = [.failedZip e]) ∧
      (cleanLog = .cleaned ∨ ∃ e, cleanLog = .failedClean e) ∧
      WF fs' ∧
      (zipLog = [.zippedBytes, .zipped] →
        ∃ es, stat fs' (src ++ [z]) = some (.file (File.plain (Content.pack es))) ∧
          (∀ n ∈ names, Log.copied n.val ∈ copyLog → ∀ r e,
            stat fs (src ++ n :: r) = some e → (n :: r, e.data) ∈ es) ∧
          ((∀ n ∈ names, Log.copied n.val ∈ copyLog) → ∀ p d, (p, d) ∈ es →
            ∃ n ∈ names, ∃ r e, p = n :: r ∧ stat fs (src ++ n :: r) = some e ∧ e.data = d)) ∧
      (cleanLog = .cleaned → ∀ q, under (src ++ [f]) q = true → stat fs' q = none) ∧
      (∀ n ∈ names, Log.deleted n.val ∈ delLog →
        ∀ q, under (src ++ [n]) q = true → stat fs' q = none) := by
  rcases runPipeline_cases h with ⟨e, _, _, ho⟩ | ⟨fs1, fs2, copyLog, fs3, zr, hm, hst, hz, hrest⟩
  · simp at ho
  rcases hrest with ⟨e, _, _, _, ho⟩ | ⟨fs4, cr, delLog, zipLog, cleanLog, hr, hd, hzl, hcl, hlog, _⟩
  · simp at ho
  have hw1 := mkdirRecursive_wf hm hw
  have hd1 := mkdirRecursive_dir hm
  have hfm := mkdirRecursive_frame hm
  obtain ⟨hw2, hd2, hf2, hl2, hc2⟩ := stageLoop_props fl fuel src f names hnd hfn hw1 hd1 hst
  obtain ⟨hw3, hf3, hres3, _⟩ := zipDirectory_props hz hw2
  have hw4 := removeDirectory_wf fl fuel hr hw3
  have hf4 := removeDirectory_frame fl fuel hr
  obtain ⟨hw5, hf5, hs5, hl5, hc5⟩ := deleteLoop_props fl fuel src names hw4 hd
  have hsrc1 : ∀ (n : Name) (r : Path), n ≠ f →
      stat fs1 (src ++ n :: r) = stat fs (src ++ n :: r) :=
    fun n r hn => hfm.stat (not_under_parent r hn)
  have hsh1 : ∀ (n : Name) (r : Path), stat fs1 (src ++ [f] ++ n :: r) = none := by
    intro n r
    rw [hfm.stat (not_under_longer r)]
    exact nothing_below hw hf _
  refine ⟨copyLog, zipLog, cleanLog, delLog, hlog, hl2, hl5, ?_, ?_, hw5, ?_, ?_, hc5⟩
  · rcases hzl with ⟨h1, _⟩ | ⟨e, h1, _⟩
    · exact Or.inl h1
    · exact Or.inr ⟨e, h1⟩
  · rcases hcl with ⟨h1, _⟩ | ⟨e, h1, _⟩
    · exact Or.inl h1
    · exact Or.inr ⟨e, h1⟩
  · intro hzip
    have hzr : zr = .resolved := by
      rcases hzl with ⟨_, h2⟩ | ⟨e, h1, _⟩
      · exact h2
      · rw [hzip] at h1; simp at h1
    have hnu : under (src ++ [f]) (src ++ [z]) = false := by
      by_contra hc
      simp only [Bool.not_eq_false] at hc
      rw [under_child_iff] at hc
      exact hzf hc.symm
    have hz2 : stat fs2 (src ++ [z]) = none := by
      rw [hf2.stat (by
        by_contra hc
        simp only [Bool.not_eq_false] at hc
        have := underNames_under hc
        rw [under_child_iff] at this
        exact hzf this.symm)]
      rw [hfm.stat (not_under_parent [] hzf)]
      exact hz0
    obtain ⟨g, _, hg, hstat3⟩ := hres3 hzr hd2 (fun e => by
      simp only [List.append_cancel_left_eq, List.cons.injEq, and_true] at e
      exact hzf e.symm)
    have hg' := hg hz2
    subst hg'
    have hwalk : walkEntries (fs2.set (src ++ [z]) (.file (File.raw ""))) (src ++ [f]) =
        walkEntries fs2 (src ++ [f]) :=
      walkEntries_of_keep_eq (keep_set fs2 _ hnu)
    refine ⟨walkEntries fs2 (src ++ [f]), ?_, ?_, ?_⟩
    · rw [hf5.stat (underNames_false [] hzn), hf4.stat hnu, hstat3, hwalk]
      rfl
    · intro n hn hcop r e hsrc
      rw [mem_walkEntries]
      refine ⟨by simp, e, mem_of_stat ?_, rfl⟩
      have hnf : n ≠ f := fun e => hfn (e ▸ hn)
      rw [hc2 n hn hcop r, hsrc1 n r hnf, overlay_some _ hsrc]
    · intro hall p d hp
      rw [mem_walkEntries] at hp
      obtain ⟨hpne, e, hmem, hde⟩ := hp
      have hst2 := stat_of_mem_nodup hw2.nodup hmem
      cases p with
      | nil => exact absurd rfl hpne
      | cons m r =>
        by_cases hm' : m ∈ names
        · refine ⟨m, hm', r, e, rfl, ?_, hde⟩
          have hmf : m ≠ f := fun e => hfn (e ▸ hm')
          rw [hc2 m hm' (hall m hm') r, hsrc1 m r hmf, hsh1 m r] at hst2
          rw [← hst2]
          cases stat fs (src ++ m :: r) <;> rfl
        · rw [hf2.stat (underNames_false r hm'), hsh1 m r] at hst2
          simp at hst2
  · intro hclean
    have hcr : cr = none := by
      rcases hcl with ⟨_, h2⟩ | ⟨e, h1, _⟩
      · exact h2
      · rw [hclean] at h1; simp at h1
    subst hcr
    intro q hq
    have := removeDirectory_spec fl fuel hw3 hr q hq
    rcases hs5 q with h3 | h3
    · exact h3
    · rw [h3, this]

/-! ## The pipeline returns -/

theorem runPipeline_stable (fl : Faults) (sourceDir sharedFolder zipFile : Path)
    (selected : List String) (fs : FS) :
    ∃ N x, ∀ fuel, N ≤ fuel →
      runPipeline fl fuel fs sourceDir sharedFolder zipFile selected = some x := by
  rcases hm : mkdirRecursive fl fs sharedFolder with ⟨fs1, _ | e⟩
  · obtain ⟨⟨fs2, copyLog⟩, h1⟩ := stageLoop_stable fl sourceDir sharedFolder selected fs1
    rcases hz : zipDirectory fl fs2 sharedFolder zipFile with ⟨fs3, zr⟩
    obtain ⟨N2, fs4, ls, h2⟩ := cleanAndDelete_stable fl sourceDir sharedFolder selected fs3
    cases zr with
    | crashed e =>
      refine ⟨fl.pathMax + 2, (fs3, [.moving] ++ copyLog ++ [.zipping], .crashed e), ?_⟩
      intro fuel hfuel
      simp only [runPipeline, hm, h1 fuel hfuel, hz]
    | resolved =>
      refine ⟨max (fl.pathMax + 2) N2,
        (fs4, [.moving] ++ copyLog ++ [.zipping] ++ [.zippedBytes, .zipped] ++ ls, .done), ?_⟩
      intro fuel hfuel
      simp only [runPipeline, hm, h1 fuel (by omega), hz, h2 fuel (by omega)]
    | rejected e =>
      refine ⟨max (fl.pathMax + 2) N2,
        (fs4, [.moving] ++ copyLog ++ [.zipping] ++ [.failedZip e] ++ ls, .done), ?_⟩
      intro fuel hfuel
      simp only [runPipeline, hm, h1 fuel (by omega), hz, h2 fuel (by omega)]
  · exact ⟨0, (fs1, [.error e], .aborted e), fun fuel _ => by simp only [runPipeline, hm]⟩

/-- Every run of `main` returns once the fuel is large enough, with a result that
no longer depends on the fuel. -/
theorem main_returns (lower : String → String) (fl : Faults) (fs : FS) (src : Path)
    (ans : Answers) :
    ∃ N x, ∀ fuel, N ≤ fuel → main lower fl fuel fs src ans = some x := by
  obtain ⟨N, x, h⟩ := runPipeline_stable fl src (join src ans.customFolderName)
    (join src (ans.customFolderName ++ ".zip")) ans.selected fs
  by_cases h1 : (stat fs src).isNone = true
  · exact ⟨0, (fs, [.dirMissing], .noSource), fun fuel _ => by simp only [main, h1, if_true]⟩
  · cases hc : getContents lower fl fs src with
    | error e =>
      exact ⟨0, (fs, [.error e], .aborted e), fun fuel _ => by simp only [main, h1, hc]; rfl⟩
    | ok contents =>
      by_cases h2 : contents.length = 0
      · exact ⟨0, (fs, [.nothingFound], .emptyListing), fun fuel _ => by
          simp only [main, h1, hc, h2, if_true]; rfl⟩
      · by_cases h3 : (filterContents contents ans).length = 0
        · exact ⟨0, (fs, [.noMatch], .emptyFilter), fun fuel _ => by
            simp only [main, h1, hc, h2, h3, if_true]; rfl⟩
        · by_cases h4 : ans.selected.length = 0
          · exact ⟨0, (fs, [.noSelection], .emptySelection), fun fuel _ => by
              simp only [main, h1, hc, h2, h3, h4, if_true]; rfl⟩
          · exact ⟨N, x, fun fuel hf => by
              simp only [main, h1, hc, h2, h3, h4, h fuel hf]; rfl⟩

/-- A regular run returns once the fuel is large enough, with a result that no
longer depends on the fuel. -/
theorem Regular.returns {lower : String → String} {fl : Faults} {fs : FS} {src : Path}
    {ans : Answers} (_ : Regular lower fl fs src ans) :
    ∃ N x, ∀ fuel, N ≤ fuel → main lower fl fuel fs src ans = some x :=
  main_returns lower fl fs src ans

/-- In a regular run where the archive file can be created, the pipeline does
not crash, and it aborts only when the staging folder cannot be created. -/
theorem pipeline_done (fl : Faults) (fuel : Nat) (src : Path) (f z : Name) (names : List Name)
    (hzf : z ≠ f) {fs fs' : FS} {log : List Log} {out : Outcome} (hw : WF fs)
    (hsrc : stat fs src = some .dir) (hf : stat fs (src ++ [f]) = none)
    (hz : stat fs (src ++ [z]) = none) (hnd : names.Nodup) (hfn : f ∉ names)
    (hwz : fl.write (src ++ [z]) = false) (hlz : tooLong fl (src ++ [z]) = false)
    (h : runPipeline fl fuel fs src (src ++ [f]) (src ++ [z]) (names.map (fun n => n.val))
      = some (fs', log, out)) :
    out = .done ∨ ∃ e, out = .aborted e ∧
      (fl.write (src ++ [f]) = true ∨ tooLong fl (src ++ [f]) = true) := by
  rcases runPipeline_cases h with ⟨e, hm, _, ho⟩ | ⟨fs1, fs2, copyLog, fs3, zr, hm, hst, hzd, hrest⟩
  · right
    refine ⟨e, ho, ?_⟩
    by_contra hc
    simp only [not_or, Bool.not_eq_true] at hc
    rw [mkdirRecursive_create hw hsrc hf hc.1 hc.2] at hm
    simp at hm
  · left
    rcases hrest with ⟨e, hcr, _, _, _⟩ | ⟨_, _, _, _, _, _, _, _, _, _, ho⟩
    · exfalso
      have hw1 := mkdirRecursive_wf hm hw
      have hd1 := mkdirRecursive_dir hm
      obtain ⟨hw2, _, hf2, _, _⟩ := stageLoop_props fl fuel src f names hnd hfn hw1 hd1 hst
      have hsrc2 : stat fs2 src = some .dir := by
        rw [hf2.stat (by
          by_contra hc
          simp only [Bool.not_eq_false] at hc
          have := under_length (underNames_under hc)
          simp at this)]
        exact mkdirRecursive_extends hm _ _ hsrc
      have hz2 : stat fs2 (src ++ [z]) = none := by
        rw [hf2.stat (by
          by_contra hc
          simp only [Bool.not_eq_false] at hc
          have := underNames_under hc
          rw [under_child_iff] at this
          exact hzf this.symm)]
        rw [(mkdirRecursive_frame hm).stat (not_under_parent [] hzf)]
        exact hz
      have hcrash := (zipDirectory_props hzd hw2).2.2.2 e hcr
      rw [createWriteStream_ok hz2 (by simpa using hsrc2) hwz hlz] at hcrash
      simp at hcrash
    · exact ho

/-! ## Reading the log -/

theorem copyLog_not (names : List Name) {ls : List Log} (h : List.Forall₂ CopyLogOf names ls)
    {l : Log} (hl : l ∈ ls) : ∃ n ∈ names, CopyLogOf n l := by
  induction h with
  | nil => simp at hl
  | cons hx _ ih =>
    rcases List.mem_cons.1 hl with rfl | hl
    · exact ⟨_, List.mem_cons_self _ _, hx⟩
    · obtain ⟨n, hn, hc⟩ := ih hl
      exact ⟨n, List.mem_cons_of_mem _ hn, hc⟩

theorem deleteLog_not (names : List Name) {ls : List Log} (h : List.Forall₂ DeleteLogOf names ls)
    {l : Log} (hl : l ∈ ls) : ∃ n ∈ names, DeleteLogOf n l := by
  induction h with
  | nil => simp at hl
  | cons hx _ ih =>
    rcases List.mem_cons.1 hl with rfl | hl
    · exact ⟨_, List.mem_cons_self _ _, hx⟩
    · obtain ⟨n, hn, hc⟩ := ih hl
      exact ⟨n, List.mem_cons_of_mem _ hn, hc⟩

theorem all_copied {names : List Name} {ls : List Log} (h : List.Forall₂ CopyLogOf names ls)
    (hok : ∀ l ∈ ls, l.isFailure = false) : ∀ n ∈ names, Log.copied n.val ∈ ls := by
  induction h with
  | nil => intro n hn; simp at hn
  | cons hx _ ih =>
    intro n hn
    rcases List.mem_cons.1 hn with rfl | hn
    · rcases hx with h1 | ⟨e, h1⟩
      · rw [h1]; exact List.mem_cons_self _ _
      · have := hok _ (List.mem_cons_self _ _)
        rw [h1] at this; simp [Log.isFailure] at this
    · exact List.mem_cons_of_mem _ (ih (fun l hl => hok l (List.mem_cons_of_mem _ hl)) n hn)

theorem all_deleted {names : List Name} {ls : List Log} (h : List.Forall₂ DeleteLogOf names ls)
    (hok : ∀ l ∈ ls, l.isFailure = false) : ∀ n ∈ names, Log.deleted n.val ∈ ls := by
  induction h with
  | nil => intro n hn; simp at hn
  | cons hx _ ih =>
    intro n hn
    rcases List.mem_cons.1 hn with rfl | hn
    · rcases hx with h1 | ⟨e, h1⟩
      · rw [h1]; exact List.mem_cons_self _ _
      · have := hok _ (List.mem_cons_self _ _)
        rw [h1] at this; simp [Log.isFailure] at this
    · exact List.mem_cons_of_mem _ (ih (fun l hl => hok l (List.mem_cons_of_mem _ hl)) n hn)

/-- Where a line of the log of a completed run comes from. -/
theorem log_parts {names : List Name} {copyLog zipLog delLog : List Log} {cleanLog : Log}
    (hc : List.Forall₂ CopyLogOf names copyLog) (hd : List.Forall₂ DeleteLogOf names delLog)
    (hz : zipLog = [.zippedBytes, .zipped] ∨ ∃ e, zipLog = [.failedZip e])
    (hcl : cleanLog = .cleaned ∨ ∃ e, cleanLog = .failedClean e) {log : List Log}
    (hlog : log = [.moving] ++ copyLog ++ [.zipping] ++ zipLog ++
      ([.cleaning, cleanLog, .deleting] ++ delLog ++ [.done])) :
    (∀ s, Log.copied s ∈ log → Log.copied s ∈ copyLog) ∧
    (∀ s, Log.deleted s ∈ log → Log.deleted s ∈ delLog) ∧
    (Log.zipped ∈ log → zipLog = [.zippedBytes, .zipped]) ∧
    (Log.cleaned ∈ log → cleanLog = .cleaned) := by
  have hcopy : ∀ l ∈ copyLog, ∃ n, CopyLogOf n l := fun l hl => by
    obtain ⟨n, _, h⟩ := copyLog_not names hc hl; exact ⟨n, h⟩
  have hdel : ∀ l ∈ delLog, ∃ n, DeleteLogOf n l := fun l hl => by
    obtain ⟨n, _, h⟩ := deleteLog_not names hd hl; exact ⟨n, h⟩
  subst hlog
  refine ⟨?_, ?_, ?_, ?_⟩
  · intro s hs
    simp only [List.mem_append, List.mem_cons, List.mem_singleton, List.not_mem_nil,
      or_false] at hs
    rcases hs with (((h | h) | h) | h) | ((h | h | h) | h) | h
    all_goals first
      | exact h
      | (exfalso; simp at h)
      | (exfalso
         rcases hz with hz | ⟨e, hz⟩ <;> (rw [hz] at h; simp at h))
      | (exfalso
         rcases hcl with hcl | ⟨e, hcl⟩ <;> (rw [hcl] at h; simp at h))
      | (exfalso
         obtain ⟨n, hn | ⟨e, hn⟩⟩ := hdel _ h <;> simp at hn)
  · intro s hs
    simp only [List.mem_append, List.mem_cons, List.mem_singleton, List.not_mem_nil,
      or_false] at hs
    rcases hs with (((h | h) | h) | h) | ((h | h | h) | h) | h
    all_goals first
      | exact h
      | (exfalso; simp at h)
      | (exfalso
         rcases hz with hz | ⟨e, hz⟩ <;> (rw [hz] at h; simp at h))
      | (exfalso
         rcases hcl with hcl | ⟨e, hcl⟩ <;> (rw [hcl] at h; simp at h))
      | (exfalso
         obtain ⟨n, hn | ⟨e, hn⟩⟩ := hcopy _ h <;> simp at hn)
  · intro hs
    rcases hz with hz | ⟨e, hz⟩
    · exact hz
    · exfalso
      simp only [List.mem_append, List.mem_cons, List.mem_singleton, List.not_mem_nil,
        or_false] at hs
      rcases hs with (((h | h) | h) | h) | ((h | h | h) | h) | h
      all_goals first
        | (simp at h)
        | (rw [hz] at h; simp at h)
        | (rcases hcl with hcl | ⟨e, hcl⟩ <;> (rw [hcl] at h; simp at h))
        | (obtain ⟨n, hn | ⟨e, hn⟩⟩ := hcopy _ h <;> simp at hn)
        | (obtain ⟨n, hn | ⟨e, hn⟩⟩ := hdel _ h <;> simp at hn)
  · intro hs
    rcases hcl with hcl | ⟨e, hcl⟩
    · exact hcl
    · exfalso
      simp only [List.mem_append, List.mem_cons, List.mem_singleton, List.not_mem_nil,
        or_false] at hs
      rcases hs with (((h | h) | h) | h) | ((h | h | h) | h) | h
      all_goals first
        | (simp at h)
        | (rw [hcl] at h; simp at h)
        | (rcases hz with hz | ⟨e, hz⟩ <;> (rw [hz] at h; simp at h))
        | (obtain ⟨n, hn | ⟨e, hn⟩⟩ := hcopy _ h <;> simp at hn)
        | (obtain ⟨n, hn | ⟨e, hn⟩⟩ := hdel _ h <;> simp at hn)

/-! ## Claims on the pipeline -/

theorem pipeline_keeps_child {fl : Faults} {fuel : Nat} {fs fs' : FS} {src : Path} {f z : Name}
    {names : List Name} {log : List Log} {out : Outcome}
    (h : runPipeline fl fuel fs src (src ++ [f]) (src ++ [z]) (names.map (fun n => n.val))
      = some (fs', log, out))
    {c : Name} (hc : c ∉ names) (hcf : c ≠ f) (hcz : c ≠ z) :
    keep (under (src ++ [c])) fs' = keep (under (src ++ [c])) fs := by
  obtain ⟨fsm, h1, h2, _⟩ := runPipeline_frame h
  rw [h2.keep, h1.keep]
  · intro q hq
    simp only [stagingArea, comparable, Bool.or_eq_true, decide_eq_true_eq] at hq
    rcases hq with (hq | hq) | hq
    · exact (incomp_siblings src hcf).symm.not_both hq
    · by_contra hc'
      simp only [Bool.not_eq_false] at hc'
      have := under_trans hc' hq
      rw [under_child_iff] at this
      exact hcf this
    · subst hq
      by_contra hc'
      simp only [Bool.not_eq_false] at hc'
      rw [under_child_iff] at hc'
      exact hcz hc'
  · intro q hq
    obtain ⟨n, hn, hnq⟩ := underNames_iff.1 hq
    have hne : n ≠ c := fun e => hc (e ▸ hn)
    exact (incomp_siblings src hne).not_both hnq

theorem pipeline_new_entry {fl : Faults} {fuel : Nat} {fs fs' : FS} {src : Path} {f z : Name}
    {names : List Name} {log : List Log} {out : Outcome}
    (h : runPipeline fl fuel fs src (src ++ [f]) (src ++ [z]) (names.map (fun n => n.val))
      = some (fs', log, out))
    {c : Name} (hnew : stat fs (src ++ [c]) = none)
    (hsome : (stat fs' (src ++ [c])).isSome = true) : c = f ∨ c = z := by
  by_contra hne
  simp only [not_or] at hne
  obtain ⟨fsm, h1, _, h3⟩ := runPipeline_frame h
  have hm : stat fsm (src ++ [c]) = none := by
    rw [h1.stat, hnew]
    simp only [stagingArea, comparable, Bool.or_eq_false_iff, decide_eq_false_iff_not]
    refine ⟨⟨?_, ?_⟩, ?_⟩
    · by_contra hc'
      simp only [Bool.not_eq_false] at hc'
      rw [under_child_iff] at hc'
      exact hne.1 hc'.symm
    · by_contra hc'
      simp only [Bool.not_eq_false] at hc'
      rw [under_child_iff] at hc'
      exact hne.1 hc'
    · intro e
      simp only [List.append_cancel_left_eq, List.cons.injEq, and_true] at e
      exact hne.2 e
  rcases h3 (src ++ [c]) with h4 | h4
  · rw [h4] at hsome; simp at hsome
  · rw [h4, hm] at hsome; simp at hsome

/-- C1 (as amended): a regular run (the folder name `F` is a valid entry name,
no entry of the source directory is named `F` or `F.zip`, the selection is a
non-empty list of distinct offered names) ends once the fuel is large enough, and
it ends with `Done!` when the staging folder and the archive file can be
created; and when it ends with `Done!` and every step reported as a success,
(1) `F.zip` in the source directory is an archive whose entries are exactly the
paths at or below the selected items, relative to the source directory: a file
with its contents, a directory as a directory entry, (2) nothing is left at or
below `F`, (3) nothing is left of a selected item, and (4) the subtree of every
unselected entry is as it was. -/
theorem main_end_to_end (lower : String → String) (fl : Faults) (fs : FS) (src : Path)
    (ans : Answers) (hr : Regular lower fl fs src ans) :
    (∃ N fs' log out, (∀ fuel, N ≤ fuel → main lower fl fuel fs src ans = some (fs', log, out)) ∧
      (fl.write (join src ans.customFolderName) = false →
        tooLong fl (join src ans.customFolderName) = false →
        fl.write (join src (ans.customFolderName ++ ".zip")) = false →
        tooLong fl (join src (ans.customFolderName ++ ".zip")) = false → out = .done)) ∧
    ∀ fuel fs' log, main lower fl fuel fs src ans = some (fs', log, .done) →
      (∀ l ∈ log, l.isFailure = false) →
      (∃ es, stat fs' (join src (ans.customFolderName ++ ".zip")) =
          some (.file (File.plain (Content.pack es))) ∧
        ∀ p d, (p, d) ∈ es ↔
          ∃ (n : Name) (r : Path) (e : Entry), n.val ∈ ans.selected ∧ p = n :: r ∧
            stat fs (src ++ n :: r) = some e ∧ e.data = d) ∧
      (∀ q, under (join src ans.customFolderName) q = true → stat fs' q = none) ∧
      (∀ n : Name, n.val ∈ ans.selected →
        ∀ q, under (src ++ [n]) q = true → stat fs' q = none) ∧
      (∀ c : Name, c.val ∉ ans.selected → (stat fs (src ++ [c])).isSome = true →
        keep (under (src ++ [c])) fs' = keep (under (src ++ [c])) fs) := by
  obtain ⟨f, z, names, _, _, hjf, hjz, hzf, hsel, hnd, _, hch, hfn, hzn, hsrc, hf0, hz0, hmain⟩ :=
    hr.setup
  refine ⟨?_, ?_⟩
  · obtain ⟨N, ⟨fs', log, out⟩, hN⟩ := main_returns lower fl fs src ans
    refine ⟨N, fs', log, out, hN, ?_⟩
    intro hwf hlf hwz hlz
    have h := hN N (le_refl N)
    rw [hmain N] at h
    rw [hjf] at hwf hlf
    rw [hjz] at hwz hlz
    rcases pipeline_done fl N src f z names hzf hr.wf hsrc hf0 hz0 hnd hfn hwz hlz h with
      h1 | ⟨e, _, h1 | h1⟩
    · exact h1
    · rw [hwf] at h1; simp at h1
    · rw [hlf] at h1; simp at h1
  intro fuel fs' log h hok
  rw [hmain fuel] at h
  obtain ⟨copyLog, zipLog, cleanLog, delLog, hlog, hl2, hl5, hzl, hcl, _, hzip, hclean, hdel⟩ :=
    pipeline_facts fl fuel src f z names hzf hr.wf hf0 hz0 hnd hfn hzn h
  have hmemsel : ∀ n : Name, n.val ∈ ans.selected ↔ n ∈ names := by
    intro n
    rw [hsel]
    constructor
    · intro hn
      obtain ⟨m, hm, hv⟩ := List.mem_map.1 hn
      have : m = n := Subtype.ext hv
      exact this ▸ hm
    · intro hn; exact List.mem_map.2 ⟨n, hn, rfl⟩
  have hokc : ∀ l ∈ copyLog, l.isFailure = false := fun l hl => hok l (by rw [hlog]; simp [hl])
  have hokd : ∀ l ∈ delLog, l.isFailure = false := fun l hl => hok l (by rw [hlog]; simp [hl])
  have hcop := all_copied hl2 hokc
  have hdl := all_deleted hl5 hokd
  have hz1 : zipLog = [.zippedBytes, .zipped] := by
    rcases hzl with h1 | ⟨e, h1⟩
    · exact h1
    · have := hok (.failedZip e) (by rw [hlog, h1]; simp)
      simp [Log.isFailure] at this
  have hc1 : cleanLog = .cleaned := by
    rcases hcl with h1 | ⟨e, h1⟩
    · exact h1
    · have := hok (.failedClean e) (by rw [hlog, h1]; simp)
      simp [Log.isFailure] at this
  refine ⟨?_, ?_, ?_, ?_⟩
  · obtain ⟨es, hes, hin, hout⟩ := hzip hz1
    refine ⟨es, by rw [hjz]; exact hes, ?_⟩
    intro p d
    constructor
    · intro hp
      obtain ⟨n, hn, r, e, hpr, hst, hd⟩ := hout hcop p d hp
      exact ⟨n, r, e, (hmemsel n).2 hn, hpr, hst, hd⟩
    · rintro ⟨n, r, e, hn, rfl, hst, rfl⟩
      exact hin n ((hmemsel n).1 hn) (hcop n ((hmemsel n).1 hn)) r e hst
  · rw [hjf]; exact hclean hc1
  · intro n hn q hq
    exact hdel n ((hmemsel n).1 hn) (hdl n ((hmemsel n).1 hn)) q hq
  · intro c hc hex
    refine pipeline_keeps_child h (fun hcn => hc ((hmemsel c).2 hcn)) ?_ ?_
    · rintro rfl; rw [hf0] at hex; simp at hex
    · rintro rfl; rw [hz0] at hex; simp at hex

/-- The end-to-end scenario is a regular run. -/
theorem exAns_regular : Regular lowerAscii Faults.none exFS [nHome] exAns :=
  ⟨wf_of_check (by decide), by decide, by decide, by decide, ⟨_, rfl, by decide⟩, by decide,
    by decide⟩

/-- Witness for C1: the end-to-end scenario of the specification. -/
theorem main_end_to_end_witness :
    Regular lowerAscii Faults.none exFS [nHome] exAns ∧
    ∃ fs' log, main lowerAscii Faults.none 5 exFS [nHome] exAns = some (fs', log, .done) ∧
      (∀ l ∈ log, l.isFailure = false) ∧
      stat fs' [nHome, nOutZip] = some (.file (File.plain exArchive)) ∧
      stat fs' [nHome, nOut] = none ∧ stat fs' [nHome, nA] = none ∧
      stat fs' [nHome, nSub] = none ∧ stat fs' [nHome, nSub, nC] = none ∧
      stat fs' [nHome, nB] = some (.file (.raw "B")) := by
  have hrun : main lowerAscii Faults.none 5 exFS [nHome] exAns =
      some ([([], .dir), ([nHome], .dir), ([nHome, nB], .file (.raw "B")),
          ([nHome, nOutZip], .file (File.plain exArchive))],
        [.moving, .copied "a.txt", .copied "sub", .zipping, .zippedBytes, .zipped, .cleaning,
          .cleaned, .deleting, .deleted "a.txt", .deleted "sub", .done], .done) := by
    decide
  have hok : ∀ l ∈ [Log.moving, .copied "a.txt", .copied "sub", .zipping, .zippedBytes, .zipped,
      .cleaning, .cleaned, .deleting, .deleted "a.txt", .deleted "sub", .done],
      l.isFailure = false := by decide
  have hfacts := (main_end_to_end lowerAscii Faults.none exFS [nHome] exAns exAns_regular).2
    5 _ _ hrun hok
  refine ⟨exAns_regular, _, _, hrun, hok, by decide, ?_, ?_, ?_, ?_, by decide⟩
  · exact hfacts.2.1 [nHome, nOut] (by decide)
  · exact hfacts.2.2.1 nA (by decide) [nHome, nA] (by decide)
  · exact hfacts.2.2.1 nSub (by decide) [nHome, nSub] (by decide)
  · exact hfacts.2.2.1 nSub (by decide) [nHome, nSub, nC] (by decide)

/-- Counterexample to C1 as stated, in three runs.  In the scenario of the
specification every step succeeds, and the archive holds an entry for the
directory `sub` besides the entries of the files `a.txt` and `sub/c.txt`.  With
the empty selection the run ends before anything is staged, and there is no
archive.  With the folder name `keep/out`, which names no entry of `/home`,
every step succeeds and the archive is written into the unselected directory
`keep`. -/
theorem main_without_archive :
    (∃ fs' log, main lowerAscii Faults.none 5 exFS [nHome] exAns = some (fs', log, .done) ∧
      (∀ l ∈ log, l.isFailure = false) ∧
      stat fs' [nHome, nOutZip] = some (.file (File.plain (Content.pack
        [([nA], some (.raw "A")), ([nSub], none), ([nSub, nC], some (.raw "C"))]))) ∧
      stat exFS [nHome, nSub] = some .dir) ∧
    (main lowerAscii Faults.none 5 exFS [nHome] ⟨"out", .all, none, []⟩ =
        some (exFS, [.noSelection], .emptySelection) ∧
      stat exFS [nHome, nOutZip] = none) ∧
    ∃ fs' log, main lowerAscii Faults.none 5 exKeep [nHome]
        ⟨"keep/out", .all, none, ["a.txt"]⟩ = some (fs', log, .done) ∧
      (∀ l ∈ log, l.isFailure = false) ∧
      stat exKeep [nHome, nKeep, nOutZip] = none ∧
      stat fs' [nHome, nKeep, nOutZip] =
        some (.file (File.plain (Content.pack [([nA], some (.raw "A"))]))) ∧
      stat fs' [nHome, nOutZip] = none := by
  refine ⟨⟨_, _, rfl, by decide, by decide, by decide⟩, ⟨by decide, by decide⟩,
    _, _, rfl, by decide, by decide, by decide, by decide⟩

/-- C2 (as amended): in a regular run that reaches the deletion of the originals
and reports the archive step as a success, every file at or below a selected
item whose staging copy is reported as a success is an entry of the archive
`F.zip` the run leaves, with its path relative to the source directory and its
contents. -/
theorem main_archives_copied (lower : String → String) (fl : Faults) (fuel : Nat) (fs fs' : FS)
    (src : Path) (ans : Answers) (log : List Log) (hr : Regular lower fl fs src ans)
    (h : main lower fl fuel fs src ans = some (fs', log, .done))
    (hzipped : Log.zipped ∈ log) (n : Name) (hcopied : Log.copied n.val ∈ log) :
    ∃ es, stat fs' (join src (ans.customFolderName ++ ".zip")) =
        some (.file (File.plain (Content.pack es))) ∧
      ∀ r f, stat fs (src ++ n :: r) = some (.file f) → (n :: r, some f.content) ∈ es := by
  obtain ⟨f, z, names, _, _, _, hjz, hzf, _, hnd, _, _, hfn, hzn, _, hf0, hz0, hmain⟩ := hr.setup
  rw [hmain fuel] at h
  obtain ⟨copyLog, zipLog, cleanLog, delLog, hlog, hl2, hl5, hzl, hcl, _, hzip, _, _⟩ :=
    pipeline_facts fl fuel src f z names hzf hr.wf hf0 hz0 hnd hfn hzn h
  obtain ⟨hp1, _, hp3, _⟩ := log_parts hl2 hl5 hzl hcl hlog
  obtain ⟨es, hes, hin, _⟩ := hzip (hp3 hzipped)
  have hc := hp1 _ hcopied
  exact ⟨es, by rw [hjz]; exact hes,
    fun r f' hst => hin n (copied_mem hl2 hc) hc r (.file f') hst⟩

/-- The scenario with an unreadable `a.txt` is a regular run. -/
theorem exAns_regular_unreadable : Regular lowerAscii flUnreadable exFS [nHome] exAns :=
  ⟨wf_of_check (by decide), by decide, by decide, by decide, ⟨_, rfl, by decide⟩, by decide,
    by decide⟩

/-- Witness for C2: with `a.txt` unreadable, `sub` is copied and archived. -/
theorem main_archives_copied_witness :
    Regular lowerAscii flUnreadable exFS [nHome] exAns ∧
    ∃ fs' log, main lowerAscii flUnreadable 5 exFS [nHome] exAns = some (fs', log, .done) ∧
      Log.zipped ∈ log ∧ Log.copied nSub.val ∈ log ∧
      ∃ es, stat fs' (join [nHome] (exAns.customFolderName ++ ".zip")) =
          some (.file (File.plain (Content.pack es))) ∧
        ∀ r f, stat exFS ([nHome] ++ nSub :: r) = some (.file f) →
          (nSub :: r, some f.content) ∈ es := by
  have hrun : main lowerAscii flUnreadable 5 exFS [nHome] exAns =
      some ([([], .dir), ([nHome], .dir), ([nHome, nB], .file (.raw "B")),
          ([nHome, nOutZip], .file (File.plain (Content.pack
            [([nSub], none), ([nSub, nC], some (.raw "C"))])))],
        [.moving, .failedCopy "a.txt" ⟨.EACCES, [nHome, nA]⟩, .copied "sub", .zipping,
          .zippedBytes, .zipped, .cleaning, .cleaned, .deleting, .deleted "a.txt",
          .deleted "sub", .done], .done) := by
    decide
  exact ⟨exAns_regular_unreadable, _, _, hrun, by decide, by decide,
    main_archives_copied lowerAscii flUnreadable 5 exFS _ [nHome] exAns _
      exAns_regular_unreadable hrun (by decide) nSub (by decide)⟩

/-- Counterexample to C2 as stated: with `a.txt` unreadable its staging copy
fails, the run goes on, the deletion of the originals removes `a.txt`, and the
archive the run leaves holds `sub` and `sub/c.txt` only; and where the entry
`out.zip` of `/home` is selected with the folder name `out`, every step
succeeds, and the deletion of the originals removes the archive the run wrote. -/
theorem main_loses_uncopied :
    (stat exFS [nHome, nA] = some (.file (.raw "A")) ∧
      ∃ fs' log, main lowerAscii flUnreadable 5 exFS [nHome] exAns = some (fs', log, .done) ∧
        Log.deleted "a.txt" ∈ log ∧ stat fs' [nHome, nA] = none ∧
        stat fs' [nHome, nOutZip] = some (.file (File.plain (Content.pack
          [([nSub], none), ([nSub, nC], some (.raw "C"))])))) ∧
    ∃ fs' log, main lowerAscii Faults.none 5 exWithZip [nHome]
        ⟨"out", .all, none, ["a.txt", "out.zip"]⟩ = some (fs', log, .done) ∧
      (∀ l ∈ log, l.isFailure = false) ∧
      stat fs' [nHome, nA] = none ∧ stat fs' [nHome, nOutZip] = none := by
  refine ⟨⟨by decide, _, _, rfl, by decide, by decide, by decide⟩,
    _, _, rfl, by decide, by decide, by decide⟩

/-- C3 (as amended): when the folder name `F` and the selected names are valid
entry names, the run ends once the fuel is large enough, and it leaves the
subtree of every entry of the source directory that is not selected and is named
neither `F` nor `F.zip` as it was, and every new entry of the source directory
is named `F` or `F.zip`. -/
theorem main_leaves_unselected (lower : String → String) (fl : Faults)
    (fs : FS) (src : Path) (ans : Answers)
    (hF : validName ans.customFolderName) (hS : ∀ s ∈ ans.selected, validName s) :
    (∃ N x, ∀ fuel, N ≤ fuel → main lower fl fuel fs src ans = some x) ∧
    ∀ fuel fs' log out, main lower fl fuel fs src ans = some (fs', log, out) →
      (∀ c : Name, c.val ∉ ans.selected → c.val ≠ ans.customFolderName →
        c.val ≠ ans.customFolderName ++ ".zip" →
        keep (under (src ++ [c])) fs' = keep (under (src ++ [c])) fs ∧
        ∀ q, stat fs' (src ++ c :: q) = stat fs (src ++ c :: q)) ∧
      (∀ c : Name, stat fs (src ++ [c]) = none → (stat fs' (src ++ [c])).isSome = true →
        c.val = ans.customFolderName ∨ c.val = ans.customFolderName ++ ".zip") := by
  refine ⟨main_returns lower fl fs src ans, ?_⟩
  intro fuel fs' log out h
  rcases main_cases h with ⟨rfl, _, _⟩ | ⟨contents, _, _, _, hp⟩
  · refine ⟨fun c _ _ _ => ⟨rfl, fun _ => rfl⟩, ?_⟩
    intro c hnew hsome
    rw [hnew] at hsome; simp at hsome
  · obtain ⟨names, hnames⟩ := selection_names hS
    rw [join_valid src hF, join_valid src (validName_zip hF), hnames] at hp
    refine ⟨?_, ?_⟩
    · intro c hc hcf hcz
      have hk := pipeline_keeps_child hp (c := c)
        (fun hcn => hc (by rw [hnames]; exact List.mem_map.2 ⟨c, hcn, rfl⟩))
        (fun e => hcf (by rw [e])) (fun e => hcz (by rw [e]))
      refine ⟨hk, fun q => ?_⟩
      have := stat_of_keep_eq hk (under_append (src ++ [c]) q)
      simpa using this
    · intro c hnew hsome
      rcases pipeline_new_entry hp hnew hsome with rfl | rfl
      · exact Or.inl rfl
      · exact Or.inr rfl

/-- Witness for C3: in the end-to-end scenario `b.txt` is left as it was. -/
theorem main_leaves_unselected_witness :
    validName exAns.customFolderName ∧ (∀ s ∈ exAns.selected, validName s) ∧
    ∃ fs' log, main lowerAscii Faults.none 5 exFS [nHome] exAns = some (fs', log, .done) ∧
      keep (under ([nHome] ++ [nB])) fs' = keep (under ([nHome] ++ [nB])) exFS := by
  have hF : validName exAns.customFolderName := by decide
  have hS : ∀ s ∈ exAns.selected, validName s := by decide
  have hrun : main lowerAscii Faults.none 5 exFS [nHome] exAns =
      some ([([], .dir), ([nHome], .dir), ([nHome, nB], .file (.raw "B")),
          ([nHome, nOutZip], .file (File.plain exArchive))],
        [.moving, .copied "a.txt", .copied "sub", .zipping, .zippedBytes, .zipped, .cleaning,
          .cleaned, .deleting, .deleted "a.txt", .deleted "sub", .done], .done) := by
    decide
  exact ⟨hF, hS, _, _, hrun,
    (((main_leaves_unselected lowerAscii Faults.none exFS [nHome] exAns hF hS).2 5 _ _ _ hrun).1
      nB (by decide) (by decide) (by decide)).1⟩

/-- Counterexample to C3 as stated, in three runs.  With the folder name `keep`,
the name of an unselected directory of `/home`, the selected `a.txt` is staged
into that directory, and the staging cleanup removes it with the `b.txt` it
held.  With the folder name `.` the staging folder is `/home` itself, and the
staging cleanup removes the unselected `b.txt`.  And where `/home` holds a
directory `out.zip`, the output stream of the archive cannot be opened, the run
ends there, and the staging folder `out` stays in `/home`, a new entry that is
not the archive. -/
theorem main_removes_unselected :
    (stat exKeep [nHome, nKeep, nB] = some (.file (.raw "B")) ∧
      ∃ fs' log, main lowerAscii Faults.none 5 exKeep [nHome] ⟨"keep", .all, none, ["a.txt"]⟩ =
          some (fs', log, .done) ∧
        stat fs' [nHome, nKeep] = none ∧ stat fs' [nHome, nKeep, nB] = none) ∧
    (stat exFS [nHome, nB] = some (.file (.raw "B")) ∧
      ∃ fs' log, main lowerAscii Faults.none 5 exFS [nHome] ⟨".", .all, none, ["a.txt"]⟩ =
          some (fs', log, .done) ∧
        stat fs' [nHome, nB] = none) ∧
    (stat exZipDir [nHome, nOut] = none ∧
      ∃ fs' log, main lowerAscii Faults.none 5 exZipDir [nHome] ⟨"out", .all, none, ["a.txt"]⟩ =
          some (fs', log, .crashed ⟨.EISDIR, [nHome, nOutZip]⟩) ∧
        stat fs' [nHome, nOut] = some .dir ∧ stat fs' [nHome, nOutZip] = some .dir) := by
  refine ⟨⟨by decide, _, _, rfl, by decide, by decide⟩, ⟨by decide, _, _, rfl, by decide⟩,
    ⟨by decide, _, _, rfl, by decide, by decide⟩⟩

/-- Where the folder name is the name of a selected directory, the copy of the
directory into itself goes down until the system refuses the path, the failure
is caught, and the run goes on to `Done!`. -/
theorem main_stages_into_itself :
    ∃ fs' log e, main lowerAscii flShort 8 exFS [nHome] ⟨"sub", .all, none, ["sub"]⟩ =
        some (fs', log, .done) ∧
      e.code = .ENAMETOOLONG ∧ Log.failedCopy "sub" e ∈ log ∧ stat fs' [nHome, nSub] = none := by
  refine ⟨_, _, ⟨.ENAMETOOLONG, [nHome, nSub, nSub, nSub, nC]⟩, rfl, rfl, by decide, by decide⟩

/-- C4 (as amended): a regular run in which the archive file can be created (no
fault on its path, which the system accepts) returns once the fuel is large
enough; and unless the staging folder could not be
created, whatever copies, removals or the archive step fail, it reaches `Done!`:
the log holds one line per selected item, in order, for the staging copy
(`Copied` or `Failed to copy`), the lines of the archive step and of the staging
cleanup, and one line per selected item, in order, for the deletion (`Deleted`
or `Failed to delete`).  Every file of an item reported as copied is in the
archive when the archive step is reported as a success, and nothing is left of
an item reported as deleted. -/
theorem main_tolerates_failures (lower : String → String) (fl : Faults) (fs : FS) (src : Path)
    (ans : Answers) (hr : Regular lower fl fs src ans)
    (hwz : fl.write (join src (ans.customFolderName ++ ".zip")) = false)
    (hlz : tooLong fl (join src (ans.customFolderName ++ ".zip")) = false) :
    (∃ N x, ∀ fuel, N ≤ fuel → main lower fl fuel fs src ans = some x) ∧
    ∀ fuel fs' log out, main lower fl fuel fs src ans = some (fs', log, out) →
      (∀ e, out ≠ .aborted e) →
      out = .done ∧
      ∃ copyLog zipLog cleanLog delLog,
        log = [.moving] ++ copyLog ++ [.zipping] ++ zipLog ++
          ([.cleaning, cleanLog, .deleting] ++ delLog ++ [.done]) ∧
        List.Forall₂ (fun item l => l = Log.copied item ∨ ∃ e, l = Log.failedCopy item e)
          ans.selected copyLog ∧
        List.Forall₂ (fun item l => l = Log.deleted item ∨ ∃ e, l = Log.failedDelete item e)
          ans.selected delLog ∧
        (zipLog = [.zippedBytes, .zipped] ∨ ∃ e, zipLog = [.failedZip e]) ∧
        (cleanLog = .cleaned ∨ ∃ e, cleanLog = .failedClean e) ∧
        (∀ n : Name, Log.copied n.val ∈ copyLog → zipLog = [.zippedBytes, .zipped] →
          ∃ es, stat fs' (join src (ans.customFolderName ++ ".zip")) =
              some (.file (File.plain (Content.pack es))) ∧
            ∀ r f, stat fs (src ++ n :: r) = some (.file f) → (n :: r, some f.content) ∈ es) ∧
        (∀ n : Name, Log.deleted n.val ∈ delLog →
          ∀ q, under (src ++ [n]) q = true → stat fs' q = none) := by
  refine ⟨hr.returns, ?_⟩
  intro fuel fs' log out h hna
  obtain ⟨f, z, names, _, _, _, hjz, hzf, hsel, hnd, _, _, hfn, hzn, hsrc, hf0, hz0, hmain⟩ :=
    hr.setup
  rw [hmain fuel] at h
  rw [hjz] at hwz hlz
  have hout : out = .done := by
    rcases pipeline_done fl fuel src f z names hzf hr.wf hsrc hf0 hz0 hnd hfn hwz hlz h with
      h1 | h1
    · exact h1
    · obtain ⟨e, he, _⟩ := h1
      exact absurd he (hna e)
  subst hout
  obtain ⟨copyLog, zipLog, cleanLog, delLog, hlog, hl2, hl5, hzl, hcl, _, hzip, _, hdel⟩ :=
    pipeline_facts fl fuel src f z names hzf hr.wf hf0 hz0 hnd hfn hzn h
  refine ⟨rfl, copyLog, zipLog, cleanLog, delLog, hlog, ?_, ?_, hzl, hcl, ?_, ?_⟩
  · rw [hsel]
    exact List.forall₂_map_left_iff.2 hl2
  · rw [hsel]
    exact List.forall₂_map_left_iff.2 hl5
  · intro n hn hz1
    obtain ⟨es, hes, hin, _⟩ := hzip hz1
    exact ⟨es, by rw [hjz]; exact hes,
      fun r f' hst => hin n (copied_mem hl2 hn) hn r (.file f') hst⟩
  · intro n hn q hq
    exact hdel n (deleted_mem hl5 hn) hn q hq

/-- Witness for C4: with `a.txt` unreadable its staging copy fails, `sub` is
copied, archived and deleted, and the run reaches `Done!`. -/
theorem main_tolerates_failures_witness :
    Regular lowerAscii flUnreadable exFS [nHome] exAns ∧
    flUnreadable.write (join [nHome] (exAns.customFolderName ++ ".zip")) = false ∧
    tooLong flUnreadable (join [nHome] (exAns.customFolderName ++ ".zip")) = false ∧
    (∃ N x, ∀ fuel, N ≤ fuel → main lowerAscii flUnreadable fuel exFS [nHome] exAns = some x) ∧
    ∃ fs' log, main lowerAscii flUnreadable 5 exFS [nHome] exAns = some (fs', log, .done) ∧
      Log.failedCopy "a.txt" ⟨.EACCES, [nHome, nA]⟩ ∈ log ∧ Log.copied "sub" ∈ log ∧
      Log.deleted "sub" ∈ log ∧
      stat fs' [nHome, nOutZip] = some (.file (File.plain (Content.pack
        [([nSub], none), ([nSub, nC], some (.raw "C"))]))) ∧
      stat fs' [nHome, nSub] = none := by
  have hrun : main lowerAscii flUnreadable 5 exFS [nHome] exAns =
      some ([([], .dir), ([nHome], .dir), ([nHome, nB], .file (.raw "B")),
          ([nHome, nOutZip], .file (File.plain (Content.pack
            [([nSub], none), ([nSub, nC], some (.raw "C"))])))],
        [.moving, .failedCopy "a.txt" ⟨.EACCES, [nHome, nA]⟩, .copied "sub", .zipping,
          .zippedBytes, .zipped, .cleaning, .cleaned, .deleting, .deleted "a.txt",
          .deleted "sub", .done], .done) := by
    decide
  have hw : flUnreadable.write (join [nHome] (exAns.customFolderName ++ ".zip")) = false := rfl
  have hl : tooLong flUnreadable (join [nHome] (exAns.customFolderName ++ ".zip")) = false := by
    decide
  exact ⟨exAns_regular_unreadable, hw, hl,
    (main_tolerates_failures lowerAscii flUnreadable exFS [nHome] exAns
      exAns_regular_unreadable hw hl).1,
    _, _, hrun, by decide, by decide, by decide, by decide, by decide⟩

/-- Counterexample to C4 as stated, in three runs where `a.txt` is unreadable and
its staging copy fails.  With `out.zip` an entry that is selected too, every
step for `out.zip` succeeds, and the deletion of the originals removes the
archive.  With the staged `c.txt` unreadable the archive step fails and leaves
an incomplete file, and the run still deletes `sub`, which is in no archive.  With `out.zip` impossible to create
the output stream fails and the run ends there, short of the staging cleanup,
the deletions and `Done!`. -/
theorem main_copy_failure_runs :
    (∃ fs' log, main lowerAscii flUnreadable 5 exWithZip [nHome]
        ⟨"out", .all, none, ["a.txt", "out.zip"]⟩ = some (fs', log, .done) ∧
      Log.copied "out.zip" ∈ log ∧ Log.zipped ∈ log ∧ Log.deleted "out.zip" ∈ log ∧
      stat fs' [nHome, nOutZip] = none) ∧
    (∃ fs' log, main lowerAscii flStaged 5 exFS [nHome] exAns = some (fs', log, .done) ∧
      Log.copied "sub" ∈ log ∧ Log.deleted "sub" ∈ log ∧
      stat fs' [nHome, nSub, nC] = none ∧
      stat fs' [nHome, nOutZip] = some (.file (File.plain .incomplete))) ∧
    (∃ fs' log e, main lowerAscii flNoArchive 5 exFS [nHome] exAns =
        some (fs', log, .crashed e) ∧
      Log.failedCopy "a.txt" ⟨.EACCES, [nHome, nA]⟩ ∈ log ∧ Log.done ∉ log ∧
      stat fs' [nHome, nOut] = some .dir ∧ stat fs' [nHome, nSub] = some .dir) := by
  refine ⟨⟨_, _, rfl, by decide, by decide, by decide, by decide⟩,
    ⟨_, _, rfl, by decide, by decide, by decide, by decide⟩,
    ⟨_, _, _, rfl, by decide, by decide, by decide, by decide⟩⟩

/-- C5 (as amended): when the listing is not empty and holds no extension,
choosing the filter mode `extension` filters nothing: the filtered list is the
whole listing, the run is the run of the mode `all`, it does not take the
`EMPTY_FILTER` exit, and with the empty selection it ends in `EMPTY_SELECTION`
with the file system as it was. -/
theorem main_extension_without_extensions (lower : String → String) (fl : Faults) (fuel : Nat)
    (fs : FS) (src : Path) (ans : Answers) (contents : List Item)
    (hc : getContents lower fl fs src = .ok contents) (hne : contents ≠ [])
    (hext : extensions contents = []) (hmode : ans.filterOption = .extension) :
    filterContents contents ans = contents ∧
    main lower fl fuel fs src ans =
      main lower fl fuel fs src
        ⟨ans.customFolderName, .all, ans.selectedExtension, ans.selected⟩ ∧
    (∀ fs' log out, main lower fl fuel fs src ans = some (fs', log, out) →
      out ≠ .emptyFilter) ∧
    (ans.selected = [] →
      main lower fl fuel fs src ans = some (fs, [.noSelection], .emptySelection)) := by
  have hfil : filterContents contents ans = contents := by
    simp [filterContents, hmode, hext]
  have hfil' : filterContents contents
      ⟨ans.customFolderName, .all, ans.selectedExtension, ans.selected⟩ = contents := by
    simp [filterContents]
  have hsrc := (getContents_ok hc).1
  have h1 : ¬ contents.length = 0 := fun e => hne (List.length_eq_zero.1 e)
  have hmain : ∀ a : Answers, filterContents contents a = contents →
      main lower fl fuel fs src a =
        if a.selected.length = 0 then some (fs, [.noSelection], .emptySelection)
        else runPipeline fl fuel fs src (join src a.customFolderName)
          (join src (a.customFolderName ++ ".zip")) a.selected := by
    intro a ha
    unfold main
    simp only [hsrc, Option.isNone_some, Bool.false_eq_true, if_false, hc, h1, ha]
  refine ⟨hfil, ?_, ?_, ?_⟩
  · rw [hmain ans hfil, hmain _ hfil']
  · intro fs' log out h
    rw [hmain ans hfil] at h
    split at h
    · simp only [Option.some.injEq, Prod.mk.injEq] at h
      rw [← h.2.2]; simp
    · rcases runPipeline_cases h with ⟨e, _, _, ho⟩ | ⟨_, _, _, _, _, _, _, _, hrest⟩
      · rw [ho]; simp
      · rcases hrest with ⟨e, _, _, _, ho⟩ | ⟨_, _, _, _, _, _, _, _, _, _, ho⟩
        · rw [ho]; simp
        · rw [ho]; simp
  · intro hsel
    rw [hmain ans hfil, hsel]
    simp

/-- Witness for C5: the listing of `README`, with the empty selection. -/
theorem main_extension_without_extensions_witness :
    getContents lowerAscii Faults.none exReadme [nHome] =
      .ok [⟨nReadme, false, "file", some ""⟩] ∧
    extensions [⟨nReadme, false, "file", some ""⟩] = [] ∧
    main lowerAscii Faults.none 5 exReadme [nHome] ⟨"out", .extension, none, []⟩ =
      some (exReadme, [.noSelection], .emptySelection) := by
  have hc : getContents lowerAscii Faults.none exReadme [nHome] =
      .ok [⟨nReadme, false, "file", some ""⟩] := rfl
  have hext : extensions [⟨nReadme, false, "file", some ""⟩] = [] := by decide
  exact ⟨hc, hext,
    (main_extension_without_extensions lowerAscii Faults.none 5 exReadme [nHome]
      ⟨"out", .extension, none, []⟩ _ hc (by simp) hext rfl).2.2.2 rfl⟩

/-- Counterexample to C5 as stated: the listing of `/home` holds `README` only,
so there is no extension; in the filter mode `extension` the run offers
`README`, and with `README` selected it runs to `Done!` and archives and deletes
the file, instead of ending in `EMPTY_FILTER` with the file system as it was. -/
theorem main_extension_mode_runs :
    extensions [⟨nReadme, false, "file", some ""⟩] = [] ∧
    getContents lowerAscii Faults.none exReadme [nHome] =
      .ok [⟨nReadme, false, "file", some ""⟩] ∧
    ∃ fs' log, main lowerAscii Faults.none 5 exReadme [nHome]
        ⟨"out", .extension, none, ["README"]⟩ = some (fs', log, .done) ∧
      stat exReadme [nHome, nReadme] = some (.file (.raw "R")) ∧
      stat fs' [nHome, nReadme] = none := by
  refine ⟨by decide, rfl, _, _, rfl, by decide, by decide⟩

end ArchiveUtility
